import Mathlib

/-!
# ReadMeRunner: the block scanner, the block compiler and the fingerprinter

A shallow embedding of `cmd/run.go`.  Go strings are modelled as lists of Unicode
code points (`Str`); for well-formed UTF-8 text the byte-wise comparison of Go
strings coincides with the lexicographic comparison of code points, and the
regular expressions of the source work on code points.  A Go
`map[string]string` is modelled as an association list with pairwise distinct
keys; the order of the list stands for the (unspecified) iteration order of the
map.
-/

namespace ReadMeRunner

/-- A Go string, as the list of its code points. -/
abbrev Str := List Char

/-! ## Characters used by the source -/

/-- The line feed, the separator of `strings.Split(content, "\n")`. -/
def newline : Char := Char.ofNat 10

/-- The double quote that delimits a literal value. -/
def dquote : Char := Char.ofNat 34

/-- The backslash that marks a continued command line. -/
def backslash : Char := Char.ofNat 92

/-- The equals sign of an assignment. -/
def equalsSign : Char := Char.ofNat 61

/-- The opening bracket of a block name. -/
def lbracket : Char := Char.ofNat 91

/-- The closing bracket of a block name. -/
def rbracket : Char := Char.ofNat 93

/-- The marker `#` of a variable reference. -/
def hashSign : Char := Char.ofNat 35

/-- The class `\s` of Go regular expressions (RE2): tab, line feed, form feed,
carriage return and space. -/
def isReSpace (c : Char) : Bool :=
  c.toNat = 9 || c.toNat = 10 || c.toNat = 12 || c.toNat = 13 || c.toNat = 32

/-- The class `[a-zA-Z0-9_-]` of the three identifier patterns. -/
def isIdentChar (c : Char) : Bool :=
  (97 ≤ c.toNat && c.toNat ≤ 122) || (65 ≤ c.toNat && c.toNat ≤ 90) ||
    (48 ≤ c.toNat && c.toNat ≤ 57) || c.toNat = 95 || c.toNat = 45

/-- White space as `unicode.IsSpace` defines it, which is what
`strings.TrimSpace` removes: the Latin-1 spaces `\t \n \v \f \r`, space,
U+0085, U+00A0, and the code points with the `White_Space` property. -/
def isSpace (c : Char) : Bool :=
  (9 ≤ c.toNat && c.toNat ≤ 13) || c.toNat = 32 || c.toNat = 0x85 || c.toNat = 0xA0 ||
    c.toNat = 0x1680 || (0x2000 ≤ c.toNat && c.toNat ≤ 0x200A) || c.toNat = 0x2028 ||
    c.toNat = 0x2029 || c.toNat = 0x202F || c.toNat = 0x205F || c.toNat = 0x3000

/-! ## The functions of package `strings` that the source calls -/

/-- `strings.TrimSpace`. -/
def trimSpace (s : Str) : Str :=
  List.rdropWhile isSpace (s.dropWhile isSpace)

/-- `strings.TrimRight(s, " \t")`. -/
def trimRightBlanks (s : Str) : Str :=
  List.rdropWhile (fun c => c.toNat = 32 || c.toNat = 9) s

/-- `strings.HasSuffix`. -/
def hasSuffix (s suf : Str) : Bool :=
  suf.isSuffixOf s

/-- `strings.TrimSuffix`: removes one trailing occurrence of `suf`, if any. -/
def trimSuffix (s suf : Str) : Str :=
  if hasSuffix s suf then s.take (s.length - suf.length) else s

/-- `strings.Contains`. -/
def containsStr : Str → Str → Bool
  | [], sub => sub.isPrefixOf []
  | c :: cs, sub => sub.isPrefixOf (c :: cs) || containsStr cs sub

/-- `strings.Split(s, "\n")`: the pieces between line feeds, one more than there
are line feeds. -/
def splitLines : Str → List Str
  | [] => [[]]
  | c :: cs =>
    if c = newline then [] :: splitLines cs
    else
      match splitLines cs with
      | [] => [[c]]
      | l :: ls => (c :: l) :: ls

/-- The document made of the given lines (`strings.Join(lines, "\n")`); it is the
way a document with one line deleted is written down. -/
def joinLines : List Str → Str
  | [] => []
  | [l] => l
  | l :: ls => l ++ newline :: joinLines ls

/-! ## The data model -/

/-- The struct `RRBlock`.  `Variables` is the map, as an association list. -/
structure RRBlock where
  Name : Str
  Variables : List (Str × Str)
  Commands : List Str
  deriving DecidableEq, Repr

/-- The map read `m[k]`: the zero value `""` for an absent key. -/
def mapGet (m : List (Str × Str)) (k : Str) : Str :=
  (m.lookup k).getD []

/-- The map write `m[k] = v`: an existing key keeps its place and takes the new
value, a new key is added. -/
def mapSet : List (Str × Str) → Str → Str → List (Str × Str)
  | [], k, v => [(k, v)]
  | (k0, v0) :: m, k, v => if k0 = k then (k, v) :: m else (k0, v0) :: mapSet m k v

/-! ## SHA-256 (FIPS 180-4), the digest behind `sha256.Sum256` -/

/-- The sixty-four round constants. -/
def sha256K : List Nat :=
  [0x428a2f98, 0x71374491, 0xb5c0fbcf, 0xe9b5dba5, 0x3956c25b, 0x59f111f1, 0x923f82a4, 0xab1c5ed5,
   0xd807aa98, 0x12835b01, 0x243185be, 0x550c7dc3, 0x72be5d74, 0x80deb1fe, 0x9bdc06a7, 0xc19bf174,
   0xe49b69c1, 0xefbe4786, 0x0fc19dc6, 0x240ca1cc, 0x2de92c6f, 0x4a7484aa, 0x5cb0a9dc, 0x76f988da,
   0x983e5152, 0xa831c66d, 0xb00327c8, 0xbf597fc7, 0xc6e00bf3, 0xd5a79147, 0x06ca6351, 0x14292967,
   0x27b70a85, 0x2e1b2138, 0x4d2c6dfc, 0x53380d13, 0x650a7354, 0x766a0abb, 0x81c2c92e, 0x92722c85,
   0xa2bfe8a1, 0xa81a664b, 0xc24b8b70, 0xc76c51a3, 0xd192e819, 0xd6990624, 0xf40e3585, 0x106aa070,
   0x19a4c116, 0x1e376c08, 0x2748774c, 0x34b0bcb5, 0x391c0cb3, 0x4ed8aa4a, 0x5b9cca4f, 0x682e6ff3,
   0x748f82ee, 0x78a5636f, 0x84c87814, 0x8cc70208, 0x90befffa, 0xa4506ceb, 0xbef9a3f7, 0xc67178f2]

/-- Addition of 32-bit words. -/
def add32 (x y : Nat) : Nat := (x + y) % 2 ^ 32

/-- Rotation to the right of a 32-bit word. -/
def rotr32 (x n : Nat) : Nat := ((x >>> n) ||| (x <<< (32 - n))) % 2 ^ 32

/-- Bitwise complement of a 32-bit word. -/
def not32 (x : Nat) : Nat := 2 ^ 32 - 1 - x % 2 ^ 32

def bigSigma0 (x : Nat) : Nat := rotr32 x 2 ^^^ rotr32 x 13 ^^^ rotr32 x 22

def bigSigma1 (x : Nat) : Nat := rotr32 x 6 ^^^ rotr32 x 11 ^^^ rotr32 x 25

def smallSigma0 (x : Nat) : Nat := rotr32 x 7 ^^^ rotr32 x 18 ^^^ (x >>> 3)

def smallSigma1 (x : Nat) : Nat := rotr32 x 17 ^^^ rotr32 x 19 ^^^ (x >>> 10)

def shaCh (x y z : Nat) : Nat := (x &&& y) ^^^ (not32 x &&& z)

def shaMaj (x y z : Nat) : Nat := (x &&& y) ^^^ (x &&& z) ^^^ (y &&& z)

/-- The eight working words. -/
structure ShaState where
  a : Nat
  b : Nat
  c : Nat
  d : Nat
  e : Nat
  f : Nat
  g : Nat
  h : Nat
  deriving DecidableEq, Repr

/-- The initial hash value. -/
def shaInit : ShaState :=
  ⟨0x6a09e667, 0xbb67ae85, 0x3c6ef372, 0xa54ff53a, 0x510e527f, 0x9b05688c, 0x1f83d9ab, 0x5be0cd19⟩

/-- The four bytes of a 32-bit word, most significant first. -/
def be32 (x : Nat) : List Nat :=
  [x / 2 ^ 24 % 256, x / 2 ^ 16 % 256, x / 2 ^ 8 % 256, x % 256]

/-- The eight bytes of a 64-bit length, most significant first. -/
def be64 (x : Nat) : List Nat :=
  be32 (x / 2 ^ 32 % 2 ^ 32) ++ be32 (x % 2 ^ 32)

/-- The padded message: a `0x80` byte, zero bytes up to 56 modulo 64, and the bit
length. -/
def shaPad (msg : List Nat) : List Nat :=
  msg ++ 0x80 :: List.replicate ((119 - msg.length % 64) % 64) 0 ++ be64 (8 * msg.length)

/-- The big-endian words of a chunk of bytes. -/
def shaWords (chunk : List Nat) : List Nat :=
  (chunk.toChunks 4).map fun bs => bs.foldl (fun acc b => acc * 256 + b) 0

/-- The message schedule: the sixteen words of the chunk extended to sixty-four. -/
def shaSchedule (ws : List Nat) : List Nat :=
  (List.range 48).foldl (fun w _ =>
    let n := w.length
    w ++ [add32 (add32 (smallSigma1 (w.getD (n - 2) 0)) (w.getD (n - 7) 0))
            (add32 (smallSigma0 (w.getD (n - 15) 0)) (w.getD (n - 16) 0))]) ws

/-- One round of the compression function. -/
def shaRound (s : ShaState) (k w : Nat) : ShaState :=
  let t1 := add32 (add32 (add32 s.h (bigSigma1 s.e)) (shaCh s.e s.f s.g)) (add32 k w)
  let t2 := add32 (bigSigma0 s.a) (shaMaj s.a s.b s.c)
  ⟨add32 t1 t2, s.a, s.b, s.c, add32 s.d t1, s.e, s.f, s.g⟩

/-- The compression of one 64-byte chunk into the hash value. -/
def shaCompress (hv : ShaState) (chunk : List Nat) : ShaState :=
  let s := (sha256K.zip (shaSchedule (shaWords chunk))).foldl (fun s kw => shaRound s kw.1 kw.2) hv
  ⟨add32 hv.a s.a, add32 hv.b s.b, add32 hv.c s.c, add32 hv.d s.d,
   add32 hv.e s.e, add32 hv.f s.f, add32 hv.g s.g, add32 hv.h s.h⟩

/-- The digest `sha256.Sum256`: thirty-two bytes. -/
def sha256 (msg : List Nat) : List Nat :=
  let s := ((shaPad msg).toChunks 64).foldl shaCompress shaInit
  be32 s.a ++ be32 s.b ++ be32 s.c ++ be32 s.d ++ be32 s.e ++ be32 s.f ++ be32 s.g ++ be32 s.h

/-- The UTF-8 bytes of a code point. -/
def utf8Bytes (c : Char) : List Nat :=
  let n := c.toNat
  if n < 0x80 then [n]
  else if n < 0x800 then [0xC0 + n / 64, 0x80 + n % 64]
  else if n < 0x10000 then [0xE0 + n / 4096, 0x80 + n / 64 % 64, 0x80 + n % 64]
  else [0xF0 + n / 262144, 0x80 + n / 4096 % 64, 0x80 + n / 64 % 64, 0x80 + n % 64]

/-- The conversion `[]byte(s)` of a string. -/
def toBytes (s : Str) : List Nat :=
  s.flatMap utf8Bytes

/-- The table `"0123456789abcdef"` of `encoding/hex`. -/
def hexDigit (n : Nat) : Char :=
  "0123456789abcdef".toList.getD n '0'

/-- `hex.EncodeToString`: two digits for each byte, the high nibble first. -/
def hexEncode (bs : List Nat) : Str :=
  bs.flatMap fun b => [hexDigit (b / 16), hexDigit (b % 16)]

/-! ## The fingerprint: `hashBlock` -/

/-- The body `if varKeys[i] > varKeys[j] { swap }` of the inner loop. -/
def swapIfGreater (a : List Str) (i j : Nat) : List Str :=
  if a.getD j [] < a.getD i [] then (a.set i (a.getD j [])).set j (a.getD i []) else a

/-- The inner loop `for j := i + 1; j < len(varKeys); j++`. -/
def sortInner (a : List Str) (i : Nat) : List Str :=
  (List.range' (i + 1) (a.length - (i + 1))).foldl (fun a j => swapIfGreater a i j) a

/-- The outer loop `for i := 0; i < len(varKeys)-1; i++` of the hand-written
exchange sort. -/
def exchangeSort (a : List Str) : List Str :=
  (List.range' 0 (a.length - 1)).foldl sortInner a

/-- The canonical string that `hashBlock` builds in `content`: the name line, one
line for each variable in the order of the sorted keys, one line for each
command. -/
def hashContent (block : RRBlock) : Str :=
  "name:".toList ++ block.Name ++ [newline] ++
    ((exchangeSort (block.Variables.map Prod.fst)).flatMap fun k =>
      "var:".toList ++ k ++ "=".toList ++ mapGet block.Variables k ++ [newline]) ++
    (block.Commands.flatMap fun cmd => "cmd:".toList ++ cmd ++ [newline])

/-- The function `hashBlock`: the hexadecimal SHA-256 digest of the canonical
string. -/
def hashBlock (block : RRBlock) : Str :=
  hexEncode (sha256 (toBytes (hashContent block)))

/-! ## The block compiler: `processBlockContent` -/

/-- Removes the literal `lit` from the front of `s`; `none` when `s` does not
start with it. -/
def dropLit (lit s : Str) : Option Str :=
  if lit.isPrefixOf s then some (s.drop lit.length) else none

/-- The common head `^\s*([a-zA-Z0-9_-]+)\s*=\s*` of `varAssignRegex` and
`promptRegex`: the captured identifier and the text that follows the white space
after `=`.  Every repetition is followed by a character outside its class, so the
match is the only one there is. -/
def matchAssignHead (line : Str) : Option (Str × Str) :=
  let s1 := line.dropWhile isReSpace
  let name := s1.takeWhile isIdentChar
  if name = [] then none
  else
    match (s1.dropWhile isIdentChar).dropWhile isReSpace with
    | [] => none
    | c :: s2 => if c = equalsSign then some (name, s2.dropWhile isReSpace) else none

/-- The tail `opening([^"]+)closing\s*$` of the two patterns, where `opening`
ends and `closing` starts with the double quote: the captured text. -/
def matchQuotedTail (opening closing s : Str) : Option Str :=
  match dropLit opening s with
  | none => none
  | some s1 =>
    let value := s1.takeWhile fun c => c != dquote
    if value = [] then none
    else
      match dropLit closing (s1.dropWhile fun c => c != dquote) with
      | none => none
      | some s2 => if s2.all isReSpace then some value else none

/-- The submatches 1 and 2 of
`varAssignRegex = ^\s*([a-zA-Z0-9_-]+)\s*=\s*"([^"]+)"\s*$`, or `none`. -/
def matchVarAssign (line : Str) : Option (Str × Str) :=
  match matchAssignHead line with
  | none => none
  | some (name, rest) =>
    match matchQuotedTail [dquote] [dquote] rest with
    | none => none
    | some value => some (name, value)

/-- The submatches 1 and 2 of
`promptRegex = ^\s*([a-zA-Z0-9_-]+)\s*=\s*#prompt\("([^"]+)"\)\s*$`, or
`none`. -/
def matchPrompt (line : Str) : Option (Str × Str) :=
  match matchAssignHead line with
  | none => none
  | some (name, rest) =>
    match matchQuotedTail ("#prompt(".toList ++ [dquote]) (dquote :: ")".toList) rest with
    | none => none
    | some question => some (name, question)

/-- The local state of `processBlockContent`: the map of the block, the builder
`currentCommand` and the slice `commands`. -/
structure CompileState where
  vars : List (Str × Str)
  currentCommand : Str
  commands : List Str
  deriving DecidableEq, Repr

/-- The statement `cmd := strings.TrimSpace(...); if cmd != "" { append }`. -/
def appendCommand (commands : List Str) (text : Str) : List Str :=
  if trimSpace text ≠ [] then commands ++ [trimSpace text] else commands

/-- The guarded flush `if currentCommand.Len() > 0 { ... }`. -/
def flushPending (st : CompileState) : List Str :=
  if st.currentCommand ≠ [] then appendCommand st.commands st.currentCommand else st.commands

/-- One iteration of the loop over the body lines. -/
def processLine (st : CompileState) (rawLine : Str) : CompileState :=
  let line := trimSpace rawLine
  if line = [] then st
  else
    match matchVarAssign line with
    | some (name, value) =>
      { vars := mapSet st.vars name value, currentCommand := [], commands := flushPending st }
    | none =>
      match matchPrompt line with
      | some (name, question) =>
        { vars := mapSet st.vars name ("#PROMPT:".toList ++ question)
          currentCommand := []
          commands := flushPending st }
      | none =>
        let cur := if st.currentCommand ≠ [] then st.currentCommand ++ " ".toList
          else st.currentCommand
        let trimmedLine := trimRightBlanks line
        if hasSuffix trimmedLine [backslash] then
          { st with currentCommand := cur ++ trimSuffix trimmedLine [backslash] }
        else
          { st with currentCommand := [], commands := appendCommand st.commands (cur ++ line) }

/-- The state after the loop over all the lines. -/
def compileLines (vars : List (Str × Str)) (lines : List Str) : CompileState :=
  lines.foldl processLine ⟨vars, [], []⟩

/-- The function `processBlockContent`; the block it mutates is returned. -/
def processBlockContent (block : RRBlock) (lines : List Str) : RRBlock :=
  let st := compileLines block.Variables lines
  { Name := block.Name, Variables := st.vars, Commands := flushPending st }

/-! ## The scanner: `parseRRBlocks` -/

/-- The end marker looked for by `strings.Contains(line, "-->")`. -/
def endMarker : Str := "-->".toList

/-- The optional group `(\[([^\]]+)\])?` at the front of `s`: submatch 2, which
is empty when the group does not take part in the match. -/
def bracketName (s : Str) : Str :=
  match s with
  | [] => []
  | c :: rest =>
    if c = lbracket then
      match rest.dropWhile fun d => d != rbracket with
      | [] => []
      | _ :: _ => rest.takeWhile fun d => d != rbracket
    else []

/-- A match of `rrBlockRegex = <!--\s*RR(\[([^\]]+)\])?\s*` that begins at the
front of `s`: submatch 2 of the match, or `none` when there is no match there. -/
def matchStartAt (s : Str) : Option Str :=
  match dropLit "<!--".toList s with
  | none => none
  | some s1 =>
    match dropLit "RR".toList (s1.dropWhile isReSpace) with
    | none => none
    | some s2 => some (bracketName s2)

/-- The leftmost match of `rrBlockRegex` in a line, as
`FindStringSubmatch` finds it: submatch 2 of that match. -/
def findStartMarker : Str → Option Str
  | [] => matchStartAt []
  | c :: cs =>
    match matchStartAt (c :: cs) with
    | some name => some name
    | none => findStartMarker cs

/-- The test `rrBlockRegex.MatchString(line)`. -/
def isStartLine (line : Str) : Bool :=
  (findStartMarker line).isSome

/-- The block name taken from the line: `matches[2]`, or `""`. -/
def startName (line : Str) : Str :=
  (findStartMarker line).getD []

/-- The local state of `parseRRBlocks`. -/
structure ScanState where
  inBlock : Bool
  currentBlock : Option RRBlock
  blockLines : List Str
  blocks : List RRBlock
  deriving DecidableEq, Repr

/-- The statement pair `processBlockContent(currentBlock, blockLines);
blocks = append(blocks, *currentBlock)`.  The pointer is never nil where the
source dereferences it; the nil case leaves `blocks` as it is. -/
def emitBlock (blocks : List RRBlock) (currentBlock : Option RRBlock)
    (blockLines : List Str) : List RRBlock :=
  match currentBlock with
  | some b => blocks ++ [processBlockContent b blockLines]
  | none => blocks

/-- One iteration of the loop over the lines of the document. -/
def scanLine (st : ScanState) (line : Str) : ScanState :=
  if isStartLine line then
    { inBlock := true
      currentBlock := some ⟨startName line, [], []⟩
      blockLines := []
      blocks := if st.inBlock then emitBlock st.blocks st.currentBlock st.blockLines
        else st.blocks }
  else if st.inBlock && containsStr line endMarker then
    let lastLine := trimSuffix (trimSpace line) endMarker
    let blockLines := if lastLine ≠ [] then st.blockLines ++ [lastLine] else st.blockLines
    { inBlock := false
      currentBlock := none
      blockLines := []
      blocks := emitBlock st.blocks st.currentBlock blockLines }
  else if st.inBlock then { st with blockLines := st.blockLines ++ [line] }
  else st

/-- The end of `parseRRBlocks`: a block that is still open is emitted. -/
def scanFinish (st : ScanState) : List RRBlock :=
  if st.inBlock then emitBlock st.blocks st.currentBlock st.blockLines else st.blocks

/-- The scanner on the lines of the document. -/
def parseLines (lines : List Str) : List RRBlock :=
  scanFinish (lines.foldl scanLine ⟨false, none, [], []⟩)

/-- The function `parseRRBlocks`. -/
def parseRRBlocks (content : Str) : List RRBlock :=
  parseLines (splitLines content)

/-! ## The substitution: `substituteVariables` and the merged map of `executeBlock` -/

/-- The replacement function handed to `ReplaceAllStringFunc`, applied to the match
`#name`: the value of `name` when the map has it, the match itself otherwise. -/
def replaceReference (vars : List (Str × Str)) (name : Str) : Str :=
  match vars.lookup name with
  | some value => value
  | none => hashSign :: name

/-- The scan of `varUsageRegex.ReplaceAllStringFunc` for
`varUsageRegex = #([a-zA-Z0-9_-]+)`, with `skip` characters of the text still
belonging to the match that was replaced last.  A match begins at every `#` that
is followed by an identifier character and takes the longest run of identifier
characters; matches do not overlap and the text between them is copied. -/
def substituteFrom (vars : List (Str × Str)) : Nat → Str → Str
  | _, [] => []
  | skip + 1, _ :: cs => substituteFrom vars skip cs
  | 0, c :: cs =>
    if c = hashSign ∧ cs.takeWhile isIdentChar ≠ [] then
      replaceReference vars (cs.takeWhile isIdentChar) ++
        substituteFrom vars (cs.takeWhile isIdentChar).length cs
    else c :: substituteFrom vars 0 cs

/-- The function `substituteVariables`. -/
def substituteVariables (cmd : Str) (vars : List (Str × Str)) : Str :=
  substituteFrom vars 0 cmd

/-- The loop `for k, v := range m { mergedVars[k] = v }`. -/
def mapSetAll (merged m : List (Str × Str)) : List (Str × Str) :=
  m.foldl (fun acc kv => mapSet acc kv.1 kv.2) merged

/-- The map `mergedVars` that `executeBlock` builds before it substitutes in a
command: the entries of `envVars` first, then the entries of the block. -/
def mergeVars (envVars blockVars : List (Str × Str)) : List (Str × Str) :=
  mapSetAll (mapSetAll [] envVars) blockVars

/-! ## The approval store: `loadApprovedHashes` -/

/-- The file `.rr` of the working directory as `loadApprovedHashes` meets it: not
there (`os.Stat` reports that it does not exist), there but `os.ReadFile` fails,
or there with its content. -/
inductive StoreFile where
  | absent : StoreFile
  | unreadable : StoreFile
  | present (content : Str) : StoreFile
  deriving DecidableEq, Repr

/-- The statement `approvedHashes[line] = true` on the set of keys of the map. -/
def setInsert (keys : List Str) (line : Str) : List Str :=
  if line ∈ keys then keys else keys ++ [line]

/-- The function `loadApprovedHashes`; the result is the list of the keys of the
returned map, every one of which has the value `true`. -/
def loadApprovedHashes (file : StoreFile) : List Str :=
  match file with
  | StoreFile.absent => []
  | StoreFile.unreadable => []
  | StoreFile.present content =>
    (splitLines content).foldl
      (fun approved line => if trimSpace line ≠ [] then setInsert approved (trimSpace line)
        else approved) []

/-! ## The approval store: `saveBlockHash` -/

/-- The function `saveBlockHash`, as the state of the file `.rr` after the call.
`writeOk` tells whether `os.OpenFile` and `WriteString` succeed; when they do not
the file is left as it was.  A file that cannot be read stays so. -/
def saveBlockHash (file : StoreFile) (hash : Str) (writeOk : Bool) : StoreFile :=
  if hash ∈ loadApprovedHashes file then file
  else if writeOk = false then file
  else
    match file with
    | StoreFile.absent => StoreFile.present (hash ++ [newline])
    | StoreFile.unreadable => StoreFile.unreadable
    | StoreFile.present content => StoreFile.present (content ++ (hash ++ [newline]))

/-! ## The lookup of the document: `findReadme` -/

/-- The path `filepath.Join(workDir, name)` for a clean directory path and a plain
file name. -/
def joinPath (workDir name : Str) : Str :=
  workDir ++ "/".toList ++ name

/-- The function `findReadme`; `fileExists path` tells whether `os.Stat(path)`
succeeds. -/
def findReadme (fileExists : Str → Bool) (workDir : Str) : Str × Bool :=
  match [joinPath workDir "readme.md".toList, joinPath workDir "README.md".toList].find?
      fileExists with
  | some path => (path, true)
  | none => ([], false)

/-! ## The execution: `executeBlock` and the loop of `execute` -/

/-- `strings.HasPrefix`. -/
def hasPrefix (s pre : Str) : Bool :=
  pre.isPrefixOf s

/-- `strings.TrimPrefix`. -/
def trimPrefix (s pre : Str) : Str :=
  if hasPrefix s pre then s.drop pre.length else s

/-- The sentinel `"#PROMPT:"` that marks a pending prompt. -/
def promptSentinel : Str := "#PROMPT:".toList

/-- The state of the first loop of `executeBlock`: the map of the block, the lines
still to be read from the standard input, the questions printed so far, and whether
the function has returned the error of a failed read. -/
structure PromptState where
  vars : List (Str × Str)
  stdin : List Str
  asked : List Str
  failed : Bool
  deriving DecidableEq, Repr

/-- One iteration of `for varName, varValue := range block.Variables`: a value
with the sentinel prefix has its question printed and is replaced by the trimmed
line read from the standard input; when no line can be read the function
returns an error. -/
def resolvePrompt (st : PromptState) (entry : Str × Str) : PromptState :=
  if st.failed then st
  else if hasPrefix entry.2 promptSentinel then
    match st.stdin with
    | [] => { st with asked := st.asked ++ [trimPrefix entry.2 promptSentinel], failed := true }
    | input :: rest =>
      { vars := mapSet st.vars entry.1 (trimSpace input)
        stdin := rest
        asked := st.asked ++ [trimPrefix entry.2 promptSentinel]
        failed := false }
  else st

/-- The second loop of `executeBlock`: every command is substituted with the merged
map and handed to the shell; `run cmd` tells whether `shellCmd.Run()` succeeds.
The result is the list of the commands that were run, in order, and whether an
error is returned. -/
def runCommands (run : Str → Bool) (merged : List (Str × Str)) : List Str → List Str × Bool
  | [] => ([], false)
  | cmd :: rest =>
    if run (substituteVariables cmd merged) then
      (substituteVariables cmd merged :: (runCommands run merged rest).1,
        (runCommands run merged rest).2)
    else ([substituteVariables cmd merged], true)

/-- What a call of `executeBlock` does: the questions it prints, the commands it
hands to the shell, whether it returns an error, and the input it leaves. -/
structure ExecResult where
  asked : List Str
  ran : List Str
  failed : Bool
  stdin : List Str
  deriving DecidableEq, Repr

/-- The function `executeBlock`. -/
def executeBlock (block : RRBlock) (envVars : List (Str × Str)) (stdin : List Str)
    (run : Str → Bool) : ExecResult :=
  let ps := block.Variables.foldl resolvePrompt ⟨block.Variables, stdin, [], false⟩
  if ps.failed then ⟨ps.asked, [], true, ps.stdin⟩
  else
    ⟨ps.asked, (runCommands run (mergeVars envVars ps.vars) block.Commands).1,
      (runCommands run (mergeVars envVars ps.vars) block.Commands).2, ps.stdin⟩

/-- The state of the loop over the blocks in `execute`: the file `.rr`, the input
left, the commands handed to the shell so far, each with the index of its block,
and whether the process has exited after a failed block. -/
structure RunState where
  store : StoreFile
  stdin : List Str
  ran : List (Nat × Str)
  exited : Bool
  deriving DecidableEq, Repr

/-- The call of `executeBlock` in the loop, with `os.Exit(-1)` on an error. -/
def runBlock (envVars : List (Str × Str)) (run : Str → Bool) (st : RunState)
    (i : Nat) (block : RRBlock) : RunState :=
  { store := st.store
    stdin := (executeBlock block envVars st.stdin run).stdin
    ran := st.ran ++ (executeBlock block envVars st.stdin run).ran.map fun cmd => (i, cmd)
    exited := (executeBlock block envVars st.stdin run).failed }

/-- One iteration of `for i, block := range blocks` in `execute`.  `approved` is the
map loaded before the loop, `confirm i` is the answer of `promptForBlock` for the
block of index `i`, `writeOk` tells whether the store can be written. -/
def executeStep (trust : Bool) (envVars : List (Str × Str)) (approved : List Str)
    (confirm : Nat → Bool) (run : Str → Bool) (writeOk : Bool) (st : RunState)
    (indexed : Nat × RRBlock) : RunState :=
  if st.exited then st
  else if trust then runBlock envVars run st indexed.1 indexed.2
  else if hashBlock indexed.2 ∈ approved then runBlock envVars run st indexed.1 indexed.2
  else if confirm indexed.1 = false then st
  else
    runBlock envVars run { st with store := saveBlockHash st.store (hashBlock indexed.2) writeOk }
      indexed.1 indexed.2

/-- The loop over the blocks in `execute`, from the blocks parsed out of the
document and the approval set loaded at the start of the run. -/
def executeBlocks (trust : Bool) (blocks : List RRBlock) (envVars : List (Str × Str))
    (store : StoreFile) (stdin : List Str) (confirm : Nat → Bool) (run : Str → Bool)
    (writeOk : Bool) : RunState :=
  blocks.enum.foldl
    (executeStep trust envVars (if trust then [] else loadApprovedHashes store) confirm run
      writeOk)
    ⟨store, stdin, [], false⟩

/-! ## Definitions used in the statements and proofs -/

/-- Walks `x` through `rest` the way the inner loop does: the least element met so
far stays in hand, the greater one is left behind. -/
def bubbleMin : Str → List Str → Str × List Str
  | x, [] => (x, [])
  | x, y :: ys =>
    if y < x then ((bubbleMin y ys).1, x :: (bubbleMin y ys).2)
    else ((bubbleMin x ys).1, y :: (bubbleMin x ys).2)

/-- The canonical string as the specification words it: the name line, the
variable lines with the keys in ascending order (the order produced by the
library insertion sort), the command lines in their own order. -/
def canonicalString (block : RRBlock) : Str :=
  "name:".toList ++ block.Name ++ [newline] ++
    (((block.Variables.map Prod.fst).insertionSort (· ≤ ·)).flatMap fun k =>
      "var:".toList ++ k ++ "=".toList ++ mapGet block.Variables k ++ [newline]) ++
    (block.Commands.flatMap fun cmd => "cmd:".toList ++ cmd ++ [newline])

/-- The scanner state with `extra` put in front of the blocks emitted so far. -/
def ScanState.addBlocks (extra : List RRBlock) (st : ScanState) : ScanState :=
  { st with blocks := extra ++ st.blocks }

/-- The position after the lines `pre` lies outside every block, in the words of the
specification: no start-marker line comes before it, or a line with the end marker
closed the last block that was opened and no start-marker line follows that
line. -/
def LiesOutside (pre : List Str) : Prop :=
  (∀ x ∈ pre, isStartLine x = false) ∨
    ∃ a s b c d, pre = a ++ s :: (b ++ c :: d) ∧ isStartLine s = true ∧
      (∀ x ∈ b, isStartLine x = false ∧ containsStr x endMarker = false) ∧
      isStartLine c = false ∧ containsStr c endMarker = true ∧
      ∀ x ∈ d, isStartLine x = false

/-- The text `"<!--" ws "RR"` of a start marker, with `ws` the optional white
space. -/
def markerText (ws : Str) : Str :=
  "<!--".toList ++ ws ++ "RR".toList

/-- The line has a start marker after `pre`, followed by `rest`, and no start marker
begins earlier in the line: it is the first start marker of the line. -/
def FirstMarker (line pre ws rest : Str) : Prop :=
  (∀ c ∈ ws, isReSpace c = true) ∧ line = pre ++ markerText ws ++ rest ∧
    ∀ pre2 ws2 rest2, (∀ c ∈ ws2, isReSpace c = true) →
      line = pre2 ++ markerText ws2 ++ rest2 → pre.length ≤ pre2.length

/-- The body line `n = "v"` with white space `ws1` before the name, `ws2` and `ws3`
around the equals sign and `ws4` after the closing quote. -/
def literalLine (ws1 n ws2 ws3 v ws4 : Str) : Str :=
  ws1 ++ (n ++ (ws2 ++ equalsSign :: (ws3 ++ dquote :: (v ++ dquote :: ws4))))

/-- The body line `n = #prompt("q")` with white space `ws1` before the name, `ws2` and
`ws3` around the equals sign and `ws4` after the closing parenthesis. -/
def promptLine (ws1 n ws2 ws3 q ws4 : Str) : Str :=
  ws1 ++ (n ++ (ws2 ++ equalsSign :: (ws3 ++
    ("#prompt(".toList ++ dquote :: (q ++ dquote :: (")".toList ++ ws4))))))

/-- A line is blank when it is empty or made of white space only. -/
def isBlankLine (line : Str) : Bool :=
  line.all isSpace

/-- The variable binding that a body line declares: the name and the value that
`processBlockContent` stores for a literal assignment or for a prompt assignment
(the literal pattern is tried first), `none` for any other line. -/
def assignedVariable (line : Str) : Option (Str × Str) :=
  match matchVarAssign (trimSpace line) with
  | some (name, value) => some (name, value)
  | none =>
    match matchPrompt (trimSpace line) with
    | some (name, question) => some (name, "#PROMPT:".toList ++ question)
    | none => none

/-- A command line: a line that is not blank and matches neither assignment
pattern. -/
def isCommandLine (line : Str) : Bool :=
  !(trimSpace line).isEmpty && (assignedVariable line).isNone

/-- A continued line: after trimming it ends with a backslash. -/
def isContinued (line : Str) : Bool :=
  hasSuffix (trimSpace line) [backslash]

/-- The fragment that a command line contributes: the trimmed line with its one
trailing backslash removed. -/
def fragment (line : Str) : Str :=
  trimSuffix (trimSpace line) [backslash]

/-- The separator step `if currentCommand.Len() > 0 { WriteString(" ") }`. -/
def withSeparator (cur : Str) : Str :=
  if cur ≠ [] then cur ++ " ".toList else cur

/-- The join of fragments with single spaces. -/
def joinSpaces : List Str → Str
  | [] => []
  | [f] => f
  | f :: fs => f ++ ' ' :: joinSpaces fs

/-- The consecutive groups of a list of command lines: each group is made of zero
or more continued lines followed by one line that is not continued; the last
group may lack that line. -/
def splitGroups : List Str → List (List Str)
  | [] => []
  | l :: ls =>
    if isContinued l then
      match splitGroups ls with
      | [] => [[l]]
      | g :: gs => (l :: g) :: gs
    else [l] :: splitGroups ls

/-- The command of a group: the join of its fragments with single spaces, with
the white space around it trimmed. -/
def groupCommand (group : List Str) : Str :=
  trimSpace (joinSpaces (group.map fragment))

/-- The commands of a body of command lines as the specification states them: the
commands of the groups, in the order of the groups, without the empty ones. -/
def assembleCommands (lines : List Str) : List Str :=
  ((splitGroups lines).map groupCommand).filter fun cmd => !cmd.isEmpty

/-- The accumulator `currentCommand` after the fragments `fs` have been appended to
`cur`, each after the separator step. -/
def accumulate (cur : Str) (fs : List Str) : Str :=
  fs.foldl (fun acc f => withSeparator acc ++ f) cur

/-- The command that a text gives when it is completed: its trimmed form, unless
that is empty. -/
def completed (text : Str) : List Str :=
  if trimSpace text ≠ [] then [trimSpace text] else []

/-- The commands that the command lines `lines` give when the fragments `fs` are
pending. -/
def pendingCommands : List Str → List Str → List Str
  | fs, [] => completed (joinSpaces fs)
  | fs, l :: ls =>
    if isContinued l then pendingCommands (fs ++ [fragment l]) ls
    else completed (joinSpaces (fs ++ [fragment l])) ++ pendingCommands [] ls

/-- No reference of the command names a key of the map: wherever a `#` is followed
by a non-empty longest run of identifier characters, the map has no entry for that
run. -/
def NoDeclaredReference (cmd : Str) (vars : List (Str × Str)) : Prop :=
  ∀ pre post, cmd = pre ++ hashSign :: post → post.takeWhile isIdentChar ≠ [] →
    vars.lookup (post.takeWhile isIdentChar) = none

/-- The four lines of the block `Deploy` of the scenario: the start marker, the
literal assignment, the command and the line with the end marker. -/
def deployLines : List Str :=
  ["<!-- RR[Deploy]".toList, "project = \"site\"".toList, "deploy.sh #project".toList, endMarker]

/-- The content of a store that holds the digests `rs`: one line for each, every
line ended by a line feed. -/
def storeLines (rs : List Str) : Str :=
  rs.flatMap fun d => d ++ [newline]

/-- The digests recorded by a sequence of calls, each once, in the order of their
first call. -/
def recorded (ds : List Str) : List Str :=
  ds.foldl setInsert []

/-- The store that holds the digests `rs`: absent as long as nothing was
recorded. -/
def storeOf (rs : List Str) : StoreFile :=
  if rs = [] then StoreFile.absent else StoreFile.present (storeLines rs)

/-- The store after the successful calls `saveBlockHash(dir, d)` for the digests of
`ds`, in order, starting from `file`. -/
def recordAll (file : StoreFile) (ds : List Str) : StoreFile :=
  ds.foldl (fun f d => saveBlockHash f d true) file

/-- A digest without white space: not empty, and no character of it is white
space (a line feed is white space). -/
def IsCleanDigest (d : Str) : Prop :=
  d ≠ [] ∧ ∀ c ∈ d, isSpace c = false

/-- A block without pending prompts: no value of its variables begins with the
sentinel. -/
def NoPendingPrompt (block : RRBlock) : Prop :=
  ∀ entry ∈ block.Variables, hasPrefix entry.2 promptSentinel = false

/-- The commands of a block after substitution with the variables of the block
merged over the supplied map, in declared order. -/
def substituted (block : RRBlock) (envVars : List (Str × Str)) : List Str :=
  block.Commands.map fun cmd => substituteVariables cmd (mergeVars envVars block.Variables)

/-- The invariant of the loop of `execute` without the trust flag, over the indexed
blocks `indexed`: every command run so far belongs to a block whose fingerprint is
in the approval set or whose confirmation was answered with yes, and the store is
the initial store after the recording of fingerprints of blocks that were not
approved and were confirmed. -/
def GateInvariant (approved : List Str) (confirm : Nat → Bool) (writeOk : Bool)
    (store : StoreFile) (indexed : List (Nat × RRBlock)) (st : RunState) : Prop :=
  (∀ i cmd, (i, cmd) ∈ st.ran →
      ∃ b, (i, b) ∈ indexed ∧ (hashBlock b ∈ approved ∨ confirm i = true)) ∧
    ∃ ds : List Str, st.store = ds.foldl (fun f d => saveBlockHash f d writeOk) store ∧
      ∀ d ∈ ds, ∃ i b, (i, b) ∈ indexed ∧ hashBlock b = d ∧ hashBlock b ∉ approved ∧
        confirm i = true

/-- The body lines that a line with the end marker adds to the open block: the
trimmed line without the marker at its end, when that text is not empty. -/
def endLineText (line : Str) : List Str :=
  if trimSuffix (trimSpace line) endMarker ≠ [] then [trimSuffix (trimSpace line) endMarker]
  else []

/-- The blocks that the parser can build: no line feed in the name, in a key, in a
value or in a command, no equals sign in a key, and no key twice. -/
def WellFormed (b : RRBlock) : Prop :=
  newline ∉ b.Name ∧ (b.Variables.map Prod.fst).Nodup ∧
    (∀ kv ∈ b.Variables, equalsSign ∉ kv.1 ∧ newline ∉ kv.1 ∧ newline ∉ kv.2) ∧
    ∀ c ∈ b.Commands, newline ∉ c

/-- The variable lines of the canonical string, without the line feed at their
end. -/
def variableLines (b : RRBlock) : List Str :=
  (exchangeSort (b.Variables.map Prod.fst)).map fun k =>
    "var:".toList ++ (k ++ equalsSign :: mapGet b.Variables k)

/-- The command lines of the canonical string, without the line feed at their
end. -/
def commandLines (b : RRBlock) : List Str :=
  b.Commands.map fun cmd => "cmd:".toList ++ cmd

/-- The invariant of the loop of `processBlockContent` on lines without a line
feed: the map has no key twice, no key holds an equals sign or a line feed, and no
value, pending command or command holds a line feed. -/
def CompileInvariant (st : CompileState) : Prop :=
  (st.vars.map Prod.fst).Nodup ∧
    (∀ kv ∈ st.vars, equalsSign ∉ kv.1 ∧ newline ∉ kv.1 ∧ newline ∉ kv.2) ∧
    newline ∉ st.currentCommand ∧ ∀ c ∈ st.commands, newline ∉ c

/-- The invariant of the loop of `parseRRBlocks` on lines without a line feed: the
open block, the lines gathered for it and the blocks emitted so far are
well-formed. -/
def ScanInvariant (st : ScanState) : Prop :=
  (∀ b, st.currentBlock = some b → WellFormed b) ∧ (∀ l ∈ st.blockLines, newline ∉ l) ∧
    ∀ b ∈ st.blocks, WellFormed b

/-! # Theorems -/

/-! ## The exchange sort -/

theorem getD_append_cons (pre : List Str) (x : Str) (rest : List Str) :
    (pre ++ x :: rest).getD pre.length [] = x := by
  induction pre with
  | nil => rfl
  | cons p ps ih => simpa using ih

theorem set_append_cons (pre : List Str) (x z : Str) (rest : List Str) :
    (pre ++ x :: rest).set pre.length z = pre ++ z :: rest := by
  induction pre with
  | nil => rfl
  | cons p ps ih => simp [ih]

theorem swapIfGreater_split (pre mid ys : List Str) (x y : Str) :
    swapIfGreater (pre ++ x :: (mid ++ y :: ys)) pre.length (pre.length + 1 + mid.length) =
      if y < x then pre ++ y :: (mid ++ x :: ys) else pre ++ x :: (mid ++ y :: ys) := by
  have hlen : ∀ z : Str, pre.length + 1 + mid.length = (pre ++ z :: mid).length := by
    intro z; simp; omega
  have hsplit : ∀ z w : Str, pre ++ z :: (mid ++ w :: ys) = (pre ++ z :: mid) ++ w :: ys := by
    intro z w; simp
  have h1 : (pre ++ x :: (mid ++ y :: ys)).getD pre.length [] = x := getD_append_cons pre x _
  have h2 : (pre ++ x :: (mid ++ y :: ys)).getD (pre.length + 1 + mid.length) [] = y := by
    rw [hlen x, hsplit x y]; exact getD_append_cons _ y ys
  unfold swapIfGreater
  rw [h1, h2]
  split
  · rw [set_append_cons pre x y, hlen y, hsplit y y, set_append_cons (pre ++ y :: mid) y x ys,
      ← hsplit y x]
  · rfl

theorem sortInner_fold (rest : List Str) : ∀ (x : Str) (mid pre : List Str),
    (List.range' (pre.length + 1 + mid.length) rest.length).foldl
        (fun a j => swapIfGreater a pre.length j) (pre ++ x :: (mid ++ rest)) =
      pre ++ (bubbleMin x rest).1 :: (mid ++ (bubbleMin x rest).2) := by
  induction rest with
  | nil => intro x mid pre; simp [bubbleMin]
  | cons y ys ih =>
    intro x mid pre
    rw [List.length_cons, List.range'_succ, List.foldl_cons, swapIfGreater_split]
    by_cases h : y < x
    · have := ih y (mid ++ [x]) pre
      simp only [List.length_append, List.length_singleton, List.append_assoc,
        List.singleton_append] at this
      simp only [h, if_true, bubbleMin]
      rw [Nat.add_assoc (pre.length + 1) mid.length 1]; exact this
    · have := ih x (mid ++ [y]) pre
      simp only [List.length_append, List.length_singleton, List.append_assoc,
        List.singleton_append] at this
      simp only [h, if_false, bubbleMin]
      rw [Nat.add_assoc (pre.length + 1) mid.length 1]; exact this

theorem sortInner_split (pre : List Str) (x : Str) (rest : List Str) :
    sortInner (pre ++ x :: rest) pre.length =
      pre ++ (bubbleMin x rest).1 :: (bubbleMin x rest).2 := by
  have := sortInner_fold rest x [] pre
  simp only [List.length_nil, Nat.add_zero, List.nil_append] at this
  unfold sortInner
  rw [← this]
  congr 2
  simp; omega

theorem bubbleMin_perm (rest : List Str) : ∀ x : Str,
    ((bubbleMin x rest).1 :: (bubbleMin x rest).2).Perm (x :: rest) := by
  induction rest with
  | nil => intro x; simp [bubbleMin]
  | cons y ys ih =>
    intro x
    by_cases h : y < x
    · simp only [bubbleMin, h, if_true]
      exact (List.Perm.swap _ _ _).trans ((ih y).cons x)
    · simp only [bubbleMin, h, if_false]
      exact ((List.Perm.swap _ _ _).trans ((ih x).cons y)).trans (List.Perm.swap _ _ _)

theorem bubbleMin_le (rest : List Str) : ∀ x : Str,
    (bubbleMin x rest).1 ≤ x ∧ ∀ z ∈ (bubbleMin x rest).2, (bubbleMin x rest).1 ≤ z := by
  induction rest with
  | nil => intro x; simp [bubbleMin]
  | cons y ys ih =>
    intro x
    by_cases h : y < x
    · simp only [bubbleMin, h, if_true]
      obtain ⟨h1, h2⟩ := ih y
      refine ⟨le_trans h1 (le_of_lt h), ?_⟩
      intro z hz
      rcases List.mem_cons.mp hz with rfl | hz
      · exact le_trans h1 (le_of_lt h)
      · exact h2 z hz
    · simp only [bubbleMin, h, if_false]
      obtain ⟨h1, h2⟩ := ih x
      refine ⟨h1, ?_⟩
      intro z hz
      rcases List.mem_cons.mp hz with rfl | hz
      · exact le_trans h1 (not_lt.mp h)
      · exact h2 z hz

theorem sortOuter_fold : ∀ (n : Nat) (suf pre : List Str), suf.length = n →
    List.Sorted (· ≤ ·) pre → (∀ p ∈ pre, ∀ s ∈ suf, p ≤ s) →
    List.Sorted (· ≤ ·) ((List.range' pre.length (suf.length - 1)).foldl sortInner (pre ++ suf)) ∧
      ((List.range' pre.length (suf.length - 1)).foldl sortInner (pre ++ suf)).Perm (pre ++ suf) := by
  intro n
  induction n with
  | zero =>
    intro suf pre hn hs _
    have : suf = [] := List.length_eq_zero.mp hn
    subst this
    simpa using hs
  | succ n ih =>
    intro suf pre hn hs hle
    match suf, hn with
    | [x], _ =>
      simp only [List.length_singleton, Nat.sub_self, List.range'_zero, List.foldl_nil]
      refine ⟨?_, List.Perm.refl _⟩
      rw [List.Sorted, List.pairwise_append]
      exact ⟨hs, List.pairwise_singleton _ _, fun p hp s hs2 => hle p hp s hs2⟩
    | x :: y :: t, hn =>
      have hlen : (x :: y :: t).length - 1 = (y :: t).length := by simp
      rw [hlen, List.length_cons, List.range'_succ, List.foldl_cons, sortInner_split]
      have hperm := bubbleMin_perm (y :: t) x
      obtain ⟨hmx, hmr⟩ := bubbleMin_le (y :: t) x
      have hrlen : (bubbleMin x (y :: t)).2.length = n := by
        have := hperm.length_eq
        simp only [List.length_cons] at this hn
        omega
      have hmem : ∀ z, z ∈ (bubbleMin x (y :: t)).1 :: (bubbleMin x (y :: t)).2 →
          z ∈ x :: y :: t := fun z hz => hperm.subset hz
      have key := ih (bubbleMin x (y :: t)).2 (pre ++ [(bubbleMin x (y :: t)).1]) hrlen
        (by
          rw [List.Sorted, List.pairwise_append]
          refine ⟨hs, List.pairwise_singleton _ _, ?_⟩
          intro p hp s hs2
          rw [List.mem_singleton] at hs2
          subst hs2
          exact hle p hp _ (hmem _ (List.mem_cons_self _ _)))
        (by
          intro p hp s hs2
          rcases List.mem_append.mp hp with hp | hp
          · exact hle p hp s (hmem s (List.mem_cons_of_mem _ hs2))
          · rw [List.mem_singleton] at hp
            subst hp
            exact hmr s hs2)
      have e1 : (pre ++ [(bubbleMin x (y :: t)).1]).length = pre.length + 1 := by simp
      have e2 : (bubbleMin x (y :: t)).2.length - 1 = t.length := by
        simp only [List.length_cons] at hn
        omega
      have e3 : pre ++ [(bubbleMin x (y :: t)).1] ++ (bubbleMin x (y :: t)).2 =
          pre ++ (bubbleMin x (y :: t)).1 :: (bubbleMin x (y :: t)).2 := by simp
      rw [e1, e2, e3] at key
      exact ⟨key.1, key.2.trans (hperm.append_left pre)⟩

theorem exchangeSort_sorted (a : List Str) : List.Sorted (· ≤ ·) (exchangeSort a) :=
  (sortOuter_fold a.length a [] rfl List.sorted_nil (by simp)).1

theorem exchangeSort_perm (a : List Str) : (exchangeSort a).Perm a :=
  (sortOuter_fold a.length a [] rfl List.sorted_nil (by simp)).2

theorem exchangeSort_congr {a b : List Str} (h : a.Perm b) : exchangeSort a = exchangeSort b :=
  List.eq_of_perm_of_sorted (((exchangeSort_perm a).trans h).trans (exchangeSort_perm b).symm)
    (exchangeSort_sorted a) (exchangeSort_sorted b)

theorem mapGet_perm {m1 m2 : List (Str × Str)} (h : m1.Perm m2)
    (hnd : (m1.map Prod.fst).Nodup) (k : Str) : mapGet m1 k = mapGet m2 k := by
  unfold mapGet
  congr 1
  induction h with
  | nil => rfl
  | cons x _ ih =>
    rcases x with ⟨xk, xv⟩
    rw [List.map_cons, List.nodup_cons] at hnd
    simp only [List.lookup_cons]
    split
    · rfl
    · exact ih hnd.2
  | swap x y l =>
    rcases x with ⟨xk, xv⟩
    rcases y with ⟨yk, yv⟩
    simp only [List.map_cons, List.nodup_cons, List.mem_cons, not_or] at hnd
    have hne : yk ≠ xk := hnd.1.1
    simp only [List.lookup_cons]
    by_cases h1 : k = xk
    · subst h1
      have e1 : (k == yk) = false := by simpa using fun e => hne e.symm
      simp [e1]
    · have e1 : (k == xk) = false := by simpa using h1
      simp [e1]
  | trans h1 _ ih1 ih2 =>
    exact (ih1 hnd).trans (ih2 ((h1.map Prod.fst).nodup_iff.mp hnd))

theorem hashContent_perm (name : Str) (cmds : List Str) {m1 m2 : List (Str × Str)}
    (h : m1.Perm m2) (hnd : (m1.map Prod.fst).Nodup) :
    hashContent ⟨name, m1, cmds⟩ = hashContent ⟨name, m2, cmds⟩ := by
  unfold hashContent
  rw [exchangeSort_congr (h.map Prod.fst)]
  have : (fun k => "var:".toList ++ k ++ "=".toList ++ mapGet m1 k ++ [newline]) =
      (fun k => "var:".toList ++ k ++ "=".toList ++ mapGet m2 k ++ [newline]) := by
    funext k
    rw [mapGet_perm h hnd k]
  rw [this]

theorem exchangeSort_eq_insertionSort (a : List Str) :
    exchangeSort a = a.insertionSort (· ≤ ·) :=
  List.eq_of_perm_of_sorted ((exchangeSort_perm a).trans (List.perm_insertionSort _ a).symm)
    (exchangeSort_sorted a) (List.sorted_insertionSort _ a)

theorem sha256_length (msg : List Nat) : (sha256 msg).length = 32 := by
  simp [sha256, be32]

theorem hexEncode_length (bs : List Nat) : (hexEncode bs).length = 2 * bs.length := by
  induction bs with
  | nil => rfl
  | cons b bs ih =>
    have : hexEncode (b :: bs) = hexDigit (b / 16) :: hexDigit (b % 16) :: hexEncode bs := by
      simp [hexEncode]
    rw [this]
    simp only [List.length_cons, ih]
    omega

theorem hexDigit_mem (n : Nat) : hexDigit n ∈ "0123456789abcdef".toList := by
  unfold hexDigit
  by_cases h : n < 16
  · interval_cases n <;> decide
  · have : "0123456789abcdef".toList.length ≤ n := by
      have : "0123456789abcdef".toList.length = 16 := by decide
      omega
    rw [List.getD_eq_default _ _ this]
    decide

theorem hexEncode_mem (bs : List Nat) : ∀ c ∈ hexEncode bs, c ∈ "0123456789abcdef".toList := by
  intro c hc
  simp only [hexEncode, List.mem_flatMap, List.mem_cons, List.mem_singleton] at hc
  obtain ⟨b, _, hb⟩ := hc
  simp only [List.not_mem_nil, or_false] at hb
  rcases hb with rfl | rfl <;> exact hexDigit_mem _

/-- C1. The fingerprint does not depend on the order in which the variables of a
block are declared or iterated: two permutations of one list of pairs with
pairwise distinct keys, used as the `Variables` of blocks with the same name and
commands, give the same `hashBlock`. -/
theorem hashBlock_order_independent (name : Str) (cmds : List Str)
    (pairs p1 p2 : List (Str × Str)) (hnd : (pairs.map Prod.fst).Nodup)
    (h1 : p1.Perm pairs) (h2 : p2.Perm pairs) :
    hashBlock ⟨name, p1, cmds⟩ = hashBlock ⟨name, p2, cmds⟩ := by
  unfold hashBlock
  rw [hashContent_perm name cmds (h1.trans h2.symm) ((h1.map Prod.fst).nodup_iff.mpr hnd)]

/-- The blocks of `TestHashBlock_OrderIndependent`. -/
theorem hashBlock_order_independent_witness :
    (List.map Prod.fst [("a".toList, "1".toList), ("b".toList, "2".toList)]).Nodup ∧
      hashBlock ⟨"Test".toList, [("a".toList, "1".toList), ("b".toList, "2".toList)],
          ["echo test".toList]⟩ =
        hashBlock ⟨"Test".toList, [("b".toList, "2".toList), ("a".toList, "1".toList)],
          ["echo test".toList]⟩ :=
  ⟨by decide,
    hashBlock_order_independent _ _ [("a".toList, "1".toList), ("b".toList, "2".toList)] _ _
      (by decide) (List.Perm.refl _) (List.Perm.swap _ _ _)⟩

/-- C2. The hand-written exchange sort yields exactly the ascending ordering
of the keys (it agrees with the library insertion sort, its result is sorted and
is a permutation of the keys); `hashBlock` is the hexadecimal encoding of the
SHA-256 digest of the canonical string with the variables in that order; the
result has 64 characters, all among `0123456789abcdef`, and so it is not empty
for the empty block either.  The ascending order is the lexicographic order of
code points, which is the byte-wise order of well-formed UTF-8 strings. -/
theorem hashBlock_spec (block : RRBlock) :
    exchangeSort (block.Variables.map Prod.fst) =
        (block.Variables.map Prod.fst).insertionSort (· ≤ ·) ∧
      List.Sorted (· ≤ ·) (exchangeSort (block.Variables.map Prod.fst)) ∧
      (exchangeSort (block.Variables.map Prod.fst)).Perm (block.Variables.map Prod.fst) ∧
      hashBlock block = hexEncode (sha256 (toBytes (canonicalString block))) ∧
      (hashBlock block).length = 64 ∧
      (∀ c ∈ hashBlock block, c ∈ "0123456789abcdef".toList) ∧
      hashBlock ⟨[], [], []⟩ ≠ [] := by
  have hlen : ∀ b : RRBlock, (hashBlock b).length = 64 := by
    intro b
    rw [hashBlock, hexEncode_length, sha256_length]
  refine ⟨exchangeSort_eq_insertionSort _, exchangeSort_sorted _, exchangeSort_perm _, ?_,
    hlen block, hexEncode_mem _, ?_⟩
  · unfold hashBlock hashContent canonicalString
    rw [exchangeSort_eq_insertionSort]
  · intro h
    have := hlen ⟨[], [], []⟩
    rw [h] at this
    simp at this

theorem flatMap_congr_mem {α β : Type} (l : List α) (f g : α → List β)
    (h : ∀ x ∈ l, f x = g x) : l.flatMap f = l.flatMap g := by
  induction l with
  | nil => rfl
  | cons a l ih =>
    simp only [List.flatMap_cons]
    rw [h a (List.mem_cons_self _ _), ih fun x hx => h x (List.mem_cons_of_mem _ hx)]

theorem mapGet_other (pre post : List (Str × Str)) (k v1 v2 k2 : Str) (h : k2 ≠ k) :
    mapGet (pre ++ (k, v1) :: post) k2 = mapGet (pre ++ (k, v2) :: post) k2 := by
  have e : (k2 == k) = false := by simpa using h
  simp [mapGet, List.lookup_append, List.lookup_cons, e]

theorem mapGet_self (pre post : List (Str × Str)) (k v : Str)
    (h : k ∉ pre.map Prod.fst) : mapGet (pre ++ (k, v) :: post) k = v := by
  have e : pre.lookup k = none := by
    rw [List.lookup_eq_none_iff]
    intro p hp
    simp only [bne_iff_ne, ne_eq]
    intro hk
    exact h (List.mem_map.mpr ⟨p, hp, hk.symm⟩)
  simp [mapGet, List.lookup_append, e]

theorem append_cons_inj {α : Type} (x : α) : ∀ (a b s t : List α), x ∉ a → x ∉ b →
    a ++ x :: s = b ++ x :: t → a = b ∧ s = t := by
  intro a
  induction a with
  | nil =>
    intro b s t _ hb h
    cases b with
    | nil => simpa using h
    | cons y b =>
      simp only [List.nil_append, List.cons_append, List.cons.injEq] at h
      exact absurd (List.mem_cons.mpr (Or.inl h.1)) hb
  | cons y a ih =>
    intro b s t ha hb h
    cases b with
    | nil =>
      simp only [List.nil_append, List.cons_append, List.cons.injEq] at h
      exact absurd (List.mem_cons.mpr (Or.inl h.1.symm)) ha
    | cons z b =>
      simp only [List.cons_append, List.cons.injEq] at h
      obtain ⟨e1, e2⟩ := ih b s t (fun hx => ha (List.mem_cons_of_mem _ hx))
        (fun hx => hb (List.mem_cons_of_mem _ hx)) h.2
      exact ⟨by rw [h.1, e1], e2⟩

/-- The command lines of the canonical string determine the commands, when no
command contains a line feed. -/
theorem cmdLines_injective : ∀ (cs1 cs2 : List Str), (∀ c ∈ cs1, newline ∉ c) →
    (∀ c ∈ cs2, newline ∉ c) →
    (cs1.flatMap fun cmd => "cmd:".toList ++ cmd ++ [newline]) =
      (cs2.flatMap fun cmd => "cmd:".toList ++ cmd ++ [newline]) → cs1 = cs2 := by
  intro cs1
  induction cs1 with
  | nil =>
    intro cs2 _ _ h
    cases cs2 with
    | nil => rfl
    | cons c cs => simp [List.flatMap_cons] at h
  | cons c1 cs1 ih =>
    intro cs2 h1 h2 h
    cases cs2 with
    | nil => simp [List.flatMap_cons] at h
    | cons c2 cs2 =>
      simp only [List.flatMap_cons, List.append_assoc, List.singleton_append] at h
      have h3 := List.append_cancel_left h
      obtain ⟨e1, e2⟩ := append_cons_inj newline c1 c2 _ _ (h1 c1 (List.mem_cons_self _ _))
        (h2 c2 (List.mem_cons_self _ _)) h3
      rw [e1, ih cs2 (fun c hc => h1 c (List.mem_cons_of_mem _ hc))
        (fun c hc => h2 c (List.mem_cons_of_mem _ hc)) e2]

theorem hashContent_name_ne (n1 n2 : Str) (vars : List (Str × Str)) (cmds : List Str)
    (h : n1 ≠ n2) : hashContent ⟨n1, vars, cmds⟩ ≠ hashContent ⟨n2, vars, cmds⟩ := by
  intro e
  unfold hashContent at e
  exact h (List.append_cancel_left (List.append_cancel_right
    (List.append_cancel_right (List.append_cancel_right e))))

theorem hashContent_value_ne (name : Str) (cmds : List Str) (pre post : List (Str × Str))
    (k v1 v2 : Str) (hnd : ((pre ++ (k, v1) :: post).map Prod.fst).Nodup) (h : v1 ≠ v2) :
    hashContent ⟨name, pre ++ (k, v1) :: post, cmds⟩ ≠
      hashContent ⟨name, pre ++ (k, v2) :: post, cmds⟩ := by
  intro e
  unfold hashContent at e
  have hkeys : (pre ++ (k, v2) :: post).map Prod.fst = (pre ++ (k, v1) :: post).map Prod.fst := by
    simp
  simp only [hkeys] at e
  have hk : k ∈ exchangeSort ((pre ++ (k, v1) :: post).map Prod.fst) :=
    (exchangeSort_perm _).mem_iff.mpr (by simp)
  have hsnd : (exchangeSort ((pre ++ (k, v1) :: post).map Prod.fst)).Nodup :=
    (exchangeSort_perm _).nodup_iff.mpr hnd
  obtain ⟨A, B, hAB⟩ := List.append_of_mem hk
  rw [hAB] at e hsnd
  have hkA : k ∉ A := by
    intro hA
    have := (List.nodup_append.mp hsnd).2.2
    exact this hA (List.mem_cons_self _ _)
  have hkB : k ∉ B := by
    have := (List.nodup_append.mp hsnd).2.1
    exact (List.nodup_cons.mp this).1
  have hpre : k ∉ pre.map Prod.fst := by
    rw [List.map_append, List.map_cons] at hnd
    intro hp
    exact (List.nodup_append.mp hnd).2.2 hp (List.mem_cons_self _ _)
  have eA : ∀ x ∈ A,
      "var:".toList ++ x ++ "=".toList ++ mapGet (pre ++ (k, v1) :: post) x ++ [newline] =
        "var:".toList ++ x ++ "=".toList ++ mapGet (pre ++ (k, v2) :: post) x ++ [newline] := by
    intro x hx
    rw [mapGet_other pre post k v1 v2 x (fun hxk => hkA (hxk ▸ hx))]
  have eB : ∀ x ∈ B,
      "var:".toList ++ x ++ "=".toList ++ mapGet (pre ++ (k, v1) :: post) x ++ [newline] =
        "var:".toList ++ x ++ "=".toList ++ mapGet (pre ++ (k, v2) :: post) x ++ [newline] := by
    intro x hx
    rw [mapGet_other pre post k v1 v2 x (fun hxk => hkB (hxk ▸ hx))]
  simp only [List.flatMap_append, List.flatMap_cons, mapGet_self pre post k _ hpre] at e
  rw [flatMap_congr_mem A _ _ eA, flatMap_congr_mem B _ _ eB] at e
  simp only [List.append_assoc] at e
  have e2 := List.append_cancel_left (List.append_cancel_left (List.append_cancel_left
    (List.append_cancel_left (List.append_cancel_left (List.append_cancel_left
    (List.append_cancel_left e))))))
  exact h (List.append_cancel_right e2)

/-- C3. Two blocks with the same commands and the same variables (in any
iteration order) but different names, or with the same name and commands and
variables that differ only in the value of one key, are given different
canonical strings by `hashBlock`. -/
theorem hashContent_sensitive (b1 b2 : RRBlock) (hc : b1.Commands = b2.Commands)
    (hnd : (b1.Variables.map Prod.fst).Nodup)
    (h : (b1.Name ≠ b2.Name ∧ b1.Variables.Perm b2.Variables) ∨
      (b1.Name = b2.Name ∧ ∃ pre post k v1 v2, v1 ≠ v2 ∧
        b1.Variables.Perm (pre ++ (k, v1) :: post) ∧
        b2.Variables.Perm (pre ++ (k, v2) :: post))) :
    hashContent b1 ≠ hashContent b2 := by
  obtain ⟨n1, vs1, c1⟩ := b1
  obtain ⟨n2, vs2, c2⟩ := b2
  simp only at hc hnd h
  subst hc
  rcases h with ⟨hn, hp⟩ | ⟨hn, pre, post, k, v1, v2, hv, hp1, hp2⟩
  · rw [hashContent_perm n1 c1 hp hnd]
    exact hashContent_name_ne n1 n2 vs2 c1 hn
  · subst hn
    have hnd1 : ((pre ++ (k, v1) :: post).map Prod.fst).Nodup :=
      (hp1.map Prod.fst).nodup_iff.mp hnd
    have hnd2 : (vs2.map Prod.fst).Nodup := by
      rw [(hp2.map Prod.fst).nodup_iff]
      simpa using hnd1
    rw [hashContent_perm n1 c1 hp1 hnd, hashContent_perm n1 c1 hp2 hnd2]
    exact hashContent_value_ne n1 c1 pre post k v1 v2 hnd1 hv

/-- C4, amended. For blocks whose commands contain no line feed: two blocks with the
same name and the same variables whose command lists are permutations of one
another but not the same sequence are given different canonical strings. -/
theorem hashContent_command_order (b1 b2 : RRBlock) (hn : b1.Name = b2.Name)
    (hnd : (b1.Variables.map Prod.fst).Nodup) (hv : b1.Variables.Perm b2.Variables)
    (hnl : ∀ c ∈ b1.Commands, newline ∉ c) (hperm : b1.Commands.Perm b2.Commands)
    (hne : b1.Commands ≠ b2.Commands) : hashContent b1 ≠ hashContent b2 := by
  obtain ⟨n1, vs1, c1⟩ := b1
  obtain ⟨n2, vs2, c2⟩ := b2
  simp only at hn hnd hv hnl hperm hne
  subst hn
  rw [hashContent_perm n1 c1 hv hnd]
  intro e
  unfold hashContent at e
  exact hne (cmdLines_injective c1 c2 hnl (fun c hc => hnl c (hperm.mem_iff.mpr hc))
    (List.append_cancel_left e))

/-- The blocks of `TestHashBlock_IncludesName` and of
`TestHashBlock_DifferentContent`. -/
theorem hashContent_sensitive_witness :
    hashContent ⟨"Block1".toList, [], ["echo test".toList]⟩ ≠
        hashContent ⟨"Block2".toList, [], ["echo test".toList]⟩ ∧
      hashContent ⟨"Test".toList, [("var".toList, "value1".toList)], ["echo test".toList]⟩ ≠
        hashContent ⟨"Test".toList, [("var".toList, "value2".toList)], ["echo test".toList]⟩ :=
  ⟨hashContent_sensitive _ _ rfl (by decide) (Or.inl ⟨by decide, List.Perm.refl _⟩),
    hashContent_sensitive _ _ rfl (by decide)
      (Or.inr ⟨rfl, [], [], "var".toList, "value1".toList, "value2".toList, by decide,
        List.Perm.refl _, List.Perm.refl _⟩)⟩

/-- C4 fails for arbitrary command strings: the command lists `["", "\ncmd:"]`
and `["\ncmd:", ""]` are distinct permutations of one another, and the two
blocks have the same canonical string, hence the same fingerprint. -/
theorem hashContent_command_order_counterexample :
    (["".toList, "\ncmd:".toList] : List Str).Perm ["\ncmd:".toList, "".toList] ∧
      (["".toList, "\ncmd:".toList] : List Str) ≠ ["\ncmd:".toList, "".toList] ∧
      hashContent ⟨"Test".toList, [], ["".toList, "\ncmd:".toList]⟩ =
        hashContent ⟨"Test".toList, [], ["\ncmd:".toList, "".toList]⟩ ∧
      hashBlock ⟨"Test".toList, [], ["".toList, "\ncmd:".toList]⟩ =
        hashBlock ⟨"Test".toList, [], ["\ncmd:".toList, "".toList]⟩ :=
  ⟨List.Perm.swap _ _ _, by decide, by decide, congrArg (fun s => hexEncode (sha256 (toBytes s)))
    (by decide)⟩

/-- The blocks of `TestHashBlock_CommandOrderMatters`. -/
theorem hashContent_command_order_witness :
    (∀ c ∈ ["echo first".toList, "echo second".toList], newline ∉ c) ∧
      hashContent ⟨"Test".toList, [], ["echo first".toList, "echo second".toList]⟩ ≠
        hashContent ⟨"Test".toList, [], ["echo second".toList, "echo first".toList]⟩ :=
  ⟨by decide, hashContent_command_order _ _ rfl (by decide) (List.Perm.refl _) (by decide)
    (List.Perm.swap _ _ _) (by decide)⟩

/-! ## The scanner: composition of the loop -/

theorem emitBlock_append (extra blocks : List RRBlock) (cur : Option RRBlock)
    (blockLines : List Str) :
    emitBlock (extra ++ blocks) cur blockLines = extra ++ emitBlock blocks cur blockLines := by
  cases cur <;> simp [emitBlock]

theorem scanLine_addBlocks (extra : List RRBlock) (st : ScanState) (line : Str) :
    scanLine (st.addBlocks extra) line = (scanLine st line).addBlocks extra := by
  unfold scanLine ScanState.addBlocks
  by_cases h1 : isStartLine line
  · by_cases h2 : st.inBlock <;> simp [h1, h2, emitBlock_append]
  · by_cases h2 : st.inBlock
    · by_cases h3 : containsStr line endMarker <;> simp [h1, h2, h3, emitBlock_append]
    · simp [h1, h2]

theorem scanFinish_addBlocks (extra : List RRBlock) (st : ScanState) :
    scanFinish (st.addBlocks extra) = extra ++ scanFinish st := by
  unfold scanFinish ScanState.addBlocks
  by_cases h2 : st.inBlock <;> simp [h2, emitBlock_append]

theorem foldl_scanLine_addBlocks (extra : List RRBlock) (lines : List Str) :
    ∀ st : ScanState, lines.foldl scanLine (st.addBlocks extra) =
      (lines.foldl scanLine st).addBlocks extra := by
  induction lines with
  | nil => intro st; rfl
  | cons l ls ih => intro st; rw [List.foldl_cons, scanLine_addBlocks, ih, List.foldl_cons]

theorem scanLine_start (st : ScanState) (line : Str) (h : isStartLine line = true) :
    scanLine st line = ⟨true, some ⟨startName line, [], []⟩, [], scanFinish st⟩ := by
  simp [scanLine, h, scanFinish]

theorem parseLines_append_start (pre rest : List Str) (s : Str) (h : isStartLine s = true) :
    parseLines (pre ++ s :: rest) = parseLines pre ++ parseLines (s :: rest) := by
  unfold parseLines
  rw [List.foldl_append, List.foldl_cons, List.foldl_cons, scanLine_start _ s h,
    scanLine_start _ s h]
  have e : ∀ B : List RRBlock, (⟨true, some ⟨startName s, [], []⟩, [], B⟩ : ScanState) =
      ScanState.addBlocks B ⟨true, some ⟨startName s, [], []⟩, [], []⟩ := by
    intro B; simp [ScanState.addBlocks]
  rw [e (scanFinish _), foldl_scanLine_addBlocks, scanFinish_addBlocks]
  congr 1

theorem foldl_scanLine_body (body : List Str)
    (hb : ∀ l ∈ body, isStartLine l = false ∧ containsStr l endMarker = false) :
    ∀ (b : RRBlock) (blockLines : List Str) (blocks : List RRBlock),
      body.foldl scanLine ⟨true, some b, blockLines, blocks⟩ =
        ⟨true, some b, blockLines ++ body, blocks⟩ := by
  induction body with
  | nil => intro b bl B; simp
  | cons l ls ih =>
    intro b bl B
    obtain ⟨h1, h2⟩ := hb l (List.mem_cons_self _ _)
    rw [List.foldl_cons]
    have : scanLine ⟨true, some b, bl, B⟩ l = ⟨true, some b, bl ++ [l], B⟩ := by
      simp [scanLine, h1, h2]
    rw [this, ih (fun x hx => hb x (List.mem_cons_of_mem _ hx))]
    simp

theorem parseLines_start_body (s : Str) (body : List Str) (h : isStartLine s = true)
    (hb : ∀ l ∈ body, isStartLine l = false ∧ containsStr l endMarker = false) :
    parseLines (s :: body) = [processBlockContent ⟨startName s, [], []⟩ body] := by
  unfold parseLines
  rw [List.foldl_cons, scanLine_start _ s h, foldl_scanLine_body body hb]
  simp [scanFinish, emitBlock]

theorem splitLines_ne_nil (s : Str) : splitLines s ≠ [] := by
  induction s with
  | nil => simp [splitLines]
  | cons c cs ih =>
    unfold splitLines
    split
    · simp
    · split <;> simp

theorem splitLines_append_newline (l t : Str) (h : newline ∉ l) :
    splitLines (l ++ newline :: t) = l :: splitLines t := by
  induction l with
  | nil => simp [splitLines]
  | cons c cs ih =>
    have hc : c ≠ newline := fun e => h (e ▸ List.mem_cons_self _ _)
    have hcs : newline ∉ cs := fun e => h (List.mem_cons_of_mem _ e)
    rw [List.cons_append, splitLines, if_neg hc, ih hcs]

theorem splitLines_of_no_newline (l : Str) (h : newline ∉ l) : splitLines l = [l] := by
  induction l with
  | nil => rfl
  | cons c cs ih =>
    have hc : c ≠ newline := fun e => h (e ▸ List.mem_cons_self _ _)
    have hcs : newline ∉ cs := fun e => h (List.mem_cons_of_mem _ e)
    rw [splitLines, if_neg hc, ih hcs]

theorem splitLines_joinLines : ∀ (ls : List Str), ls ≠ [] → (∀ l ∈ ls, newline ∉ l) →
    splitLines (joinLines ls) = ls := by
  intro ls
  induction ls with
  | nil => intro h; exact absurd rfl h
  | cons l ls ih =>
    intro _ hnl
    cases ls with
    | nil => exact splitLines_of_no_newline l (hnl l (List.mem_cons_self _ _))
    | cons l2 ls =>
      have e : joinLines (l :: l2 :: ls) = l ++ newline :: joinLines (l2 :: ls) := rfl
      rw [e, splitLines_append_newline l _ (hnl l (List.mem_cons_self _ _)),
        ih (by simp) (fun x hx => hnl x (List.mem_cons_of_mem _ hx))]

theorem splitLines_no_newline (s : Str) : ∀ l ∈ splitLines s, newline ∉ l := by
  induction s with
  | nil => simp [splitLines]
  | cons c cs ih =>
    intro l hl
    unfold splitLines at hl
    split at hl
    · rcases List.mem_cons.mp hl with rfl | hl
      · simp
      · exact ih l hl
    · rename_i hc
      split at hl
      · rename_i e
        exact absurd e (splitLines_ne_nil cs)
      · rename_i l0 ls0 e
        rw [e] at ih
        rcases List.mem_cons.mp hl with rfl | hl
        · intro hmem
          rcases List.mem_cons.mp hmem with e2 | e2
          · exact hc e2.symm
          · exact ih l0 (List.mem_cons_self _ _) e2
        · exact ih l (List.mem_cons_of_mem _ hl)

theorem scanLine_outside (st : ScanState) (l : Str) (hst : st.inBlock = false)
    (hl : isStartLine l = false) : scanLine st l = st := by
  simp [scanLine, hl, hst]

theorem foldl_scanLine_outside (ls : List Str) (hls : ∀ x ∈ ls, isStartLine x = false) :
    ∀ st : ScanState, st.inBlock = false → ls.foldl scanLine st = st := by
  induction ls with
  | nil => intro st _; rfl
  | cons l ls ih =>
    intro st hst
    rw [List.foldl_cons, scanLine_outside st l hst (hls l (List.mem_cons_self _ _))]
    exact ih (fun x hx => hls x (List.mem_cons_of_mem _ hx)) st hst

theorem liesOutside_inBlock (pre : List Str) (h : LiesOutside pre) :
    (pre.foldl scanLine ⟨false, none, [], []⟩).inBlock = false := by
  rcases h with h | ⟨a, s, b, c, d, rfl, hs, hb, hc1, hc2, hd⟩
  · rw [foldl_scanLine_outside pre h _ rfl]
  · rw [List.foldl_append, List.foldl_cons, List.foldl_append, List.foldl_cons,
      scanLine_start _ s hs, foldl_scanLine_body b hb]
    have : (scanLine ⟨true, some ⟨startName s, [], []⟩, [] ++ b,
        scanFinish (List.foldl scanLine ⟨false, none, [], []⟩ a)⟩ c).inBlock = false := by
      simp [scanLine, hc1, hc2]
    rw [foldl_scanLine_outside d hd _ this]
    exact this

theorem parseLines_delete_outside (pre post : List Str) (l : Str) (hl : isStartLine l = false)
    (hout : LiesOutside pre) : parseLines (pre ++ l :: post) = parseLines (pre ++ post) := by
  unfold parseLines
  rw [List.foldl_append, List.foldl_append, List.foldl_cons,
    scanLine_outside _ l (liesOutside_inBlock pre hout) hl]

theorem parseLines_no_start (ls : List Str) (h : ∀ x ∈ ls, isStartLine x = false) :
    parseLines ls = [] := by
  unfold parseLines
  rw [foldl_scanLine_outside ls h _ rfl]
  rfl

/-! ## The start marker -/

theorem dropLit_eq_some_iff (lit s r : Str) : dropLit lit s = some r ↔ s = lit ++ r := by
  unfold dropLit
  constructor
  · intro h
    split at h
    · rename_i hp
      obtain ⟨t, rfl⟩ := List.isPrefixOf_iff_prefix.mp hp
      simp only [Option.some.injEq, List.drop_left] at h
      rw [h]
    · exact absurd h (by simp)
  · rintro rfl
    have : lit.isPrefixOf (lit ++ r) = true := List.isPrefixOf_iff_prefix.mpr ⟨r, rfl⟩
    simp [this]

theorem dropWhile_append_stop {p : Char → Bool} (a : Str) (c : Char) (t : Str)
    (ha : ∀ x ∈ a, p x = true) (hc : p c = false) :
    (a ++ c :: t).dropWhile p = c :: t ∧ (a ++ c :: t).takeWhile p = a := by
  induction a with
  | nil => simp [List.dropWhile, List.takeWhile, hc]
  | cons x xs ih =>
    have hx := ha x (List.mem_cons_self _ _)
    obtain ⟨h1, h2⟩ := ih (fun y hy => ha y (List.mem_cons_of_mem _ hy))
    simp [List.dropWhile, List.takeWhile, hx, h1, h2]

theorem dropWhile_all {p : Char → Bool} (a : Str) (ha : ∀ x ∈ a, p x = true) :
    a.dropWhile p = [] ∧ a.takeWhile p = a := by
  induction a with
  | nil => simp
  | cons x xs ih =>
    have hx := ha x (List.mem_cons_self _ _)
    obtain ⟨h1, h2⟩ := ih (fun y hy => ha y (List.mem_cons_of_mem _ hy))
    simp [List.dropWhile, List.takeWhile, hx, h1, h2]

theorem dropWhile_head_false {p : Char → Bool} (s : Str) (c : Char) (t : Str)
    (h : s.dropWhile p = c :: t) : p c = false := by
  induction s with
  | nil => simp at h
  | cons x xs ih =>
    by_cases hx : p x = true
    · rw [List.dropWhile_cons_of_pos hx] at h
      exact ih h
    · rw [List.dropWhile_cons_of_neg hx] at h
      simp only [List.cons.injEq] at h
      rw [← h.1]
      simpa using hx

theorem matchStartAt_eq_some_iff (s x : Str) :
    matchStartAt s = some x ↔ ∃ ws rest, (∀ c ∈ ws, isReSpace c = true) ∧
      s = "<!--".toList ++ ws ++ "RR".toList ++ rest ∧ x = bracketName rest := by
  unfold matchStartAt
  constructor
  · intro h
    split at h
    · exact absurd h (by simp)
    · rename_i s1 h1
      split at h
      · exact absurd h (by simp)
      · rename_i s2 h2
        rw [dropLit_eq_some_iff] at h1 h2
        refine ⟨s1.takeWhile isReSpace, s2, fun c hc => (List.mem_takeWhile_imp hc), ?_, ?_⟩
        · rw [h1, List.append_assoc, List.append_assoc, ← h2, List.takeWhile_append_dropWhile]
        · simpa using h.symm
  · rintro ⟨ws, rest, hws, rfl, rfl⟩
    have h1 : dropLit "<!--".toList ("<!--".toList ++ ws ++ "RR".toList ++ rest) =
        some (ws ++ ('R' :: 'R' :: rest)) := by
      rw [dropLit_eq_some_iff]; simp
    have h2 : (ws ++ ('R' :: 'R' :: rest)).dropWhile isReSpace = 'R' :: 'R' :: rest :=
      (dropWhile_append_stop ws 'R' _ hws (by decide)).1
    have h3 : dropLit "RR".toList ('R' :: 'R' :: rest) = some rest := by
      rw [dropLit_eq_some_iff]; simp
    rw [h1]
    simp only [h2, h3]

theorem findStartMarker_of_match (s x : Str) (h : matchStartAt s = some x) :
    findStartMarker s = some x := by
  cases s with
  | nil => simpa [findStartMarker] using h
  | cons c cs => simp [findStartMarker, h]

theorem findStartMarker_skip (pre s : Str)
    (h : ∀ a b, pre = a ++ b → b ≠ [] → matchStartAt (b ++ s) = none) :
    findStartMarker (pre ++ s) = findStartMarker s := by
  induction pre with
  | nil => rfl
  | cons c cs ih =>
    have h0 := h [] (c :: cs) rfl (by simp)
    rw [List.cons_append] at h0
    rw [List.cons_append, findStartMarker, h0]
    exact ih fun a b hab hb => h (c :: a) b (by rw [hab, List.cons_append]) hb

theorem findStartMarker_some_split (line x : Str) (h : findStartMarker line = some x) :
    ∃ pre s, line = pre ++ s ∧ matchStartAt s = some x := by
  induction line with
  | nil => exact ⟨[], [], rfl, by simpa [findStartMarker] using h⟩
  | cons c cs ih =>
    cases hm : matchStartAt (c :: cs) with
    | some y =>
      rw [findStartMarker, hm] at h
      exact ⟨[], c :: cs, rfl, by rw [hm]; exact h⟩
    | none =>
      rw [findStartMarker, hm] at h
      obtain ⟨pre, s, e, hs⟩ := ih h
      exact ⟨c :: pre, s, by rw [e, List.cons_append], hs⟩

theorem findStartMarker_isSome_append (pre s : Str) (h : (findStartMarker s).isSome = true) :
    (findStartMarker (pre ++ s)).isSome = true := by
  induction pre with
  | nil => exact h
  | cons c cs ih =>
    rw [List.cons_append, findStartMarker]
    cases matchStartAt (c :: (cs ++ s)) with
    | some y => rfl
    | none => exact ih

theorem isStartLine_iff (line : Str) :
    isStartLine line = true ↔
      ∃ pre ws rest, (∀ c ∈ ws, isReSpace c = true) ∧ line = pre ++ markerText ws ++ rest := by
  unfold isStartLine markerText
  constructor
  · intro h
    obtain ⟨x, hx⟩ := Option.isSome_iff_exists.mp h
    obtain ⟨pre, s, e, hs⟩ := findStartMarker_some_split line x hx
    obtain ⟨ws, rest, hws, e2, _⟩ := (matchStartAt_eq_some_iff s x).mp hs
    exact ⟨pre, ws, rest, hws, by rw [e, e2]; simp⟩
  · rintro ⟨pre, ws, rest, hws, rfl⟩
    have hm : matchStartAt ("<!--".toList ++ ws ++ "RR".toList ++ rest) =
        some (bracketName rest) :=
      (matchStartAt_eq_some_iff _ _).mpr ⟨ws, rest, hws, rfl, rfl⟩
    have := findStartMarker_isSome_append pre _
      (by rw [findStartMarker_of_match _ _ hm]; rfl)
    simpa [List.append_assoc] using this

theorem findStartMarker_first (line pre ws rest : Str) (h : FirstMarker line pre ws rest) :
    findStartMarker line = some (bracketName rest) := by
  obtain ⟨hws, rfl, hmin⟩ := h
  have hm : matchStartAt (markerText ws ++ rest) = some (bracketName rest) :=
    (matchStartAt_eq_some_iff _ _).mpr ⟨ws, rest, hws, rfl, rfl⟩
  rw [List.append_assoc, findStartMarker_skip pre (markerText ws ++ rest), 
    findStartMarker_of_match _ _ hm]
  intro a b hab hb
  cases hx : matchStartAt (b ++ (markerText ws ++ rest)) with
  | none => rfl
  | some x =>
    exfalso
    obtain ⟨ws2, rest2, hws2, e2, _⟩ := (matchStartAt_eq_some_iff _ _).mp hx
    have hlen := hmin a ws2 rest2 hws2 (by
      rw [hab, List.append_assoc, List.append_assoc a, e2]
      simp [markerText])
    have : b.length = 0 := by
      rw [hab, List.length_append] at hlen
      omega
    exact hb (List.length_eq_zero.mp this)

theorem bracketName_named (nm rest : Str) (h : rbracket ∉ nm) :
    bracketName (lbracket :: (nm ++ rbracket :: rest)) = nm := by
  have hp : ∀ x ∈ nm, (x != rbracket) = true := by
    intro x hx
    simpa using fun e : x = rbracket => h (e ▸ hx)
  obtain ⟨h1, h2⟩ := dropWhile_append_stop (p := fun d => d != rbracket) nm rbracket rest hp
    (by simp)
  simp only [bracketName, if_true, h1, h2]

theorem bracketName_unnamed (rest : Str)
    (h : ∀ nm rest2, rbracket ∉ nm → rest ≠ lbracket :: (nm ++ rbracket :: rest2)) :
    bracketName rest = [] := by
  cases rest with
  | nil => rfl
  | cons c cs =>
    simp only [bracketName]
    by_cases hc : c = lbracket
    · rw [if_pos hc]
      cases hd : cs.dropWhile fun d => d != rbracket with
      | nil => rfl
      | cons d t =>
        exfalso
        have hdf := dropWhile_head_false cs d t hd
        have hd2 : d = rbracket := by simpa using hdf
        refine h (cs.takeWhile fun d => d != rbracket) t ?_ ?_
        · intro hm
          have := List.mem_takeWhile_imp hm
          simp at this
        · have e : rbracket :: t = cs.dropWhile fun d => d != rbracket := by rw [hd, hd2]
          rw [hc, e, List.takeWhile_append_dropWhile]
    · rw [if_neg hc]

/-! ## The scanner: the claims -/

theorem processBlockContent_name (b : RRBlock) (lines : List Str) :
    (processBlockContent b lines).Name = b.Name := rfl

theorem emitBlock_names (blocks : List RRBlock) (cur : Option RRBlock) (blockLines : List Str) :
    (emitBlock blocks cur blockLines).map (fun b => b.Name) =
      blocks.map (fun b => b.Name) ++ (cur.map fun b => b.Name).toList := by
  cases cur <;> simp [emitBlock, processBlockContent_name]

theorem scanFinish_scanLine_names (st : ScanState) (line : Str) :
    (scanFinish (scanLine st line)).map (fun b => b.Name) =
      (scanFinish st).map (fun b => b.Name) ++
        if isStartLine line = true then [startName line] else [] := by
  by_cases h1 : isStartLine line = true
  · rw [scanLine_start st line h1, if_pos h1]
    simp [scanFinish, emitBlock_names]
  · have h1f : isStartLine line = false := by simpa using h1
    rw [if_neg h1, List.append_nil]
    by_cases h2 : st.inBlock = true
    · by_cases h3 : containsStr line endMarker = true
      · simp [scanLine, scanFinish, h1f, h2, h3, emitBlock_names]
      · have h3f : containsStr line endMarker = false := by simpa using h3
        simp [scanLine, scanFinish, h1f, h2, h3f, emitBlock_names]
    · have h2f : st.inBlock = false := by simpa using h2
      rw [scanLine_outside st line h2f h1f]

theorem foldl_scanLine_names (lines : List Str) : ∀ st : ScanState,
    (scanFinish (lines.foldl scanLine st)).map (fun b => b.Name) =
      (scanFinish st).map (fun b => b.Name) ++ (lines.filter isStartLine).map startName := by
  induction lines with
  | nil => intro st; simp
  | cons l ls ih =>
    intro st
    rw [List.foldl_cons, ih, scanFinish_scanLine_names]
    by_cases h1 : isStartLine l = true
    · simp [h1]
    · simp [h1]

/-- C5. `parseRRBlocks` returns one block for each line that matches the start
marker, in the order of those lines, and the name of each block is the submatch
taken from its line; a line matches exactly when it contains `<!--`, optional
white space and `RR`; and for the first start marker of a line the name is the
text between `[` and the next `]`, as it stands, or the empty string when the
marker is not followed by a bracketed name. -/
theorem parseRRBlocks_names (content : Str) :
    (parseRRBlocks content).map (fun b => b.Name) =
        ((splitLines content).filter isStartLine).map startName ∧
      (∀ line, isStartLine line = true ↔
        ∃ pre ws rest, (∀ c ∈ ws, isReSpace c = true) ∧ line = pre ++ markerText ws ++ rest) ∧
      (∀ line pre ws nm rest, rbracket ∉ nm →
        FirstMarker line pre ws (lbracket :: (nm ++ rbracket :: rest)) → startName line = nm) ∧
      (∀ line pre ws rest, FirstMarker line pre ws rest →
        (∀ nm rest2, rbracket ∉ nm → rest ≠ lbracket :: (nm ++ rbracket :: rest2)) →
        startName line = []) := by
  refine ⟨?_, isStartLine_iff, ?_, ?_⟩
  · unfold parseRRBlocks parseLines
    rw [foldl_scanLine_names]
    rfl
  · intro line pre ws nm rest hnm hfirst
    rw [startName, findStartMarker_first line pre ws _ hfirst, bracketName_named nm rest hnm]
    rfl
  · intro line pre ws rest hfirst hno
    rw [startName, findStartMarker_first line pre ws _ hfirst, bracketName_unnamed rest hno]
    rfl

/-- The document of `TestParseRRBlocks_MultipleBlocks`, and the name rule at the
line `<!-- RR[Test Block]`. -/
theorem parseRRBlocks_names_witness :
    (parseRRBlocks
        "<!-- RR[First]\necho First\n-->\nSome text in between\n<!-- RR[Second]\necho Second\n-->".toList).map
        (fun b => b.Name) = ["First".toList, "Second".toList] ∧
      startName "<!-- RR[Test Block]".toList = "Test Block".toList :=
  ⟨(parseRRBlocks_names _).1.trans (by decide),
    (parseRRBlocks_names []).2.2.1 "<!-- RR[Test Block]".toList [] " ".toList
      "Test Block".toList [] (by decide)
      ⟨by decide, by decide, fun _ _ _ _ _ => Nat.zero_le _⟩⟩

/-- C6. Deleting a line that lies outside every block and is not a start-marker
line leaves the result of `parseRRBlocks` unchanged; and a document without a
start-marker line yields no block. -/
theorem parseRRBlocks_outside_inert (content : Str) (pre post : List Str) (l : Str)
    (hsplit : splitLines content = pre ++ l :: post) (hl : isStartLine l = false)
    (hout : LiesOutside pre) :
    parseRRBlocks (joinLines (pre ++ post)) = parseRRBlocks content ∧
      ∀ doc, (∀ x ∈ splitLines doc, isStartLine x = false) → parseRRBlocks doc = [] := by
  refine ⟨?_, fun doc h => parseLines_no_start _ h⟩
  have hnl : ∀ x ∈ pre ++ post, newline ∉ x := by
    intro x hx
    apply splitLines_no_newline content
    rw [hsplit]
    rcases List.mem_append.mp hx with h | h
    · exact List.mem_append_left _ h
    · exact List.mem_append_right _ (List.mem_cons_of_mem _ h)
  unfold parseRRBlocks
  rw [hsplit, parseLines_delete_outside pre post l hl hout]
  by_cases hne : pre ++ post = []
  · rw [hne]
    rfl
  · rw [splitLines_joinLines _ hne hnl]

/-- The document of `TestParseRRBlocks_IgnoresOutsideBlocks`, extended by a line
after the block: the line after the closing `-->` is deleted. -/
theorem parseRRBlocks_outside_inert_witness :
    parseRRBlocks "intro\n<!-- RR[Test]\necho parsed\n-->".toList =
      parseRRBlocks "intro\n<!-- RR[Test]\necho parsed\n-->\necho ignored".toList :=
  (parseRRBlocks_outside_inert "intro\n<!-- RR[Test]\necho parsed\n-->\necho ignored".toList
    ["intro".toList, "<!-- RR[Test]".toList, "echo parsed".toList, "-->".toList] []
    "echo ignored".toList (by decide) (by decide)
    (Or.inr ⟨["intro".toList], "<!-- RR[Test]".toList, ["echo parsed".toList], "-->".toList, [],
      rfl, by decide, by decide, by decide, by decide, by decide⟩)).1

/-- C7. When the last start-marker line is followed only by lines with neither a
start marker nor the end marker, `parseRRBlocks` returns that block last, compiled
by `processBlockContent` from all the lines after the start marker. -/
theorem parseRRBlocks_unclosed (content : Str) (pre body : List Str) (s : Str)
    (hsplit : splitLines content = pre ++ s :: body) (hs : isStartLine s = true)
    (hb : ∀ l ∈ body, isStartLine l = false ∧ containsStr l endMarker = false) :
    parseRRBlocks content =
        parseLines pre ++ [processBlockContent ⟨startName s, [], []⟩ body] ∧
      (parseRRBlocks content).getLast? =
        some (processBlockContent ⟨startName s, [], []⟩ body) := by
  have e : parseRRBlocks content =
      parseLines pre ++ [processBlockContent ⟨startName s, [], []⟩ body] := by
    unfold parseRRBlocks
    rw [hsplit, parseLines_append_start pre body s hs, parseLines_start_body s body hs hb]
  refine ⟨e, ?_⟩
  rw [e]
  simp

/-- The document of `TestParseRRBlocks_UnclosedBlock`. -/
theorem parseRRBlocks_unclosed_witness :
    (parseRRBlocks "<!-- RR[Test]\necho Test\n".toList).getLast? =
      some ⟨"Test".toList, [], ["echo Test".toList]⟩ :=
  ((parseRRBlocks_unclosed "<!-- RR[Test]\necho Test\n".toList [] ["echo Test".toList, []]
    "<!-- RR[Test]".toList (by decide) (by decide) (by decide)).2).trans (by decide)

/-- C8. When a start-marker line `s2` comes while the block opened at `s1` is still
open, the scanner state after `s2` holds the open block emitted from exactly the
lines between the two markers and a new block with no body line; the result is
that block followed by the blocks of the document that starts at `s2`. -/
theorem parseRRBlocks_implicit_close (content : Str) (pre body post : List Str) (s1 s2 : Str)
    (hsplit : splitLines content = pre ++ s1 :: (body ++ s2 :: post))
    (h1 : isStartLine s1 = true) (h2 : isStartLine s2 = true)
    (hb : ∀ l ∈ body, isStartLine l = false ∧ containsStr l endMarker = false) :
    (pre ++ s1 :: (body ++ [s2])).foldl scanLine ⟨false, none, [], []⟩ =
        ⟨true, some ⟨startName s2, [], []⟩, [],
          parseLines pre ++ [processBlockContent ⟨startName s1, [], []⟩ body]⟩ ∧
      parseRRBlocks content =
        parseLines pre ++
          processBlockContent ⟨startName s1, [], []⟩ body :: parseLines (s2 :: post) := by
  constructor
  · rw [List.foldl_append, List.foldl_cons, List.foldl_append, scanLine_start _ s1 h1,
      foldl_scanLine_body body hb, List.foldl_cons, List.foldl_nil, scanLine_start _ s2 h2]
    simp [scanFinish, emitBlock, parseLines]
  · unfold parseRRBlocks
    rw [hsplit, parseLines_append_start pre _ s1 h1]
    have e : s1 :: (body ++ s2 :: post) = (s1 :: body) ++ s2 :: post := by simp
    rw [e, parseLines_append_start (s1 :: body) post s2 h2, parseLines_start_body s1 body h1 hb]
    simp

/-- A block `A` left open and closed by the start marker of a block `B`. -/
theorem parseRRBlocks_implicit_close_witness :
    parseRRBlocks "<!-- RR[A]\necho a\n<!-- RR[B]\necho b\n-->".toList =
      [⟨"A".toList, [], ["echo a".toList]⟩, ⟨"B".toList, [], ["echo b".toList]⟩] :=
  ((parseRRBlocks_implicit_close "<!-- RR[A]\necho a\n<!-- RR[B]\necho b\n-->".toList []
    ["echo a".toList] ["echo b".toList, "-->".toList] "<!-- RR[A]".toList "<!-- RR[B]".toList
    (by decide) (by decide) (by decide) (by decide)).2).trans (by decide)

/-! ## The assignment patterns -/

theorem isIdentChar_not_isSpace (c : Char) (h : isIdentChar c = true) : isSpace c = false := by
  unfold isIdentChar at h
  unfold isSpace
  simp only [Bool.or_eq_true, Bool.and_eq_true, decide_eq_true_eq] at h
  simp only [Bool.or_eq_false_iff, Bool.and_eq_false_iff, decide_eq_false_iff_not]
  omega

theorem isIdentChar_not_isReSpace (c : Char) (h : isIdentChar c = true) : isReSpace c = false := by
  unfold isIdentChar at h
  unfold isReSpace
  simp only [Bool.or_eq_true, Bool.and_eq_true, decide_eq_true_eq] at h
  simp only [Bool.or_eq_false_iff, decide_eq_false_iff_not]
  omega

theorem isReSpace_not_isIdentChar (c : Char) (h : isReSpace c = true) : isIdentChar c = false := by
  cases h2 : isIdentChar c with
  | false => rfl
  | true => rw [isIdentChar_not_isReSpace c h2] at h; exact absurd h (by simp)

theorem dropWhile_append_all {p : Char → Bool} (a b : Str) (ha : ∀ x ∈ a, p x = true) :
    (a ++ b).dropWhile p = b.dropWhile p ∧ (a ++ b).takeWhile p = a ++ b.takeWhile p := by
  induction a with
  | nil => simp
  | cons x xs ih =>
    have hx := ha x (List.mem_cons_self _ _)
    obtain ⟨h1, h2⟩ := ih (fun y hy => ha y (List.mem_cons_of_mem _ hy))
    simp [List.dropWhile, List.takeWhile, hx, h1, h2]

theorem rdropWhile_append_stop {p : Char → Bool} (a : Str) (c : Char) (b : Str)
    (hb : ∀ x ∈ b, p x = true) (hc : p c = false) :
    List.rdropWhile p (a ++ c :: b) = a ++ [c] := by
  unfold List.rdropWhile
  have e : (a ++ c :: b).reverse = b.reverse ++ c :: a.reverse := by simp
  rw [e, (dropWhile_append_stop b.reverse c a.reverse (fun x hx => hb x (List.mem_reverse.mp hx))
    hc).1]
  simp

theorem trimSpace_core (ws1 ws4 mid : Str) (c0 c1 : Char)
    (h1 : ∀ c ∈ ws1, isSpace c = true) (h4 : ∀ c ∈ ws4, isSpace c = true)
    (h0 : isSpace c0 = false) (hl : isSpace c1 = false) :
    trimSpace (ws1 ++ (c0 :: (mid ++ c1 :: ws4))) = c0 :: (mid ++ [c1]) := by
  unfold trimSpace
  rw [(dropWhile_append_stop ws1 c0 _ h1 h0).1]
  have := rdropWhile_append_stop (c0 :: mid) c1 ws4 h4 hl
  simpa using this

theorem matchAssignHead_form (n ws2 ws3 : Str) (c : Char) (tail : Str) (hn : n ≠ [])
    (hnc : ∀ x ∈ n, isIdentChar x = true) (h2 : ∀ x ∈ ws2, isReSpace x = true)
    (h3 : ∀ x ∈ ws3, isReSpace x = true) (hc : isReSpace c = false) :
    matchAssignHead (n ++ (ws2 ++ equalsSign :: (ws3 ++ c :: tail))) = some (n, c :: tail) := by
  obtain ⟨x0, n', rfl⟩ := List.exists_cons_of_ne_nil hn
  have hx0 := hnc x0 (List.mem_cons_self _ _)
  unfold matchAssignHead
  have e1 : (x0 :: n' ++ (ws2 ++ equalsSign :: (ws3 ++ c :: tail))).dropWhile isReSpace =
      x0 :: n' ++ (ws2 ++ equalsSign :: (ws3 ++ c :: tail)) := by
    rw [List.cons_append, List.dropWhile_cons_of_neg]
    simp [isIdentChar_not_isReSpace x0 hx0]
  have hrest : ∀ q : Char → Bool, (∀ x ∈ ws2, q x = false) → q equalsSign = false →
      (ws2 ++ equalsSign :: (ws3 ++ c :: tail)).dropWhile q =
          ws2 ++ equalsSign :: (ws3 ++ c :: tail) ∧
        (ws2 ++ equalsSign :: (ws3 ++ c :: tail)).takeWhile q = [] := by
    intro q hq2 hqe
    cases ws2 with
    | nil => simp [List.dropWhile, List.takeWhile, hqe]
    | cons y ys => simp [List.dropWhile, List.takeWhile, hq2 y (List.mem_cons_self _ _)]
  obtain ⟨e2, e3⟩ := hrest isIdentChar (fun x hx => isReSpace_not_isIdentChar x (h2 x hx))
    (by decide)
  obtain ⟨e4, e5⟩ := dropWhile_append_all (p := isIdentChar) (x0 :: n')
    (ws2 ++ equalsSign :: (ws3 ++ c :: tail)) hnc
  have e6 := (dropWhile_append_stop ws2 equalsSign (ws3 ++ c :: tail) h2 (by decide)).1
  have e7 := (dropWhile_append_stop ws3 c tail h3 hc).1
  simp only [e1, e4, e5, e2, e3, e6, e7, List.append_nil]
  simp

theorem matchQuotedTail_form (opening closing v ws : Str) (hv : v ≠ []) (hq : dquote ∉ v)
    (hws : ∀ x ∈ ws, isReSpace x = true) :
    matchQuotedTail opening (dquote :: closing) (opening ++ (v ++ dquote :: (closing ++ ws))) =
      some v := by
  have hp : ∀ x ∈ v, (x != dquote) = true := by
    intro x hx
    simpa using fun e : x = dquote => hq (e ▸ hx)
  obtain ⟨e1, e2⟩ := dropWhile_append_stop (p := fun c => c != dquote) v dquote (closing ++ ws) hp
    (by simp)
  have e3 : dropLit opening (opening ++ (v ++ dquote :: (closing ++ ws))) =
      some (v ++ dquote :: (closing ++ ws)) := (dropLit_eq_some_iff _ _ _).mpr rfl
  have e4 : dropLit (dquote :: closing) (dquote :: (closing ++ ws)) = some ws :=
    (dropLit_eq_some_iff _ _ _).mpr rfl
  have e5 : ws.all isReSpace = true := List.all_eq_true.mpr hws
  unfold matchQuotedTail
  simp only [e3, e1, e2, e4, e5, hv, if_false, if_true]

theorem matchVarAssign_form (n ws2 ws3 v : Str) (hn : n ≠ [])
    (hnc : ∀ x ∈ n, isIdentChar x = true) (h2 : ∀ x ∈ ws2, isReSpace x = true)
    (h3 : ∀ x ∈ ws3, isReSpace x = true) (hv : v ≠ []) (hq : dquote ∉ v) :
    matchVarAssign (n ++ (ws2 ++ equalsSign :: (ws3 ++ dquote :: (v ++ [dquote])))) =
      some (n, v) := by
  unfold matchVarAssign
  rw [matchAssignHead_form n ws2 ws3 dquote (v ++ [dquote]) hn hnc h2 h3 (by decide)]
  have := matchQuotedTail_form [dquote] [] v [] hv hq (by simp)
  simp only [List.append_nil, List.singleton_append] at this
  simp only [this]

/-! ## The block compiler: literal assignment; the end marker -/

theorem mapGet_mapSet_self (m : List (Str × Str)) (n v : Str) : mapGet (mapSet m n v) n = v := by
  induction m with
  | nil => simp [mapSet, mapGet, List.lookup_cons]
  | cons p m ih =>
    obtain ⟨k0, v0⟩ := p
    unfold mapSet
    by_cases h : k0 = n
    · simp [h, mapGet, List.lookup_cons]
    · have e : (n == k0) = false := by simpa using fun e : n = k0 => h e.symm
      simp only [h, if_false]
      simpa [mapGet, List.lookup_cons, e] using ih

theorem trimSpace_literalLine (ws1 n ws2 ws3 v ws4 : Str) (hn : n ≠ [])
    (hnc : ∀ c ∈ n, isIdentChar c = true) (h1 : ∀ c ∈ ws1, isSpace c = true)
    (h4 : ∀ c ∈ ws4, isSpace c = true) :
    trimSpace (literalLine ws1 n ws2 ws3 v ws4) =
      n ++ (ws2 ++ equalsSign :: (ws3 ++ dquote :: (v ++ [dquote]))) := by
  obtain ⟨x0, n', rfl⟩ := List.exists_cons_of_ne_nil hn
  have e : literalLine ws1 (x0 :: n') ws2 ws3 v ws4 =
      ws1 ++ (x0 :: ((n' ++ (ws2 ++ equalsSign :: (ws3 ++ dquote :: v))) ++ dquote :: ws4)) := by
    simp [literalLine]
  rw [e, trimSpace_core ws1 ws4 _ x0 dquote h1 h4
    (isIdentChar_not_isSpace x0 (hnc x0 (List.mem_cons_self _ _))) (by decide)]
  simp

theorem processLine_literal (st : CompileState) (ws1 n ws2 ws3 v ws4 : Str) (hn : n ≠ [])
    (hnc : ∀ c ∈ n, isIdentChar c = true) (hv : v ≠ []) (hq : dquote ∉ v)
    (h1 : ∀ c ∈ ws1, isSpace c = true) (h2 : ∀ c ∈ ws2, isReSpace c = true)
    (h3 : ∀ c ∈ ws3, isReSpace c = true) (h4 : ∀ c ∈ ws4, isSpace c = true) :
    processLine st (literalLine ws1 n ws2 ws3 v ws4) =
      ⟨mapSet st.vars n v, [], flushPending st⟩ := by
  unfold processLine
  have hne : n ++ (ws2 ++ equalsSign :: (ws3 ++ dquote :: (v ++ [dquote]))) ≠ [] := by
    intro e
    exact hn (List.append_eq_nil.mp e).1
  simp only [trimSpace_literalLine ws1 n ws2 ws3 v ws4 hn hnc h1 h4, hne, if_false,
    matchVarAssign_form n ws2 ws3 v hn hnc h2 h3 hv hq]

/-- C10. A body line `n = "v"`, with `n` a non-empty identifier, `v` non-empty
without a double quote, any white space before the name and after the closing
quote, and any white space of the class `\s` around the equals sign, is compiled
into the map write `Variables[n] = v`: the loop body sets the variable, resets the
pending command and adds no command but the flush of the pending one; at the end
of a body the line leaves the commands as they are and the variable reads `v`; as
the only line of a body it gives the single variable and no command. -/
theorem processBlockContent_literal (ws1 n ws2 ws3 v ws4 : Str) (hn : n ≠ [])
    (hnc : ∀ c ∈ n, isIdentChar c = true) (hv : v ≠ []) (hq : dquote ∉ v)
    (h1 : ∀ c ∈ ws1, isSpace c = true) (h2 : ∀ c ∈ ws2, isReSpace c = true)
    (h3 : ∀ c ∈ ws3, isReSpace c = true) (h4 : ∀ c ∈ ws4, isSpace c = true) :
    (∀ st : CompileState, processLine st (literalLine ws1 n ws2 ws3 v ws4) =
        ⟨mapSet st.vars n v, [], flushPending st⟩) ∧
      (∀ (b : RRBlock) (pre : List Str),
        (processBlockContent b (pre ++ [literalLine ws1 n ws2 ws3 v ws4])).Commands =
            (processBlockContent b pre).Commands ∧
          mapGet (processBlockContent b (pre ++ [literalLine ws1 n ws2 ws3 v ws4])).Variables n =
            v) ∧
      ∀ name : Str, processBlockContent ⟨name, [], []⟩ [literalLine ws1 n ws2 ws3 v ws4] =
        ⟨name, [(n, v)], []⟩ := by
  have hstep := fun st => processLine_literal st ws1 n ws2 ws3 v ws4 hn hnc hv hq h1 h2 h3 h4
  refine ⟨hstep, ?_, ?_⟩
  · intro b pre
    unfold processBlockContent compileLines
    rw [List.foldl_append, List.foldl_cons, List.foldl_nil, hstep]
    exact ⟨by simp [flushPending], mapGet_mapSet_self _ n v⟩
  · intro name
    unfold processBlockContent compileLines
    rw [List.foldl_cons, List.foldl_nil, hstep]
    simp [flushPending, mapSet]

/-- The first line of `TestProcessBlockContent_Variables`, with white space added. -/
theorem processBlockContent_literal_witness :
    processBlockContent ⟨"Test".toList, [], []⟩ ["  my-var \t= \"test value\"  ".toList] =
      ⟨"Test".toList, [("my-var".toList, "test value".toList)], []⟩ :=
  (processBlockContent_literal "  ".toList "my-var".toList " \t".toList " ".toList
    "test value".toList "  ".toList (by decide) (by decide) (by decide) (by decide) (by decide)
    (by decide) (by decide) (by decide)).2.2 "Test".toList

/-- C9, the code at the failing input: the line `echo hi --> tail` inside an open
block closes the block, and the whole line, end marker and following text
included, becomes the command of the block. -/
theorem parseRRBlocks_text_after_end_marker :
    parseRRBlocks ("<!-- RR\necho hi ".toList ++ endMarker ++ " tail\nnext".toList) =
      [⟨[], [], ["echo hi ".toList ++ endMarker ++ " tail".toList]⟩] := by
  decide

/-! ## The block compiler: prompt assignment -/

theorem trimSpace_promptLine (ws1 n ws2 ws3 q ws4 : Str) (hn : n ≠ [])
    (hnc : ∀ c ∈ n, isIdentChar c = true) (h1 : ∀ c ∈ ws1, isSpace c = true)
    (h4 : ∀ c ∈ ws4, isSpace c = true) :
    trimSpace (promptLine ws1 n ws2 ws3 q ws4) =
      n ++ (ws2 ++ equalsSign :: (ws3 ++
        ("#prompt(".toList ++ dquote :: (q ++ dquote :: ")".toList)))) := by
  obtain ⟨x0, n', rfl⟩ := List.exists_cons_of_ne_nil hn
  have e : promptLine ws1 (x0 :: n') ws2 ws3 q ws4 =
      ws1 ++ (x0 :: ((n' ++ (ws2 ++ equalsSign :: (ws3 ++
        ("#prompt(".toList ++ dquote :: (q ++ [dquote]))))) ++ ')' :: ws4)) := by
    simp [promptLine]
  rw [e, trimSpace_core ws1 ws4 _ x0 ')' h1 h4
    (isIdentChar_not_isSpace x0 (hnc x0 (List.mem_cons_self _ _))) (by decide)]
  simp

theorem matchVarAssign_prompt_form (n ws2 ws3 tail : Str) (hn : n ≠ [])
    (hnc : ∀ x ∈ n, isIdentChar x = true) (h2 : ∀ x ∈ ws2, isReSpace x = true)
    (h3 : ∀ x ∈ ws3, isReSpace x = true) :
    matchVarAssign (n ++ (ws2 ++ equalsSign :: (ws3 ++ ("#prompt(".toList ++ tail)))) = none := by
  unfold matchVarAssign
  have e : "#prompt(".toList ++ tail = '#' :: ("prompt(".toList ++ tail) := rfl
  rw [e, matchAssignHead_form n ws2 ws3 '#' _ hn hnc h2 h3 (by decide)]
  have : dropLit [dquote] ('#' :: ("prompt(".toList ++ tail)) = none := by
    unfold dropLit
    rw [if_neg]
    simp [List.isPrefixOf, dquote]
  simp only [matchQuotedTail, this]

theorem matchPrompt_form (n ws2 ws3 q : Str) (hn : n ≠ [])
    (hnc : ∀ x ∈ n, isIdentChar x = true) (h2 : ∀ x ∈ ws2, isReSpace x = true)
    (h3 : ∀ x ∈ ws3, isReSpace x = true) (hq : q ≠ []) (hqq : dquote ∉ q) :
    matchPrompt (n ++ (ws2 ++ equalsSign :: (ws3 ++
      ("#prompt(".toList ++ dquote :: (q ++ dquote :: ")".toList))))) = some (n, q) := by
  unfold matchPrompt
  have e : "#prompt(".toList ++ dquote :: (q ++ dquote :: ")".toList) =
      '#' :: ("prompt(".toList ++ dquote :: (q ++ dquote :: ")".toList)) := rfl
  rw [e, matchAssignHead_form n ws2 ws3 '#' _ hn hnc h2 h3 (by decide)]
  have := matchQuotedTail_form ("#prompt(".toList ++ [dquote]) ")".toList q [] hq hqq (by simp)
  have e2 : ("#prompt(".toList ++ [dquote]) ++ (q ++ dquote :: (")".toList ++ [])) =
      '#' :: ("prompt(".toList ++ dquote :: (q ++ dquote :: ")".toList)) := by simp
  rw [e2] at this
  simp only [this]

theorem processLine_prompt (st : CompileState) (ws1 n ws2 ws3 q ws4 : Str) (hn : n ≠ [])
    (hnc : ∀ c ∈ n, isIdentChar c = true) (hq : q ≠ []) (hqq : dquote ∉ q)
    (h1 : ∀ c ∈ ws1, isSpace c = true) (h2 : ∀ c ∈ ws2, isReSpace c = true)
    (h3 : ∀ c ∈ ws3, isReSpace c = true) (h4 : ∀ c ∈ ws4, isSpace c = true) :
    processLine st (promptLine ws1 n ws2 ws3 q ws4) =
      ⟨mapSet st.vars n ("#PROMPT:".toList ++ q), [], flushPending st⟩ := by
  unfold processLine
  have hne : n ++ (ws2 ++ equalsSign :: (ws3 ++
      ("#prompt(".toList ++ dquote :: (q ++ dquote :: ")".toList)))) ≠ [] := by
    intro e
    exact hn (List.append_eq_nil.mp e).1
  simp only [trimSpace_promptLine ws1 n ws2 ws3 q ws4 hn hnc h1 h4, hne, if_false,
    matchVarAssign_prompt_form n ws2 ws3 _ hn hnc h2 h3,
    matchPrompt_form n ws2 ws3 q hn hnc h2 h3 hq hqq]

/-- C11. A body line `n = #prompt("q")`, with `n` a non-empty identifier and `q`
non-empty without a double quote (any white space before the name and after the
closing parenthesis, white space of the class `\s` around the equals sign), is
compiled into the map write `Variables[n] = "#PROMPT:" + q`: the loop body records
the pending prompt, resets the pending command and adds no command but the flush
of the pending one; at the end of a body the line leaves the commands as they are
and the variable reads `"#PROMPT:" + q`; as the only line of a body it gives the
single variable and no command. -/
theorem processBlockContent_prompt (ws1 n ws2 ws3 q ws4 : Str) (hn : n ≠ [])
    (hnc : ∀ c ∈ n, isIdentChar c = true) (hq : q ≠ []) (hqq : dquote ∉ q)
    (h1 : ∀ c ∈ ws1, isSpace c = true) (h2 : ∀ c ∈ ws2, isReSpace c = true)
    (h3 : ∀ c ∈ ws3, isReSpace c = true) (h4 : ∀ c ∈ ws4, isSpace c = true) :
    (∀ st : CompileState, processLine st (promptLine ws1 n ws2 ws3 q ws4) =
        ⟨mapSet st.vars n ("#PROMPT:".toList ++ q), [], flushPending st⟩) ∧
      (∀ (b : RRBlock) (pre : List Str),
        (processBlockContent b (pre ++ [promptLine ws1 n ws2 ws3 q ws4])).Commands =
            (processBlockContent b pre).Commands ∧
          mapGet (processBlockContent b (pre ++ [promptLine ws1 n ws2 ws3 q ws4])).Variables n =
            "#PROMPT:".toList ++ q) ∧
      ∀ name : Str, processBlockContent ⟨name, [], []⟩ [promptLine ws1 n ws2 ws3 q ws4] =
        ⟨name, [(n, "#PROMPT:".toList ++ q)], []⟩ := by
  have hstep := fun st => processLine_prompt st ws1 n ws2 ws3 q ws4 hn hnc hq hqq h1 h2 h3 h4
  refine ⟨hstep, ?_, ?_⟩
  · intro b pre
    unfold processBlockContent compileLines
    rw [List.foldl_append, List.foldl_cons, List.foldl_nil, hstep]
    exact ⟨by simp [flushPending], mapGet_mapSet_self _ n _⟩
  · intro name
    unfold processBlockContent compileLines
    rw [List.foldl_cons, List.foldl_nil, hstep]
    simp [flushPending, mapSet]

/-- The first line of `TestProcessBlockContent_Prompts`. -/
theorem processBlockContent_prompt_witness :
    processBlockContent ⟨"Test".toList, [], []⟩
        ["my-name = #prompt(\"What is your name?\")".toList] =
      ⟨"Test".toList, [("my-name".toList, "#PROMPT:What is your name?".toList)], []⟩ :=
  (processBlockContent_prompt [] "my-name".toList " ".toList " ".toList
    "What is your name?".toList [] (by decide) (by decide) (by decide) (by decide) (by decide)
    (by decide) (by decide) (by decide)).2.2 "Test".toList

/-! ## The block compiler: blank lines -/

theorem trimSpace_eq_nil_iff (s : Str) : trimSpace s = [] ↔ ∀ c ∈ s, isSpace c = true := by
  unfold trimSpace
  constructor
  · intro h
    have h2 : s.dropWhile isSpace = [] := by
      by_contra hne
      have := List.rdropWhile_last_not isSpace (s.dropWhile isSpace)
      cases hd : s.dropWhile isSpace with
      | nil => exact hne hd
      | cons c t =>
        have hc := dropWhile_head_false s c t hd
        have e : List.rdropWhile isSpace (c :: t) ≠ [] := by
          unfold List.rdropWhile
          rw [List.reverse_cons]
          intro e2
          have e3 := List.reverse_eq_nil_iff.mp e2
          rw [List.dropWhile_eq_nil_iff] at e3
          have := e3 c (by simp)
          rw [hc] at this
          exact absurd this (by simp)
        rw [hd] at h
        exact e h
    exact fun c hc => List.dropWhile_eq_nil_iff.mp h2 c hc
  · intro h
    rw [(dropWhile_all s h).1]
    rfl

theorem processLine_blank (st : CompileState) (line : Str) (h : trimSpace line = []) :
    processLine st line = st := by
  simp [processLine, h]

theorem compile_filter_blank (lines : List Str) : ∀ st : CompileState,
    lines.foldl processLine st =
      (lines.filter fun l => !isBlankLine l).foldl processLine st := by
  induction lines with
  | nil => intro st; rfl
  | cons l ls ih =>
    intro st
    by_cases hb : isBlankLine l = true
    · have ht : trimSpace l = [] :=
        (trimSpace_eq_nil_iff l).mpr (List.all_eq_true.mp hb)
      rw [List.foldl_cons, processLine_blank st l ht, List.filter_cons_of_neg (by simp [hb])]
      exact ih st
    · rw [List.foldl_cons, List.filter_cons_of_pos (by simpa using hb), List.foldl_cons]
      exact ih _

/-- C14. Blank lines are skipped whatever the state of the pending command:
`processBlockContent` gives the same block, variables and commands, on a body
and on the body with every empty or white-space-only line removed; a blank line
leaves the state of the loop unchanged, also between a continued line and its
continuation. -/
theorem processBlockContent_blank_lines (b : RRBlock) (lines : List Str) :
    processBlockContent b lines =
        processBlockContent b (lines.filter fun l => !isBlankLine l) ∧
      ∀ (st : CompileState) (l : Str), isBlankLine l = true → processLine st l = st := by
  constructor
  · unfold processBlockContent compileLines
    rw [← compile_filter_blank]
  · intro st l hl
    exact processLine_blank st l ((trimSpace_eq_nil_iff l).mpr (List.all_eq_true.mp hl))

/-- The body of `TestProcessBlockContent_EmptyLines`, and a blank line between a
continued line and its continuation. -/
theorem processBlockContent_blank_lines_witness :
    (processBlockContent ⟨"Test".toList, [], []⟩
        [[], "echo test".toList, "   ".toList, "echo another".toList, []]).Commands =
        ["echo test".toList, "echo another".toList] ∧
      processBlockContent ⟨[], [], []⟩ [("echo a ".toList ++ [backslash]), " \t".toList, "b".toList] =
        processBlockContent ⟨[], [], []⟩ [("echo a ".toList ++ [backslash]), "b".toList] :=
  ⟨(congrArg RRBlock.Commands (processBlockContent_blank_lines _ _).1).trans (by decide),
    ((processBlockContent_blank_lines _ _).1).trans (by decide)⟩

/-! ## The block compiler: command lines, continuation and flush -/

theorem isSpace_of_blank (c : Char) (h : (decide (c.toNat = 32) || decide (c.toNat = 9)) = true) :
    isSpace c = true := by
  unfold isSpace
  simp only [Bool.or_eq_true, decide_eq_true_eq, Bool.and_eq_true] at h ⊢
  omega

theorem trimRightBlanks_trimSpace (s : Str) : trimRightBlanks (trimSpace s) = trimSpace s := by
  unfold trimRightBlanks
  rw [List.rdropWhile_eq_self_iff]
  intro hl hq
  have := List.rdropWhile_last_not isSpace (s.dropWhile isSpace) hl
  exact this (isSpace_of_blank _ hq)

theorem trimSpace_idem (s : Str) : trimSpace (trimSpace s) = trimSpace s := by
  have hpre : trimSpace s <+: s.dropWhile isSpace := List.rdropWhile_prefix _ _
  have h1 : (trimSpace s).dropWhile isSpace = trimSpace s := by
    cases hy : trimSpace s with
    | nil => rfl
    | cons c t =>
      rw [hy] at hpre
      obtain ⟨u, hu⟩ := hpre
      have hc := dropWhile_head_false s c (t ++ u) (by rw [← hu]; rfl)
      rw [List.dropWhile_cons_of_neg (by simp [hc])]
  have h2 : List.rdropWhile isSpace (trimSpace s) = trimSpace s := by
    unfold trimSpace
    exact List.rdropWhile_idempotent _ _
  show List.rdropWhile isSpace ((trimSpace s).dropWhile isSpace) = trimSpace s
  rw [h1, h2]

theorem processLine_assignment (st : CompileState) (line n val : Str)
    (h : assignedVariable line = some (n, val)) :
    processLine st line = ⟨mapSet st.vars n val, [], flushPending st⟩ := by
  unfold assignedVariable at h
  have hne : trimSpace line ≠ [] := by
    intro e
    rw [e] at h
    have e1 : matchVarAssign [] = none := by decide
    have e2 : matchPrompt [] = none := by decide
    simp only [e1, e2] at h
    exact absurd h (by simp)
  unfold processLine
  simp only [hne, if_false]
  cases h1 : matchVarAssign (trimSpace line) with
  | some p =>
    obtain ⟨a, b⟩ := p
    rw [h1] at h
    simp only [Option.some.injEq, Prod.mk.injEq] at h
    simp only [h.1, h.2]
  | none =>
    rw [h1] at h
    cases h2 : matchPrompt (trimSpace line) with
    | some p =>
      obtain ⟨a, b⟩ := p
      rw [h2] at h
      simp only [Option.some.injEq, Prod.mk.injEq] at h
      simp only [h.1, h.2]
    | none =>
      rw [h2] at h
      exact absurd h (by simp)

theorem processLine_command (st : CompileState) (line : Str) (h : isCommandLine line = true) :
    processLine st line =
      if isContinued line = true then
        { st with currentCommand := withSeparator st.currentCommand ++ fragment line }
      else
        { st with
          currentCommand := []
          commands := appendCommand st.commands
            (withSeparator st.currentCommand ++ trimSpace line) } := by
  unfold isCommandLine at h
  simp only [Bool.and_eq_true, Bool.not_eq_true', List.isEmpty_eq_false,
    Option.isNone_iff_eq_none] at h
  obtain ⟨hne, hnone⟩ := h
  have h1 : matchVarAssign (trimSpace line) = none := by
    unfold assignedVariable at hnone
    cases hm : matchVarAssign (trimSpace line) with
    | none => rfl
    | some p => rw [hm] at hnone; exact absurd hnone (by simp)
  have h2 : matchPrompt (trimSpace line) = none := by
    unfold assignedVariable at hnone
    rw [h1] at hnone
    cases hm : matchPrompt (trimSpace line) with
    | none => rfl
    | some p => rw [hm] at hnone; exact absurd hnone (by simp)
  unfold processLine isContinued fragment withSeparator
  simp only [hne, if_false, h1, h2, trimRightBlanks_trimSpace]

theorem not_backslash_end (y w x : Str) (hw : w ≠ []) (hz : ∀ z ∈ w, z ≠ backslash) :
    y ++ w ≠ x ++ [backslash] := by
  intro e
  have e2 := congrArg List.reverse e
  rw [List.reverse_append, List.reverse_append] at e2
  obtain ⟨w0, w1, hw1⟩ := List.exists_cons_of_ne_nil (fun h => hw (List.reverse_eq_nil_iff.mp h))
  rw [hw1] at e2
  simp only [List.reverse_cons, List.reverse_nil, List.nil_append, List.cons_append,
    List.cons.injEq] at e2
  have hmem : w0 ∈ w := by
    rw [← List.mem_reverse, hw1]
    exact List.mem_cons_self _ _
  exact hz w0 hmem e2.1

theorem matchAssignHead_suffix (line n rest : Str) (h : matchAssignHead line = some (n, rest)) :
    rest <:+ line := by
  unfold matchAssignHead at h
  simp only at h
  split at h
  · exact absurd h (by simp)
  · split at h
    · exact absurd h (by simp)
    · rename_i c s2 hs
      split at h
      · simp only [Option.some.injEq, Prod.mk.injEq] at h
        rw [← h.2]
        have a1 : s2.dropWhile isReSpace <:+ c :: s2 :=
          (List.dropWhile_suffix _).trans (List.suffix_cons c s2)
        rw [← hs] at a1
        exact a1.trans ((List.dropWhile_suffix _).trans
          ((List.dropWhile_suffix _).trans (List.dropWhile_suffix _)))
      · exact absurd h (by simp)

theorem matchQuotedTail_split (opening closing s v : Str)
    (h : matchQuotedTail opening closing s = some v) :
    ∃ s2, s = opening ++ (v ++ (closing ++ s2)) ∧ ∀ z ∈ s2, isReSpace z = true := by
  unfold matchQuotedTail at h
  split at h
  · exact absurd h (by simp)
  · rename_i s1 h1
    simp only at h
    split at h
    · exact absurd h (by simp)
    · split at h
      · exact absurd h (by simp)
      · rename_i s2 h2
        split at h
        · rename_i hall
          simp only [Option.some.injEq] at h
          rw [dropLit_eq_some_iff] at h1 h2
          refine ⟨s2, ?_, fun z hz => List.all_eq_true.mp hall z hz⟩
          rw [h1, ← h, ← h2, List.takeWhile_append_dropWhile]
        · exact absurd h (by simp)

theorem isReSpace_ne_backslash (z : Char) (h : isReSpace z = true) : z ≠ backslash := by
  intro e
  rw [e] at h
  exact absurd h (by decide)

theorem matchVarAssign_backslash (x : Str) : matchVarAssign (x ++ [backslash]) = none := by
  cases h : matchVarAssign (x ++ [backslash]) with
  | none => rfl
  | some p =>
    exfalso
    unfold matchVarAssign at h
    split at h
    · exact absurd h (by simp)
    · rename_i n rest hh
      split at h
      · exact absurd h (by simp)
      · rename_i v hq
        obtain ⟨pre, hpre⟩ := matchAssignHead_suffix _ _ _ hh
        obtain ⟨s2, hs, hs2⟩ := matchQuotedTail_split _ _ _ _ hq
        have e : (pre ++ ([dquote] ++ v)) ++ ([dquote] ++ s2) = x ++ [backslash] := by
          rw [← hpre, hs]; simp
        refine not_backslash_end _ _ x (by simp) ?_ e
        intro z hz
        rcases List.mem_append.mp hz with hz | hz
        · rw [List.mem_singleton.mp hz]; decide
        · exact isReSpace_ne_backslash z (hs2 z hz)

theorem matchPrompt_backslash (x : Str) : matchPrompt (x ++ [backslash]) = none := by
  cases h : matchPrompt (x ++ [backslash]) with
  | none => rfl
  | some p =>
    exfalso
    unfold matchPrompt at h
    split at h
    · exact absurd h (by simp)
    · rename_i n rest hh
      split at h
      · exact absurd h (by simp)
      · rename_i v hq
        obtain ⟨pre, hpre⟩ := matchAssignHead_suffix _ _ _ hh
        obtain ⟨s2, hs, hs2⟩ := matchQuotedTail_split _ _ _ _ hq
        have e : (pre ++ (("#prompt(".toList ++ [dquote]) ++ v)) ++
            ((dquote :: ")".toList) ++ s2) = x ++ [backslash] := by
          rw [← hpre, hs]; simp
        refine not_backslash_end _ _ x (by simp) ?_ e
        intro z hz
        rcases List.mem_append.mp hz with hz | hz
        · have : z = dquote ∨ z = ')' := by simpa using hz
          rcases this with rfl | rfl <;> decide
        · exact isReSpace_ne_backslash z (hs2 z hz)

theorem trimSpace_concat_backslash (c : Str) (hc : trimSpace c ≠ []) :
    trimSpace (c ++ [backslash]) = c.dropWhile isSpace ++ [backslash] := by
  have hd : c.dropWhile isSpace ≠ [] := by
    intro e
    apply hc
    unfold trimSpace
    rw [e]
    rfl
  unfold trimSpace
  rw [List.dropWhile_append]
  have : (c.dropWhile isSpace).isEmpty = false := by
    simpa [List.isEmpty_iff] using hd
  rw [this]
  simp only [Bool.false_eq_true, if_false]
  exact List.rdropWhile_concat_neg _ _ _ (by decide)

theorem trimSpace_dropWhile (c : Str) : trimSpace (c.dropWhile isSpace) = trimSpace c := by
  unfold trimSpace
  rw [List.dropWhile_idempotent]

theorem backslash_line (c : Str) (hc : trimSpace c ≠ []) :
    isCommandLine (c ++ [backslash]) = true ∧ isContinued (c ++ [backslash]) = true ∧
      fragment (c ++ [backslash]) = c.dropWhile isSpace := by
  have ht := trimSpace_concat_backslash c hc
  refine ⟨?_, ?_, ?_⟩
  · unfold isCommandLine assignedVariable
    rw [ht, matchVarAssign_backslash, matchPrompt_backslash]
    simp
  · unfold isContinued hasSuffix
    rw [ht]
    exact List.isSuffixOf_iff_suffix.mpr ⟨_, rfl⟩
  · unfold fragment trimSuffix hasSuffix
    rw [ht]
    have : [backslash].isSuffixOf (c.dropWhile isSpace ++ [backslash]) = true :=
      List.isSuffixOf_iff_suffix.mpr ⟨_, rfl⟩
    simp [this]

/-- C15. A variable line terminates a pending command: for a fragment `c` that is
not blank, a line `a` that declares the variable `n` with the value `val` (a
literal or a prompt assignment) and a command line `d` that is not continued, the
body `[c + backslash, a, d]` is compiled into the two commands `trim(c)` and
`trim(d)`, in that order, and the map write `Variables[n] = val`; the line
`c + backslash` is a continued command line whatever `c` is. -/
theorem processBlockContent_variable_flush (b : RRBlock) (c a d n val : Str)
    (hc : trimSpace c ≠ []) (ha : assignedVariable a = some (n, val))
    (hd : isCommandLine d = true) (hd2 : isContinued d = false) :
    processBlockContent b [c ++ [backslash], a, d] =
        ⟨b.Name, mapSet b.Variables n val, [trimSpace c, trimSpace d]⟩ ∧
      isCommandLine (c ++ [backslash]) = true ∧ isContinued (c ++ [backslash]) = true := by
  obtain ⟨h1, h2, h3⟩ := backslash_line c hc
  refine ⟨?_, h1, h2⟩
  have hdne : trimSpace d ≠ [] := by
    unfold isCommandLine at hd
    simp only [Bool.and_eq_true, Bool.not_eq_true', List.isEmpty_eq_false] at hd
    exact hd.1
  have hcd : c.dropWhile isSpace ≠ [] := by
    intro e
    apply hc
    unfold trimSpace
    rw [e]
    rfl
  unfold processBlockContent compileLines
  simp only [List.foldl_cons, List.foldl_nil]
  rw [processLine_command _ _ h1, if_pos h2, h3]
  rw [processLine_assignment _ a n val ha]
  rw [processLine_command _ _ hd, hd2]
  simp [withSeparator, flushPending, appendCommand, hcd, trimSpace_dropWhile, hc,
    trimSpace_idem, hdne]

/-- A continued echo, a literal assignment and a plain echo; and the same with a
prompt assignment. -/
theorem processBlockContent_variable_flush_witness :
    processBlockContent ⟨"Test".toList, [], []⟩
        ["echo one  ".toList ++ [backslash], "v = \"x\"".toList, " echo two ".toList] =
        ⟨"Test".toList, [("v".toList, "x".toList)], ["echo one".toList, "echo two".toList]⟩ ∧
      processBlockContent ⟨"Test".toList, [], []⟩
        ["echo one".toList ++ [backslash], "v = #prompt(\"q?\")".toList, "echo two".toList] =
        ⟨"Test".toList, [("v".toList, "#PROMPT:q?".toList)],
          ["echo one".toList, "echo two".toList]⟩ :=
  ⟨(processBlockContent_variable_flush _ _ _ _ "v".toList "x".toList (by decide) (by decide)
      (by decide) (by decide)).1,
    (processBlockContent_variable_flush _ _ _ _ "v".toList "#PROMPT:q?".toList (by decide)
      (by decide) (by decide) (by decide)).1⟩

/-- C12, amended. The three body lines `echo A\`, `echo B\`, `echo C` are compiled
into exactly one command, and that command is `echo A echo B echo C`, with one
space between the parts: the separator is the one space written before a
fragment is appended. -/
theorem processBlockContent_continuation_example (b : RRBlock) :
    (processBlockContent b
        ["echo A".toList ++ [backslash], "echo B".toList ++ [backslash], "echo C".toList]).Commands =
      ["echo A echo B echo C".toList] := by
  rfl

/-- C12 as the specification words it fails: the command is not
`echo A  echo B  echo C` with two spaces between the parts. -/
theorem processBlockContent_continuation_counterexample :
    (processBlockContent ⟨[], [], []⟩
        ["echo A".toList ++ [backslash], "echo B".toList ++ [backslash], "echo C".toList]).Commands ≠
      ["echo A  echo B  echo C".toList] := by
  decide

/-! ## The block compiler: command assembly -/

theorem joinSpaces_cons (f : Str) (fs : List Str) :
    joinSpaces (f :: fs) = f ++ fs.flatMap fun g => ' ' :: g := by
  induction fs generalizing f with
  | nil => simp [joinSpaces]
  | cons g gs ih =>
    have e : joinSpaces (f :: g :: gs) = f ++ ' ' :: joinSpaces (g :: gs) := rfl
    rw [e, ih g]
    simp [List.flatMap_cons]

theorem accumulate_of_ne_nil (fs : List Str) : ∀ cur : Str, cur ≠ [] →
    accumulate cur fs = cur ++ fs.flatMap fun g => ' ' :: g := by
  induction fs with
  | nil => intro cur _; simp [accumulate]
  | cons f fs ih =>
    intro cur hcur
    have hstep : withSeparator cur ++ f ≠ [] := by
      simp [withSeparator, hcur]
    have e : accumulate cur (f :: fs) = accumulate (withSeparator cur ++ f) fs := rfl
    rw [e, ih _ hstep]
    simp [withSeparator, hcur, List.flatMap_cons]

theorem trimSpace_cons_space (x : Str) : trimSpace (' ' :: x) = trimSpace x := by
  unfold trimSpace
  rw [List.dropWhile_cons_of_pos (by decide)]

theorem trimSpace_accumulate (fs : List Str) :
    trimSpace (accumulate [] fs) = trimSpace (joinSpaces fs) := by
  induction fs with
  | nil => rfl
  | cons f fs ih =>
    have e : accumulate [] (f :: fs) = accumulate f fs := by
      simp [accumulate, withSeparator]
    by_cases hf : f = []
    · subst hf
      rw [e, ih]
      cases fs with
      | nil => rfl
      | cons g gs =>
        have e2 : joinSpaces ([] :: g :: gs) = ' ' :: joinSpaces (g :: gs) := rfl
        rw [e2, trimSpace_cons_space]
    · rw [e, accumulate_of_ne_nil fs f hf, joinSpaces_cons]

theorem accumulate_concat (fs : List Str) (f : Str) :
    accumulate [] (fs ++ [f]) = withSeparator (accumulate [] fs) ++ f := by
  simp [accumulate, List.foldl_append]

theorem appendCommand_eq (cmds : List Str) (text : Str) :
    appendCommand cmds text = cmds ++ completed text := by
  unfold appendCommand completed
  split <;> simp

theorem completed_congr (s t : Str) (h : trimSpace s = trimSpace t) :
    completed s = completed t := by
  unfold completed
  rw [h]

theorem fragment_of_not_continued (l : Str) (h : isContinued l = false) :
    fragment l = trimSpace l := by
  unfold isContinued at h
  unfold fragment trimSuffix
  rw [h]
  simp

theorem compile_command_lines (lines : List Str) (h : ∀ l ∈ lines, isCommandLine l = true) :
    ∀ (vars : List (Str × Str)) (fs cmds : List Str),
      flushPending (lines.foldl processLine ⟨vars, accumulate [] fs, cmds⟩) =
          cmds ++ pendingCommands fs lines ∧
        (lines.foldl processLine ⟨vars, accumulate [] fs, cmds⟩).vars = vars := by
  induction lines with
  | nil =>
    intro vars fs cmds
    refine ⟨?_, rfl⟩
    simp only [List.foldl_nil, flushPending, pendingCommands]
    by_cases hcur : accumulate [] fs = []
    · have : completed (joinSpaces fs) = [] := by
        rw [← completed_congr _ _ (trimSpace_accumulate fs), hcur]
        rfl
      simp [hcur, this]
    · simp only [hcur, ne_eq, not_false_eq_true, if_true, appendCommand_eq]
      rw [completed_congr _ _ (trimSpace_accumulate fs)]
  | cons l ls ih =>
    intro vars fs cmds
    have hl := h l (List.mem_cons_self _ _)
    have hls : ∀ x ∈ ls, isCommandLine x = true := fun x hx => h x (List.mem_cons_of_mem _ hx)
    rw [List.foldl_cons, processLine_command _ l hl]
    by_cases hc : isContinued l = true
    · simp only [hc, if_true, pendingCommands]
      rw [← accumulate_concat]
      exact ih hls vars (fs ++ [fragment l]) cmds
    · have hcf : isContinued l = false := by simpa using hc
      simp only [hcf, Bool.false_eq_true, if_false, pendingCommands]
      have e0 : ([] : Str) = accumulate [] [] := rfl
      rw [← fragment_of_not_continued l hcf, ← accumulate_concat, appendCommand_eq,
        completed_congr _ _ (trimSpace_accumulate (fs ++ [fragment l]))]
      have := ih hls vars [] (cmds ++ completed (joinSpaces (fs ++ [fragment l])))
      rw [← e0] at this
      rw [this.1, this.2]
      simp

theorem pendingCommands_groups (lines : List Str) : ∀ fs : List Str,
    pendingCommands fs lines =
      match splitGroups lines with
      | [] => completed (joinSpaces fs)
      | g :: gs => completed (joinSpaces (fs ++ g.map fragment)) ++
          (gs.map fun x => completed (joinSpaces (x.map fragment))).flatten := by
  induction lines with
  | nil => intro fs; rfl
  | cons l ls ih =>
    intro fs
    by_cases hc : isContinued l = true
    · simp only [pendingCommands, splitGroups, hc, if_true]
      rw [ih]
      cases splitGroups ls with
      | nil => simp
      | cons g gs => simp
    · have hcf : isContinued l = false := by simpa using hc
      simp only [pendingCommands, splitGroups, hcf, Bool.false_eq_true, if_false]
      rw [ih]
      cases splitGroups ls with
      | nil => simp [completed, joinSpaces, trimSpace]
      | cons g gs => simp

theorem completed_eq_filter (text : Str) :
    completed text = [trimSpace text].filter fun cmd => !cmd.isEmpty := by
  unfold completed
  by_cases h : trimSpace text = []
  · simp [h]
  · simp [h]

theorem flatten_completed (gs : List (List Str)) :
    (gs.map fun x => completed (joinSpaces (x.map fragment))).flatten =
      (gs.map groupCommand).filter fun cmd => !cmd.isEmpty := by
  induction gs with
  | nil => rfl
  | cons g gs ih =>
    rw [List.map_cons, List.flatten_cons, ih, List.map_cons, completed_eq_filter]
    unfold groupCommand
    by_cases h : trimSpace (joinSpaces (List.map fragment g)) = [] <;> simp [h]

theorem pendingCommands_nil (lines : List Str) :
    pendingCommands [] lines = assembleCommands lines := by
  rw [pendingCommands_groups, assembleCommands]
  cases splitGroups lines with
  | nil => rfl
  | cons g gs =>
    simp only [List.nil_append]
    rw [flatten_completed, List.map_cons, completed_eq_filter]
    unfold groupCommand
    by_cases h : trimSpace (joinSpaces (List.map fragment g)) = [] <;> simp [h]

theorem splitGroups_plain (lines : List Str) (h : ∀ l ∈ lines, isContinued l = false) :
    splitGroups lines = lines.map fun l => [l] := by
  induction lines with
  | nil => rfl
  | cons l ls ih =>
    rw [splitGroups, h l (List.mem_cons_self _ _),
      ih fun x hx => h x (List.mem_cons_of_mem _ hx)]
    simp

theorem splitGroups_continued (ks : List Str) (p : Str) (hk : ∀ k ∈ ks, isContinued k = true)
    (hp : isContinued p = false) : splitGroups (ks ++ [p]) = [ks ++ [p]] := by
  induction ks with
  | nil => simp [splitGroups, hp]
  | cons k ks ih =>
    rw [List.cons_append, splitGroups, hk k (List.mem_cons_self _ _),
      ih fun x hx => hk x (List.mem_cons_of_mem _ hx)]
    simp

theorem trimSpace_ne_nil_of_commandLine (l : Str) (h : isCommandLine l = true) :
    trimSpace l ≠ [] := by
  unfold isCommandLine at h
  simp only [Bool.and_eq_true, Bool.not_eq_true', List.isEmpty_eq_false] at h
  exact h.1

theorem assembleCommands_plain (lines : List Str) (h : ∀ l ∈ lines, isCommandLine l = true)
    (hp : ∀ l ∈ lines, isContinued l = false) : assembleCommands lines = lines.map trimSpace := by
  unfold assembleCommands
  rw [splitGroups_plain lines hp, List.map_map]
  induction lines with
  | nil => rfl
  | cons l ls ih =>
    have hl := trimSpace_ne_nil_of_commandLine l (h l (List.mem_cons_self _ _))
    have e : groupCommand [l] = trimSpace l := by
      unfold groupCommand
      simp only [List.map_cons, List.map_nil, joinSpaces]
      rw [fragment_of_not_continued l (hp l (List.mem_cons_self _ _)), trimSpace_idem]
    rw [List.map_cons, List.map_cons, Function.comp_apply, e, List.filter_cons_of_pos (by
      simpa using hl),
      ih (fun x hx => h x (List.mem_cons_of_mem _ hx)) fun x hx => hp x (List.mem_cons_of_mem _ hx)]

theorem mem_joinSpaces (fs : List Str) (f : Str) (x : Char) (hf : f ∈ fs) (hx : x ∈ f) :
    x ∈ joinSpaces fs := by
  cases fs with
  | nil => simp at hf
  | cons g gs =>
    rw [joinSpaces_cons]
    rcases List.mem_cons.mp hf with rfl | hf
    · exact List.mem_append_left _ hx
    · refine List.mem_append_right _ (List.mem_flatMap.mpr ⟨f, hf, List.mem_cons_of_mem _ hx⟩)

theorem groupCommand_continued_ne_nil (ks : List Str) (p : Str) (h : isCommandLine p = true)
    (hp : isContinued p = false) : groupCommand (ks ++ [p]) ≠ [] := by
  unfold groupCommand
  intro e
  rw [trimSpace_eq_nil_iff] at e
  have hne := trimSpace_ne_nil_of_commandLine p h
  rw [← trimSpace_idem] at hne
  apply hne
  rw [trimSpace_eq_nil_iff]
  intro c hc
  refine e c (mem_joinSpaces _ (fragment p) c ?_ ?_)
  · simp
  · rw [fragment_of_not_continued p hp]
    exact hc

/-- C13. For a body whose lines are all command lines (not blank, matching neither
assignment pattern), `Commands` is the list of the commands of the consecutive
groups, each the trimmed join with single spaces of the fragments of the group,
without the empty ones, and the variables are left as they are; lines that are
not continued give one command each, their trimmed text, in order; continued
lines followed by one line that is not continued give exactly one command. -/
theorem processBlockContent_commands (b : RRBlock) (lines : List Str)
    (h : ∀ l ∈ lines, isCommandLine l = true) :
    (processBlockContent b lines).Commands = assembleCommands lines ∧
      (processBlockContent b lines).Variables = b.Variables ∧
      ((∀ l ∈ lines, isContinued l = false) →
        (processBlockContent b lines).Commands = lines.map trimSpace) ∧
      ∀ ks p, lines = ks ++ [p] → (∀ k ∈ ks, isContinued k = true) → isContinued p = false →
        (processBlockContent b lines).Commands =
            [trimSpace (joinSpaces (ks.map fragment ++ [trimSpace p]))] ∧
          trimSpace (joinSpaces (ks.map fragment ++ [trimSpace p])) ≠ [] := by
  have hmain := compile_command_lines lines h b.Variables [] []
  have e0 : ([] : Str) = accumulate [] [] := rfl
  rw [← e0, List.nil_append, pendingCommands_nil] at hmain
  have hcmd : (processBlockContent b lines).Commands = assembleCommands lines := hmain.1
  refine ⟨hcmd, hmain.2, ?_, ?_⟩
  · intro hp
    rw [hcmd, assembleCommands_plain lines h hp]
  · intro ks p hl hk hp
    subst hl
    have hpc := h p (by simp)
    have hne := groupCommand_continued_ne_nil ks p hpc hp
    have e : groupCommand (ks ++ [p]) =
        trimSpace (joinSpaces (ks.map fragment ++ [trimSpace p])) := by
      unfold groupCommand
      rw [List.map_append, List.map_cons, List.map_nil, fragment_of_not_continued p hp]
    rw [hcmd, assembleCommands, splitGroups_continued ks p hk hp]
    rw [← e]
    exact ⟨by simp [hne], hne⟩

/-- The body of `TestProcessBlockContent_MultiLineCommands`: one command, with the
space before each backslash and the separating space. -/
theorem processBlockContent_commands_witness :
    (processBlockContent ⟨"Test".toList, [], []⟩
        ["echo \"First\" && ".toList ++ [backslash], "echo \"Second\" && ".toList ++ [backslash],
          "echo \"Third\"".toList]).Commands =
      ["echo \"First\" &&  echo \"Second\" &&  echo \"Third\"".toList] :=
  ((processBlockContent_commands _ _ (by decide)).2.2.2
    ["echo \"First\" && ".toList ++ [backslash], "echo \"Second\" && ".toList ++ [backslash]]
    "echo \"Third\"".toList rfl (by decide) (by decide)).1.trans (by decide)

/-! ## The substitution -/

theorem substituteFrom_skip (vars : List (Str × Str)) (s : Str) : ∀ k : Nat,
    substituteFrom vars k s = substituteFrom vars 0 (s.drop k) := by
  induction s with
  | nil => intro k; cases k <;> rfl
  | cons c cs ih =>
    intro k
    cases k with
    | zero => rfl
    | succ k => rw [substituteFrom, ih k, List.drop_succ_cons]

theorem drop_length_takeWhile (p : Char → Bool) (s : Str) :
    s.drop (s.takeWhile p).length = s.dropWhile p := by
  induction s with
  | nil => rfl
  | cons c cs ih =>
    by_cases h : p c = true
    · rw [List.takeWhile_cons_of_pos h, List.dropWhile_cons_of_pos h, List.length_cons,
        List.drop_succ_cons, ih]
    · rw [List.takeWhile_cons_of_neg h, List.dropWhile_cons_of_neg h]
      rfl

theorem substituteVariables_nil (vars : List (Str × Str)) : substituteVariables [] vars = [] :=
  rfl

theorem substituteVariables_cons (vars : List (Str × Str)) (c : Char) (cs : Str) :
    substituteVariables (c :: cs) vars =
      if c = hashSign ∧ cs.takeWhile isIdentChar ≠ [] then
        replaceReference vars (cs.takeWhile isIdentChar) ++
          substituteVariables (cs.dropWhile isIdentChar) vars
      else c :: substituteVariables cs vars := by
  unfold substituteVariables
  rw [substituteFrom, substituteFrom_skip, drop_length_takeWhile]

theorem substituteVariables_copy (vars : List (Str × Str)) (p t : Str) (hp : hashSign ∉ p) :
    substituteVariables (p ++ t) vars = p ++ substituteVariables t vars := by
  induction p with
  | nil => rfl
  | cons c cs ih =>
    have hc : c ≠ hashSign := fun e => hp (e ▸ List.mem_cons_self _ _)
    rw [List.cons_append, substituteVariables_cons, if_neg (fun h => hc h.1),
      ih (fun h => hp (List.mem_cons_of_mem _ h)), List.cons_append]

theorem run_then_stop (id s : Str) (hid : ∀ c ∈ id, isIdentChar c = true)
    (hs : ∀ c ∈ s.head?, isIdentChar c = false) :
    (id ++ s).takeWhile isIdentChar = id ∧ (id ++ s).dropWhile isIdentChar = s := by
  cases s with
  | nil =>
    obtain ⟨h1, h2⟩ := dropWhile_all id hid
    simp [h1, h2]
  | cons c t =>
    obtain ⟨h1, h2⟩ := dropWhile_append_stop id c t hid (hs c (by simp))
    exact ⟨h2, h1⟩

theorem substituteVariables_reference (vars : List (Str × Str)) (id s : Str) (hne : id ≠ [])
    (hid : ∀ c ∈ id, isIdentChar c = true) (hs : ∀ c ∈ s.head?, isIdentChar c = false) :
    substituteVariables (hashSign :: (id ++ s)) vars =
      replaceReference vars id ++ substituteVariables s vars := by
  obtain ⟨h1, h2⟩ := run_then_stop id s hid hs
  rw [substituteVariables_cons, h1, h2, if_pos ⟨rfl, hne⟩]

/-- C17. In a command `p + "#" + id + s`, where `p` has no `#`, `id` is a non-empty
run of identifier characters, `s` is empty or begins with another character, and
the map gives `id` the value `v`, the reference is replaced by `v`, the text `p`
before it is kept and the rest `s` is substituted in the same way. -/
theorem substituteVariables_replaces (vars : List (Str × Str)) (p id s v : Str)
    (hp : hashSign ∉ p) (hne : id ≠ []) (hid : ∀ c ∈ id, isIdentChar c = true)
    (hs : ∀ c ∈ s.head?, isIdentChar c = false) (hv : vars.lookup id = some v) :
    substituteVariables (p ++ hashSign :: (id ++ s)) vars =
      p ++ v ++ substituteVariables s vars := by
  rw [substituteVariables_copy vars p _ hp, substituteVariables_reference vars id s hne hid hs,
    replaceReference, hv, List.append_assoc]

/-- The commands of `TestSubstituteVariables` and of
`TestSubstituteVariables_MultipleOccurrences`. -/
theorem substituteVariables_replaces_witness :
    substituteVariables "echo #my-var and #another-var".toList
        [("my-var".toList, "value1".toList), ("another-var".toList, "value2".toList)] =
        "echo value1 and value2".toList ∧
      substituteVariables "echo #var and #var again".toList [("var".toList, "test".toList)] =
        "echo test and test again".toList :=
  ⟨(substituteVariables_replaces _ "echo ".toList "my-var".toList " and #another-var".toList
      "value1".toList (by decide) (by decide) (by decide) (by decide) (by decide)).trans
      (by decide),
    (substituteVariables_replaces _ "echo ".toList "var".toList " and #var again".toList
      "test".toList (by decide) (by decide) (by decide) (by decide) (by decide)).trans
      (by decide)⟩

theorem substituteVariables_unchanged_aux (vars : List (Str × Str)) : ∀ (n : Nat) (cmd : Str),
    cmd.length ≤ n → NoDeclaredReference cmd vars → substituteVariables cmd vars = cmd := by
  intro n
  induction n with
  | zero =>
    intro cmd hlen _
    rw [List.length_eq_zero.mp (Nat.le_zero.mp hlen)]
    rfl
  | succ n ih =>
    intro cmd hlen hno
    cases cmd with
    | nil => rfl
    | cons c cs =>
      rw [substituteVariables_cons]
      have hcs : cs.length ≤ n := by
        simp only [List.length_cons] at hlen
        omega
      by_cases hm : c = hashSign ∧ cs.takeWhile isIdentChar ≠ []
      · rw [if_pos hm]
        have hl : vars.lookup (cs.takeWhile isIdentChar) = none :=
          hno [] cs (by rw [hm.1]; rfl) hm.2
        have hd : (cs.dropWhile isIdentChar).length ≤ n :=
          le_trans (List.dropWhile_suffix _).length_le hcs
        rw [replaceReference, hl, ih _ hd, hm.1]
        · simp [List.takeWhile_append_dropWhile]
        · intro pre post e hne
          refine hno (c :: (cs.takeWhile isIdentChar ++ pre)) post ?_ hne
          rw [List.cons_append, List.append_assoc, ← e, List.takeWhile_append_dropWhile]
      · rw [if_neg hm, ih cs hcs]
        intro pre post e hne
        exact hno (c :: pre) post (by rw [e]; rfl) hne

/-- C16. Substitution leaves a command unchanged when none of its references names
a key of the map; with the empty map every command is returned unchanged. -/
theorem substituteVariables_unchanged (cmd : Str) (vars : List (Str × Str))
    (h : NoDeclaredReference cmd vars) :
    substituteVariables cmd vars = cmd ∧ ∀ other : Str, substituteVariables other [] = other :=
  ⟨substituteVariables_unchanged_aux vars cmd.length cmd (le_refl _) h,
    fun other => substituteVariables_unchanged_aux [] other.length other (le_refl _)
      (fun _ _ _ _ => rfl)⟩

/-- The command of `TestSubstituteVariables_UnknownVariable` and the one of the
specification, with the empty map; and a command without `#`, with a map that is
not empty. -/
theorem substituteVariables_unchanged_witness :
    substituteVariables "echo #unknown-var".toList [] = "echo #unknown-var".toList ∧
      substituteVariables "echo #missing".toList [] = "echo #missing".toList ∧
      substituteVariables "echo hi".toList [("hi".toList, "x".toList)] = "echo hi".toList :=
  ⟨(substituteVariables_unchanged _ [] (fun _ _ _ _ => rfl)).1,
    (substituteVariables_unchanged [] [] (fun _ _ _ _ => rfl)).2 _,
    (substituteVariables_unchanged "echo hi".toList [("hi".toList, "x".toList)]
      (fun pre post e _ => absurd
        (show hashSign ∈ "echo hi".toList from
          e ▸ List.mem_append_right pre (List.mem_cons_self hashSign post))
        (by decide))).1⟩

/-! ## The merged map and the approval store -/

theorem lookup_mapSet (m : List (Str × Str)) (k v k2 : Str) :
    (mapSet m k v).lookup k2 = if k2 = k then some v else m.lookup k2 := by
  induction m with
  | nil =>
    by_cases h : k2 = k
    · simp [mapSet, List.lookup_cons, h]
    · have e : (k2 == k) = false := by simpa using h
      simp [mapSet, List.lookup_cons, h, e]
  | cons p m ih =>
    obtain ⟨k0, v0⟩ := p
    unfold mapSet
    by_cases h0 : k0 = k
    · subst h0
      by_cases h : k2 = k0
      · simp [List.lookup_cons, h]
      · have e : (k2 == k0) = false := by simpa using h
        simp [List.lookup_cons, h, e]
    · simp only [h0, if_false, List.lookup_cons]
      by_cases h : k2 = k0
      · subst h
        simp [h0]
      · have e : (k2 == k0) = false := by simpa using h
        simp only [e]
        exact ih

theorem lookup_mapSetAll (m2 : List (Str × Str)) (hnd : (m2.map Prod.fst).Nodup) :
    ∀ (m : List (Str × Str)) (k : Str),
      (mapSetAll m m2).lookup k = (m2.lookup k).or (m.lookup k) := by
  induction m2 with
  | nil => intro m k; simp [mapSetAll]
  | cons p rest ih =>
    obtain ⟨a, b⟩ := p
    intro m k
    rw [List.map_cons, List.nodup_cons] at hnd
    have e : mapSetAll m ((a, b) :: rest) = mapSetAll (mapSet m a b) rest := rfl
    rw [e, ih hnd.2, lookup_mapSet, List.lookup_cons]
    by_cases h : k = a
    · subst h
      have hr : rest.lookup k = none := by
        rw [List.lookup_eq_none_iff]
        intro q hq
        simp only [bne_iff_ne, ne_eq]
        intro hk
        exact hnd.1 (List.mem_map.mpr ⟨q, hq, hk.symm⟩)
      simp [hr]
    · have e2 : (k == a) = false := by simpa using h
      simp [h, e2]

theorem mergeVars_lookup (E V : List (Str × Str)) (hE : (E.map Prod.fst).Nodup)
    (hV : (V.map Prod.fst).Nodup) (k : Str) :
    (mergeVars E V).lookup k = (V.lookup k).or (E.lookup k) := by
  unfold mergeVars
  rw [lookup_mapSetAll V hV, lookup_mapSetAll E hE]
  simp

/-- C19. The map that `executeBlock` uses for substitution, built from the supplied
map `E` and the variables `V` of the block: every name of `V` has its value of `V`,
whatever `E` says; a name that is not in `V` has its value of `E`, if it has one;
and the map has no other key. -/
theorem mergeVars_precedence (E V : List (Str × Str)) (hE : (E.map Prod.fst).Nodup)
    (hV : (V.map Prod.fst).Nodup) :
    (∀ k v, V.lookup k = some v → (mergeVars E V).lookup k = some v) ∧
      (∀ k, V.lookup k = none → (mergeVars E V).lookup k = E.lookup k) ∧
      ∀ k, V.lookup k = none → E.lookup k = none → (mergeVars E V).lookup k = none := by
  have h := mergeVars_lookup E V hE hV
  refine ⟨?_, ?_, ?_⟩
  · intro k v hk
    rw [h, hk]
    rfl
  · intro k hk
    rw [h, hk]
    rfl
  · intro k hk he
    rw [h, hk, he]
    rfl

/-- The supplied map gives `a` and `b`, the block gives `b` and `c`. -/
theorem mergeVars_precedence_witness :
    (mergeVars [("a".toList, "1".toList), ("b".toList, "2".toList)]
        [("b".toList, "3".toList), ("c".toList, "4".toList)]).lookup "b".toList =
        some "3".toList ∧
      (mergeVars [("a".toList, "1".toList), ("b".toList, "2".toList)]
        [("b".toList, "3".toList), ("c".toList, "4".toList)]).lookup "a".toList =
        some "1".toList :=
  ⟨(mergeVars_precedence _ _ (by decide) (by decide)).1 "b".toList "3".toList (by decide),
    ((mergeVars_precedence _ _ (by decide) (by decide)).2.1 "a".toList (by decide)).trans
      (by decide)⟩

theorem mem_setInsert (keys : List Str) (x h : Str) :
    h ∈ setInsert keys x ↔ h ∈ keys ∨ h = x := by
  unfold setInsert
  by_cases hx : x ∈ keys
  · rw [if_pos hx]
    constructor
    · exact Or.inl
    · rintro (h1 | rfl)
      · exact h1
      · exact hx
  · rw [if_neg hx]
    simp

theorem nodup_setInsert (keys : List Str) (x : Str) (h : keys.Nodup) :
    (setInsert keys x).Nodup := by
  unfold setInsert
  by_cases hx : x ∈ keys
  · rw [if_pos hx]; exact h
  · rw [if_neg hx]
    exact List.Nodup.append h (List.nodup_singleton x) (by
      intro a ha hb
      rw [List.mem_singleton] at hb
      exact hx (hb ▸ ha))

theorem loadLoop_mem (lines : List Str) : ∀ (acc : List Str) (h : Str),
    h ∈ lines.foldl
        (fun approved line => if trimSpace line ≠ [] then setInsert approved (trimSpace line)
          else approved) acc ↔
      h ∈ acc ∨ (h ≠ [] ∧ ∃ l ∈ lines, h = trimSpace l) := by
  induction lines with
  | nil => intro acc h; simp
  | cons l ls ih =>
    intro acc h
    rw [List.foldl_cons, ih]
    by_cases hl : trimSpace l = []
    · simp only [hl, ne_eq, not_true_eq_false, if_false, List.mem_cons, exists_eq_or_imp]
      constructor
      · rintro (h1 | ⟨h2, h3⟩)
        · exact Or.inl h1
        · exact Or.inr ⟨h2, Or.inr h3⟩
      · rintro (h1 | ⟨h2, h3 | h3⟩)
        · exact Or.inl h1
        · exact absurd h3 h2
        · exact Or.inr ⟨h2, h3⟩
    · simp only [hl, ne_eq, not_false_eq_true, if_true, mem_setInsert, List.mem_cons,
        exists_eq_or_imp]
      constructor
      · rintro ((h1 | h1) | ⟨h2, h3⟩)
        · exact Or.inl h1
        · exact Or.inr ⟨h1 ▸ hl, Or.inl h1⟩
        · exact Or.inr ⟨h2, Or.inr h3⟩
      · rintro (h1 | ⟨h2, h3 | h3⟩)
        · exact Or.inl (Or.inl h1)
        · exact Or.inl (Or.inr h3)
        · exact Or.inr ⟨h2, h3⟩

theorem loadLoop_nodup (lines : List Str) : ∀ acc : List Str, acc.Nodup →
    (lines.foldl
      (fun approved line => if trimSpace line ≠ [] then setInsert approved (trimSpace line)
        else approved) acc).Nodup := by
  induction lines with
  | nil => intro acc h; exact h
  | cons l ls ih =>
    intro acc h
    rw [List.foldl_cons]
    apply ih
    by_cases hl : trimSpace l = []
    · simp only [hl, ne_eq, not_true_eq_false, if_false]; exact h
    · simp only [hl, ne_eq, not_false_eq_true, if_true]; exact nodup_setInsert _ _ h

/-- C20. `loadApprovedHashes` is a total function of the state of the store; for
a store with content the returned set holds exactly the non-empty trimmed lines of
the content (each once), and for an absent, unreadable or empty store it is
empty. -/
theorem loadApprovedHashes_spec (content : Str) :
    (∀ h, h ∈ loadApprovedHashes (StoreFile.present content) ↔
        h ≠ [] ∧ ∃ l ∈ splitLines content, h = trimSpace l) ∧
      (loadApprovedHashes (StoreFile.present content)).Nodup ∧
      loadApprovedHashes StoreFile.absent = [] ∧
      loadApprovedHashes StoreFile.unreadable = [] ∧
      loadApprovedHashes (StoreFile.present []) = [] := by
  refine ⟨?_, ?_, rfl, rfl, by decide⟩
  · intro h
    unfold loadApprovedHashes
    rw [loadLoop_mem]
    simp
  · unfold loadApprovedHashes
    exact loadLoop_nodup _ [] List.nodup_nil

/-- The store of `TestLoadApprovedHashes_WithWhitespace`. -/
theorem loadApprovedHashes_spec_witness :
    "hash2".toList ∈ loadApprovedHashes (StoreFile.present "hash1\n  hash2  \n\nhash3\n".toList) ∧
      loadApprovedHashes (StoreFile.present "hash1\n  hash2  \n\nhash3\n".toList) =
        ["hash1".toList, "hash2".toList, "hash3".toList] :=
  ⟨((loadApprovedHashes_spec "hash1\n  hash2  \n\nhash3\n".toList).1 "hash2".toList).mpr
      ⟨by decide, "  hash2  ".toList, by decide, by decide⟩,
    by decide⟩

/-! ## The scenario of the specification -/

/-- C18. A document that contains the block `Deploy`, with the lines
`project = "site"` and `deploy.sh #project` between the start marker and the line
`-->`, and no other start marker, is parsed into exactly one block, named
`Deploy`, with the single command `deploy.sh #project`; the substitution of that
command with the variables of the block gives `deploy.sh site`, also when the
variables are merged over any supplied map. -/
theorem deploy_scenario (content : Str) (pre post : List Str)
    (hsplit : splitLines content = pre ++ (deployLines ++ post))
    (hpre : ∀ l ∈ pre, isStartLine l = false) (hpost : ∀ l ∈ post, isStartLine l = false) :
    parseRRBlocks content =
        [⟨"Deploy".toList, [("project".toList, "site".toList)], ["deploy.sh #project".toList]⟩] ∧
      substituteVariables "deploy.sh #project".toList [("project".toList, "site".toList)] =
        "deploy.sh site".toList ∧
      ∀ env : List (Str × Str), (env.map Prod.fst).Nodup →
        substituteVariables "deploy.sh #project".toList
            (mergeVars env [("project".toList, "site".toList)]) =
          "deploy.sh site".toList := by
  refine ⟨?_, by decide, ?_⟩
  · unfold parseRRBlocks
    have e1 : pre ++ (deployLines ++ post) =
        pre ++ "<!-- RR[Deploy]".toList ::
          ("project = \"site\"".toList :: "deploy.sh #project".toList :: endMarker :: post) := rfl
    rw [hsplit, e1, parseLines_append_start pre _ _ (by decide), parseLines_no_start pre hpre,
      List.nil_append]
    have e2 : "<!-- RR[Deploy]".toList ::
        ("project = \"site\"".toList :: "deploy.sh #project".toList :: endMarker :: post) =
        deployLines ++ post := rfl
    have e3 : deployLines.foldl scanLine ⟨false, none, [], []⟩ =
        ⟨false, none, [],
          [⟨"Deploy".toList, [("project".toList, "site".toList)],
            ["deploy.sh #project".toList]⟩]⟩ := by decide
    rw [e2, parseLines, List.foldl_append, e3, foldl_scanLine_outside post hpost _ rfl]
    rfl
  · intro env henv
    have hl : (mergeVars env [("project".toList, "site".toList)]).lookup "project".toList =
        some "site".toList := by
      rw [mergeVars_lookup env _ henv (by decide)]
      rfl
    have e : substituteVariables ("deploy.sh ".toList ++ hashSign :: ("project".toList ++ []))
        (mergeVars env [("project".toList, "site".toList)]) =
        "deploy.sh ".toList ++ ("site".toList ++
          substituteVariables [] (mergeVars env [("project".toList, "site".toList)])) := by
      rw [substituteVariables_copy _ "deploy.sh ".toList _ (by decide),
        substituteVariables_reference _ "project".toList [] (by decide) (by decide) (by simp),
        replaceReference, hl]
    exact e.trans rfl

/-- The block `Deploy` between a heading and a closing paragraph. -/
theorem deploy_scenario_witness :
    parseRRBlocks
        ("# Site\n<!-- RR[Deploy]\nproject = \"site\"\ndeploy.sh #project\n".toList ++
          endMarker ++ "\nDone.".toList) =
      [⟨"Deploy".toList, [("project".toList, "site".toList)], ["deploy.sh #project".toList]⟩] :=
  (deploy_scenario _ ["# Site".toList] ["Done.".toList] (by decide) (by decide) (by decide)).1

/-! ## The approval store: recording a digest -/

theorem splitLines_append (a b : Str) :
    splitLines (a ++ newline :: b) = splitLines a ++ splitLines b := by
  induction a with
  | nil => simp [splitLines]
  | cons x a ih =>
    rw [List.cons_append, splitLines, splitLines, ih]
    by_cases hx : x = newline
    · simp [hx]
    · simp only [hx, if_false]
      cases hs : splitLines a with
      | nil => exact absurd hs (splitLines_ne_nil a)
      | cons l0 ls => rfl

theorem trimSpace_of_clean (d : Str) (h : ∀ c ∈ d, isSpace c = false) : trimSpace d = d := by
  unfold trimSpace
  have h1 : d.dropWhile isSpace = d := by
    cases d with
    | nil => rfl
    | cons c t =>
      rw [List.dropWhile_cons_of_neg]
      simp [h c (List.mem_cons_self _ _)]
  rw [h1, List.rdropWhile_eq_self_iff]
  intro hl
  simp [h _ (List.getLast_mem hl)]

theorem newline_not_mem_of_clean (d : Str) (h : ∀ c ∈ d, isSpace c = false) : newline ∉ d := by
  intro hm
  have := h newline hm
  exact absurd this (by decide)

theorem hex_clean (d : Str) (hlen : d.length = 64)
    (hhex : ∀ c ∈ d, c ∈ "0123456789abcdef".toList) : IsCleanDigest d := by
  constructor
  · intro e
    rw [e] at hlen
    exact absurd hlen (by decide)
  · intro c hc
    have hall : ∀ x ∈ "0123456789abcdef".toList, isSpace x = false := by decide
    exact hall c (hhex c hc)

theorem mem_load_of_line (content d : Str) (hd : IsCleanDigest d)
    (hl : d ∈ splitLines content) : d ∈ loadApprovedHashes (StoreFile.present content) :=
  (loadLoop_mem (splitLines content) [] d).mpr
    (Or.inr ⟨hd.1, d, hl, (trimSpace_of_clean d hd.2).symm⟩)

theorem mem_splitLines_appended (c d : Str) (hd : newline ∉ d) :
    d ∈ splitLines (d ++ [newline]) ∧ d ∈ splitLines (c ++ newline :: (d ++ [newline])) := by
  have h1 : d ∈ splitLines (d ++ [newline]) := by
    rw [splitLines_append_newline d [] hd]
    exact List.mem_cons_self _ _
  exact ⟨h1, by rw [splitLines_append]; exact List.mem_append_right _ h1⟩

/-- C21, amended. For a store that is absent, or present with a content that is
empty or ends with a line feed, and for every fingerprint `d` of 64 lowercase
hexadecimal characters, a successful `saveBlockHash` followed by
`loadApprovedHashes` gives a set that contains `d`. -/
theorem save_then_load (file : StoreFile) (d : Str) (hlen : d.length = 64)
    (hhex : ∀ c ∈ d, c ∈ "0123456789abcdef".toList)
    (hfile : file = StoreFile.absent ∨ file = StoreFile.present [] ∨
      ∃ c, file = StoreFile.present (c ++ [newline])) :
    d ∈ loadApprovedHashes (saveBlockHash file d true) := by
  have hd := hex_clean d hlen hhex
  have hnl := newline_not_mem_of_clean d hd.2
  unfold saveBlockHash
  by_cases hin : d ∈ loadApprovedHashes file
  · rw [if_pos hin]
    exact hin
  · rw [if_neg hin, if_neg (by decide)]
    rcases hfile with rfl | rfl | ⟨c, rfl⟩
    · exact mem_load_of_line _ d hd (mem_splitLines_appended [] d hnl).1
    · exact mem_load_of_line _ d hd (mem_splitLines_appended [] d hnl).1
    · refine mem_load_of_line _ d hd ?_
      have := (mem_splitLines_appended c d hnl).2
      simpa using this

/-- The digest of the empty message, recorded in an absent store and in a store
that holds one line. -/
theorem save_then_load_witness :
    "e3b0c44298fc1c149afbf4c8996fb92427ae41e4649b934ca495991b7852b855".toList ∈
        loadApprovedHashes (saveBlockHash StoreFile.absent
          "e3b0c44298fc1c149afbf4c8996fb92427ae41e4649b934ca495991b7852b855".toList true) ∧
      "e3b0c44298fc1c149afbf4c8996fb92427ae41e4649b934ca495991b7852b855".toList ∈
        loadApprovedHashes (saveBlockHash (StoreFile.present ("hash1".toList ++ [newline]))
          "e3b0c44298fc1c149afbf4c8996fb92427ae41e4649b934ca495991b7852b855".toList true) :=
  ⟨save_then_load _ _ (by decide) (by decide) (Or.inl rfl),
    save_then_load _ _ (by decide) (by decide) (Or.inr (Or.inr ⟨"hash1".toList, rfl⟩))⟩

/-- C21 fails for a store whose content does not end with a line feed: the digest
is appended to the last line, and the set that is loaded holds that longer line
and not the digest. -/
theorem save_then_load_counterexample :
    "e3b0c44298fc1c149afbf4c8996fb92427ae41e4649b934ca495991b7852b855".toList ∉
      loadApprovedHashes (saveBlockHash (StoreFile.present "x".toList)
        "e3b0c44298fc1c149afbf4c8996fb92427ae41e4649b934ca495991b7852b855".toList true) := by
  decide

theorem splitLines_storeLines (rs : List Str) (h : ∀ d ∈ rs, newline ∉ d) :
    splitLines (storeLines rs) = rs ++ [[]] := by
  induction rs with
  | nil => rfl
  | cons d rs ih =>
    have e : storeLines (d :: rs) = d ++ newline :: storeLines rs := by
      simp [storeLines, List.flatMap_cons]
    rw [e, splitLines_append_newline d _ (h d (List.mem_cons_self _ _)),
      ih fun x hx => h x (List.mem_cons_of_mem _ hx)]
    rfl

theorem foldl_setInsert (rs : List Str) : ∀ acc : List Str, (acc ++ rs).Nodup →
    rs.foldl setInsert acc = acc ++ rs := by
  induction rs with
  | nil => intro acc _; simp
  | cons d rs ih =>
    intro acc hnd
    have hd : d ∉ acc := by
      intro hm
      exact (List.nodup_append.mp hnd).2.2 hm (List.mem_cons_self _ _)
    rw [List.foldl_cons, setInsert, if_neg hd, ih (acc ++ [d]) (by simpa using hnd)]
    simp

theorem loadLoop_clean (rs : List Str) (h : ∀ d ∈ rs, IsCleanDigest d) : ∀ acc : List Str,
    rs.foldl
        (fun approved line => if trimSpace line ≠ [] then setInsert approved (trimSpace line)
          else approved) acc =
      rs.foldl setInsert acc := by
  induction rs with
  | nil => intro acc; rfl
  | cons d rs ih =>
    intro acc
    obtain ⟨h1, h2⟩ := h d (List.mem_cons_self _ _)
    rw [List.foldl_cons, List.foldl_cons, trimSpace_of_clean d h2, if_pos h1]
    exact ih (fun x hx => h x (List.mem_cons_of_mem _ hx)) _

theorem load_storeOf (rs : List Str) (h : ∀ d ∈ rs, IsCleanDigest d) (hnd : rs.Nodup) :
    loadApprovedHashes (storeOf rs) = rs := by
  unfold storeOf
  by_cases he : rs = []
  · rw [if_pos he, he]
    rfl
  · rw [if_neg he]
    unfold loadApprovedHashes
    simp only
    rw [splitLines_storeLines rs fun d hd => newline_not_mem_of_clean d (h d hd).2,
      List.foldl_append, loadLoop_clean rs h, foldl_setInsert rs [] (by simpa using hnd)]
    rfl

theorem save_storeOf (rs : List Str) (d : Str) (h : ∀ x ∈ rs, IsCleanDigest x) (hnd : rs.Nodup) :
    saveBlockHash (storeOf rs) d true = storeOf (setInsert rs d) := by
  unfold saveBlockHash
  rw [load_storeOf rs h hnd]
  unfold setInsert
  by_cases hin : d ∈ rs
  · rw [if_pos hin, if_pos hin]
  · rw [if_neg hin, if_neg hin, if_neg (by decide)]
    unfold storeOf
    by_cases he : rs = []
    · subst he
      simp [storeLines]
    · rw [if_neg he, if_neg (by simp)]
      simp [storeLines]

theorem recordAll_storeOf (ds : List Str) (hds : ∀ d ∈ ds, IsCleanDigest d) :
    ∀ rs : List Str, (∀ x ∈ rs, IsCleanDigest x) → rs.Nodup →
      recordAll (storeOf rs) ds = storeOf (ds.foldl setInsert rs) ∧
        (ds.foldl setInsert rs).Nodup ∧ (∀ x ∈ ds.foldl setInsert rs, IsCleanDigest x) ∧
        ∀ x, x ∈ ds.foldl setInsert rs ↔ x ∈ rs ∨ x ∈ ds := by
  induction ds with
  | nil => intro rs h hnd; exact ⟨rfl, hnd, h, by simp⟩
  | cons d ds ih =>
    intro rs h hnd
    have hclean : ∀ x ∈ setInsert rs d, IsCleanDigest x := by
      intro x hx
      rcases (mem_setInsert rs d x).mp hx with hx | rfl
      · exact h x hx
      · exact hds x (List.mem_cons_self _ _)
    obtain ⟨e1, e2, e3, e4⟩ := ih (fun x hx => hds x (List.mem_cons_of_mem _ hx))
      (setInsert rs d) hclean (nodup_setInsert rs d hnd)
    refine ⟨?_, e2, e3, ?_⟩
    · rw [recordAll, List.foldl_cons, save_storeOf rs d h hnd]
      exact e1
    · intro x
      rw [List.foldl_cons, e4, mem_setInsert, List.mem_cons, or_assoc]

/-- C22. Starting from an absent store, after any sequence of successful calls of
`saveBlockHash` with digests that are not empty and hold no white space, the store
is absent when nothing was recorded and otherwise holds one line, ended by a line
feed, for each recorded digest and no other line; every recorded digest occurs
exactly once; `loadApprovedHashes` returns exactly the recorded digests; and
recording again a digest that was recorded is a no-op. -/
theorem store_invariant (ds : List Str) (hds : ∀ d ∈ ds, IsCleanDigest d) :
    recordAll StoreFile.absent ds = storeOf (recorded ds) ∧
      (recorded ds).Nodup ∧ (∀ d, d ∈ recorded ds ↔ d ∈ ds) ∧
      loadApprovedHashes (recordAll StoreFile.absent ds) = recorded ds ∧
      ∀ d ∈ ds, saveBlockHash (recordAll StoreFile.absent ds) d true =
        recordAll StoreFile.absent ds := by
  obtain ⟨e1, e2, e3, e4⟩ := recordAll_storeOf ds hds [] (by simp) List.nodup_nil
  have e1b : recordAll StoreFile.absent ds = storeOf (recorded ds) := e1
  have e4b : ∀ d, d ∈ recorded ds ↔ d ∈ ds := by
    intro d
    have := e4 d
    simpa [recorded] using this
  have e2b : (recorded ds).Nodup := e2
  have e3b : ∀ x ∈ recorded ds, IsCleanDigest x := e3
  refine ⟨e1b, e2b, e4b, ?_, ?_⟩
  · rw [e1b]
    exact load_storeOf _ e3b e2b
  · intro d hd
    rw [e1b, save_storeOf _ d e3b e2b, setInsert, if_pos ((e4b d).mpr hd)]

/-- The calls of `TestSaveBlockHash_MultipleHashes` and of
`TestSaveBlockHash_DuplicateHash`. -/
theorem store_invariant_witness :
    recordAll StoreFile.absent ["hash1".toList, "hash2".toList, "hash1".toList, "hash3".toList] =
        StoreFile.present "hash1\nhash2\nhash3\n".toList ∧
      loadApprovedHashes (recordAll StoreFile.absent
        ["hash1".toList, "hash2".toList, "hash1".toList, "hash3".toList]) =
        ["hash1".toList, "hash2".toList, "hash3".toList] :=
  ⟨(store_invariant _ (by
      intro d hd
      simp only [List.mem_cons, List.mem_singleton, List.not_mem_nil, or_false] at hd
      rcases hd with rfl | rfl | rfl | rfl <;> exact ⟨by decide, by decide⟩)).1.trans (by decide),
    (store_invariant _ (by
      intro d hd
      simp only [List.mem_cons, List.mem_singleton, List.not_mem_nil, or_false] at hd
      rcases hd with rfl | rfl | rfl | rfl <;> exact ⟨by decide, by decide⟩)).2.2.2.1.trans
      (by decide)⟩

/-! ## The lookup of the document and the execution of a block -/

/-- C23. `findReadme` looks for `readme.md` and then for `README.md` and for no
other file: it returns the first of the two that exists and `("", false)` when
neither does; a directory that holds only `simple-example.md` gives `("", false)`,
where `TestFindReadme_SimpleExampleExists` expects the path of that file. -/
theorem findReadme_two_names (workDir : Str) :
    (∀ fileExists : Str → Bool,
        findReadme fileExists workDir =
          if fileExists (joinPath workDir "readme.md".toList) then
            (joinPath workDir "readme.md".toList, true)
          else if fileExists (joinPath workDir "README.md".toList) then
            (joinPath workDir "README.md".toList, true)
          else ([], false)) ∧
      findReadme (fun path => decide (path = joinPath "dir".toList "simple-example.md".toList))
        "dir".toList = ([], false) := by
  constructor
  · intro fileExists
    unfold findReadme
    cases h1 : fileExists (joinPath workDir "readme.md".toList) <;>
      cases h2 : fileExists (joinPath workDir "README.md".toList) <;>
      simp only [List.find?_cons, List.find?_nil, h1, h2] <;> rfl
  · decide

theorem foldl_resolvePrompt_none (entries : List (Str × Str))
    (h : ∀ entry ∈ entries, hasPrefix entry.2 promptSentinel = false) (st : PromptState) :
    entries.foldl resolvePrompt st = st := by
  induction entries with
  | nil => rfl
  | cons e es ih =>
    have he : resolvePrompt st e = st := by
      unfold resolvePrompt
      rw [h e (List.mem_cons_self _ _)]
      simp
    rw [List.foldl_cons, he]
    exact ih fun x hx => h x (List.mem_cons_of_mem _ hx)

theorem runCommands_all (run : Str → Bool) (merged : List (Str × Str)) (cmds : List Str)
    (h : ∀ c ∈ cmds.map fun cmd => substituteVariables cmd merged, run c = true) :
    runCommands run merged cmds = (cmds.map fun cmd => substituteVariables cmd merged, false) := by
  induction cmds with
  | nil => rfl
  | cons c cs ih =>
    have h1 : run (substituteVariables c merged) = true := h _ (by simp)
    have h2 := ih fun x hx => h x (by simp only [List.map_cons, List.mem_cons]; exact Or.inr hx)
    rw [runCommands, if_pos h1, h2]
    rfl

theorem runCommands_first_failure (run : Str → Bool) (merged : List (Str × Str)) :
    ∀ (cmds : List Str) (k : Nat) (c : Str),
      (cmds.map fun cmd => substituteVariables cmd merged)[k]? = some c →
      (∀ x ∈ (cmds.map fun cmd => substituteVariables cmd merged).take k, run x = true) →
      run c = false →
      runCommands run merged cmds =
        ((cmds.map fun cmd => substituteVariables cmd merged).take (k + 1), true) := by
  intro cmds
  induction cmds with
  | nil => intro k c hk; simp at hk
  | cons c0 cs ih =>
    intro k c hk hpre hc
    cases k with
    | zero =>
      simp only [List.map_cons, List.getElem?_cons_zero, Option.some.injEq] at hk
      rw [runCommands, hk, hc]
      simp [hk]
    | succ k =>
      simp only [List.map_cons, List.getElem?_cons_succ] at hk
      have h1 : run (substituteVariables c0 merged) = true := hpre _ (by simp)
      have h2 := ih k c hk (fun x hx => hpre x (by
        simp only [List.map_cons, List.take_succ_cons, List.mem_cons]; exact Or.inr hx)) hc
      rw [runCommands, if_pos h1, h2]
      rfl

/-- C24. For a block without pending prompts and every runner, `executeBlock` asks
nothing and reads nothing; if the command at position `k` of the substituted
commands is the first that fails, the commands handed to the shell are exactly the
first `k + 1` substituted commands, in order, and an error is returned; if no
command fails, all the substituted commands are handed to the shell, in order, and
no error is returned. -/
theorem executeBlock_stops_at_first_failure (block : RRBlock) (envVars : List (Str × Str))
    (stdin : List Str) (run : Str → Bool) (h : NoPendingPrompt block) :
    (executeBlock block envVars stdin run).asked = [] ∧
      (executeBlock block envVars stdin run).stdin = stdin ∧
      (∀ (k : Nat) (c : Str), (substituted block envVars)[k]? = some c →
        (∀ x ∈ (substituted block envVars).take k, run x = true) → run c = false →
        (executeBlock block envVars stdin run).ran = (substituted block envVars).take (k + 1) ∧
          (executeBlock block envVars stdin run).failed = true) ∧
      ((∀ x ∈ substituted block envVars, run x = true) →
        (executeBlock block envVars stdin run).ran = substituted block envVars ∧
          (executeBlock block envVars stdin run).failed = false) := by
  have e : executeBlock block envVars stdin run =
      ⟨[], (runCommands run (mergeVars envVars block.Variables) block.Commands).1,
        (runCommands run (mergeVars envVars block.Variables) block.Commands).2, stdin⟩ := by
    unfold executeBlock
    simp only [foldl_resolvePrompt_none block.Variables h]
    rfl
  rw [e]
  refine ⟨rfl, rfl, ?_, ?_⟩
  · intro k c hk hpre hc
    have := runCommands_first_failure run _ block.Commands k c hk hpre hc
    simp only [this, substituted, and_self]
  · intro hall
    have := runCommands_all run _ block.Commands hall
    simp only [this, substituted, and_self]

/-- A block of three commands whose second command fails: the first two are run,
the third is not. -/
theorem executeBlock_stops_at_first_failure_witness :
    (executeBlock ⟨[], [("dir".toList, "out".toList)],
        ["mkdir #dir".toList, "false".toList, "echo done".toList]⟩ [] []
        (fun cmd => decide (cmd ≠ "false".toList))).ran =
        ["mkdir out".toList, "false".toList] ∧
      (executeBlock ⟨[], [("dir".toList, "out".toList)],
        ["mkdir #dir".toList, "false".toList, "echo done".toList]⟩ [] []
        (fun cmd => decide (cmd ≠ "false".toList))).failed = true :=
  (executeBlock_stops_at_first_failure
    ⟨[], [("dir".toList, "out".toList)],
      ["mkdir #dir".toList, "false".toList, "echo done".toList]⟩ [] []
    (fun cmd => decide (cmd ≠ "false".toList)) (by unfold NoPendingPrompt; decide)).2.2.1 1 "false".toList
    (by decide) (by decide) (by decide)

/-! ## The approval gate -/

theorem mem_runBlock_ran (envVars : List (Str × Str)) (run : Str → Bool) (st : RunState)
    (i : Nat) (block : RRBlock) (j : Nat) (cmd : Str)
    (h : (j, cmd) ∈ (runBlock envVars run st i block).ran) : (j, cmd) ∈ st.ran ∨ j = i := by
  unfold runBlock at h
  simp only [List.mem_append, List.mem_map, Prod.mk.injEq] at h
  rcases h with h | ⟨c, _, rfl, _⟩
  · exact Or.inl h
  · exact Or.inr rfl

theorem executeStep_declined (envVars : List (Str × Str)) (approved : List Str)
    (confirm : Nat → Bool) (run : Str → Bool) (writeOk : Bool) (st : RunState) (i : Nat)
    (b : RRBlock) (happ : hashBlock b ∉ approved) (hno : confirm i = false) :
    executeStep false envVars approved confirm run writeOk st (i, b) = st := by
  unfold executeStep
  by_cases hex : st.exited = true
  · rw [if_pos hex]
  · rw [if_neg hex, if_neg (by decide), if_neg happ, if_pos hno]

theorem executeStep_invariant (envVars : List (Str × Str)) (approved : List Str)
    (confirm : Nat → Bool) (run : Str → Bool) (writeOk : Bool) (store : StoreFile)
    (indexed : List (Nat × RRBlock)) (st : RunState) (x : Nat × RRBlock) (hx : x ∈ indexed)
    (h : GateInvariant approved confirm writeOk store indexed st) :
    GateInvariant approved confirm writeOk store indexed
      (executeStep false envVars approved confirm run writeOk st x) := by
  obtain ⟨i, b⟩ := x
  obtain ⟨hran, ds, hstore, hds⟩ := h
  unfold executeStep
  by_cases hex : st.exited = true
  · rw [if_pos hex]
    exact ⟨hran, ds, hstore, hds⟩
  rw [if_neg hex, if_neg (by decide)]
  by_cases happ : hashBlock b ∈ approved
  · rw [if_pos happ]
    refine ⟨?_, ds, hstore, hds⟩
    intro j cmd hj
    rcases mem_runBlock_ran envVars run st i b j cmd hj with h1 | rfl
    · exact hran j cmd h1
    · exact ⟨b, hx, Or.inl happ⟩
  rw [if_neg happ]
  cases hc : confirm i with
  | false =>
    rw [if_pos rfl]
    exact ⟨hran, ds, hstore, hds⟩
  | true =>
    rw [if_neg (by decide)]
    refine ⟨?_, ds ++ [hashBlock b], ?_, ?_⟩
    · intro j cmd hj
      rcases mem_runBlock_ran envVars run _ i b j cmd hj with h1 | rfl
      · exact hran j cmd h1
      · exact ⟨b, hx, Or.inr hc⟩
    · show saveBlockHash st.store (hashBlock b) writeOk = _
      rw [List.foldl_append, ← hstore]
      rfl
    · intro d hd
      rcases List.mem_append.mp hd with h1 | h1
      · exact hds d h1
      · rw [List.mem_singleton] at h1
        exact ⟨i, b, hx, h1.symm, happ, hc⟩

theorem foldl_executeStep_invariant (envVars : List (Str × Str)) (approved : List Str)
    (confirm : Nat → Bool) (run : Str → Bool) (writeOk : Bool) (store : StoreFile)
    (indexed : List (Nat × RRBlock)) :
    ∀ (todo : List (Nat × RRBlock)) (st : RunState), (∀ x ∈ todo, x ∈ indexed) →
      GateInvariant approved confirm writeOk store indexed st →
      GateInvariant approved confirm writeOk store indexed
        (todo.foldl (executeStep false envVars approved confirm run writeOk) st) := by
  intro todo
  induction todo with
  | nil => intro st _ h; exact h
  | cons x xs ih =>
    intro st hsub h
    rw [List.foldl_cons]
    exact ih _ (fun y hy => hsub y (List.mem_cons_of_mem _ hy))
      (executeStep_invariant envVars approved confirm run writeOk store indexed st x
        (hsub x (List.mem_cons_self _ _)) h)

/-- C25. In a run without the trust flag, for every list of blocks, every
confirmation and every runner: a command that is run belongs to a block whose
fingerprint is in the approval set loaded at the start or whose confirmation was
answered with yes; a block that is not approved and is declined runs no command
and leaves the whole state, the store included, as it was; and the store at the end
is the initial store after the recording of fingerprints of blocks that were not
approved and were confirmed. -/
theorem approval_gate (blocks : List RRBlock) (envVars : List (Str × Str))
    (store : StoreFile) (stdin : List Str) (confirm : Nat → Bool) (run : Str → Bool)
    (writeOk : Bool) :
    (∀ i cmd, (i, cmd) ∈ (executeBlocks false blocks envVars store stdin confirm run writeOk).ran →
        ∃ b, blocks[i]? = some b ∧
          (hashBlock b ∈ loadApprovedHashes store ∨ confirm i = true)) ∧
      (∀ i b, blocks[i]? = some b → hashBlock b ∉ loadApprovedHashes store → confirm i = false →
        (∀ cmd, (i, cmd) ∉
          (executeBlocks false blocks envVars store stdin confirm run writeOk).ran) ∧
        ∀ st, executeStep false envVars (loadApprovedHashes store) confirm run writeOk st (i, b) =
          st) ∧
      ∃ ds : List Str,
        (executeBlocks false blocks envVars store stdin confirm run writeOk).store =
            ds.foldl (fun f d => saveBlockHash f d writeOk) store ∧
          ∀ d ∈ ds, ∃ i b, blocks[i]? = some b ∧ hashBlock b = d ∧
            hashBlock b ∉ loadApprovedHashes store ∧ confirm i = true := by
  have hinv : GateInvariant (loadApprovedHashes store) confirm writeOk store blocks.enum
      (executeBlocks false blocks envVars store stdin confirm run writeOk) := by
    unfold executeBlocks
    exact foldl_executeStep_invariant envVars _ confirm run writeOk store blocks.enum
      blocks.enum _ (fun x hx => hx)
      ⟨fun i cmd hm => absurd hm (List.not_mem_nil _), [], rfl,
        fun d hd => absurd hd (List.not_mem_nil _)⟩
  obtain ⟨hran, ds, hstore, hds⟩ := hinv
  have hA : ∀ i cmd,
      (i, cmd) ∈ (executeBlocks false blocks envVars store stdin confirm run writeOk).ran →
      ∃ b, blocks[i]? = some b ∧
        (hashBlock b ∈ loadApprovedHashes store ∨ confirm i = true) := by
    intro i cmd hm
    obtain ⟨b, hb, h⟩ := hran i cmd hm
    exact ⟨b, List.mk_mem_enum_iff_getElem?.mp hb, h⟩
  refine ⟨hA, ?_, ds, hstore, ?_⟩
  · intro i b hb happ hno
    refine ⟨?_, fun st => executeStep_declined envVars _ confirm run writeOk st i b happ hno⟩
    intro cmd hm
    obtain ⟨b2, hb2, h⟩ := hA i cmd hm
    rw [hb] at hb2
    cases hb2
    rcases h with h | h
    · exact happ h
    · rw [hno] at h
      exact absurd h (by decide)
  · intro d hd
    obtain ⟨i, b, hb, h⟩ := hds d hd
    exact ⟨i, b, List.mk_mem_enum_iff_getElem?.mp hb, h⟩

/-- A run over one block with an absent store whose confirmation is declined: the
step leaves the state as it was. -/
theorem approval_gate_witness :
    executeStep false [] (loadApprovedHashes StoreFile.absent) (fun _ => false) (fun _ => true)
        true ⟨StoreFile.absent, [], [], false⟩ (0, ⟨[], [], ["echo hi".toList]⟩) =
      ⟨StoreFile.absent, [], [], false⟩ :=
  ((approval_gate [⟨[], [], ["echo hi".toList]⟩] [] StoreFile.absent [] (fun _ => false)
    (fun _ => true) true).2.1 0 ⟨[], [], ["echo hi".toList]⟩ rfl (List.not_mem_nil _) rfl).2 _

/-! ## Literal values and pending prompts -/

theorem hasPrefix_append (pre s : Str) : hasPrefix (pre ++ s) pre = true := by
  simp [hasPrefix]

theorem trimPrefix_append (pre s : Str) : trimPrefix (pre ++ s) pre = s := by
  unfold trimPrefix
  rw [if_pos (hasPrefix_append pre s), List.drop_left]

theorem executeBlock_single_prompt (name n q : Str) (cmds : List Str)
    (envVars : List (Str × Str)) (stdin : List Str) (run : Str → Bool) :
    (executeBlock ⟨name, [(n, promptSentinel ++ q)], cmds⟩ envVars stdin run).asked = [q] := by
  unfold executeBlock
  simp only [List.foldl_cons, List.foldl_nil]
  have e : resolvePrompt ⟨[(n, promptSentinel ++ q)], stdin, [], false⟩ (n, promptSentinel ++ q) =
      match stdin with
      | [] => ⟨[(n, promptSentinel ++ q)], [], [q], true⟩
      | input :: rest => ⟨mapSet [(n, promptSentinel ++ q)] n (trimSpace input), rest, [q], false⟩ := by
    unfold resolvePrompt
    simp only [hasPrefix_append, trimPrefix_append]
    cases stdin <;> rfl
  rw [e]
  cases stdin <;> rfl

/-- C26, amended. A pending prompt is stored as the text `#PROMPT:` followed by the
question, and a literal value with that text is the same value: for a name `n`
that is a non-empty identifier and a question `q` that is not empty and has no
double quote, the body lines `n = "#PROMPT:q"` and `n = #prompt("q")` are compiled
alike, two bodies that differ only in that line give the same block and the same
fingerprint input, the value stored is `"#PROMPT:" + q`, and `executeBlock` asks the
question `q` for the block of either line. -/
theorem literal_sentinel_is_prompt (ws1 n ws2 ws3 q ws4 : Str) (hn : n ≠ [])
    (hnc : ∀ c ∈ n, isIdentChar c = true) (hq : q ≠ []) (hqq : dquote ∉ q)
    (h1 : ∀ c ∈ ws1, isSpace c = true) (h2 : ∀ c ∈ ws2, isReSpace c = true)
    (h3 : ∀ c ∈ ws3, isReSpace c = true) (h4 : ∀ c ∈ ws4, isSpace c = true) :
    (∀ st : CompileState, processLine st (literalLine ws1 n ws2 ws3 (promptSentinel ++ q) ws4) =
        processLine st (promptLine ws1 n ws2 ws3 q ws4)) ∧
      (∀ (b : RRBlock) (pre post : List Str),
        processBlockContent b (pre ++ literalLine ws1 n ws2 ws3 (promptSentinel ++ q) ws4 :: post) =
            processBlockContent b (pre ++ promptLine ws1 n ws2 ws3 q ws4 :: post) ∧
          hashContent (processBlockContent b
              (pre ++ literalLine ws1 n ws2 ws3 (promptSentinel ++ q) ws4 :: post)) =
            hashContent (processBlockContent b
              (pre ++ promptLine ws1 n ws2 ws3 q ws4 :: post))) ∧
      (∀ name : Str,
        processBlockContent ⟨name, [], []⟩
            [literalLine ws1 n ws2 ws3 (promptSentinel ++ q) ws4] =
          ⟨name, [(n, promptSentinel ++ q)], []⟩) ∧
      ∀ (name : Str) (envVars : List (Str × Str)) (stdin : List Str) (run : Str → Bool),
        (executeBlock (processBlockContent ⟨name, [], []⟩
            [literalLine ws1 n ws2 ws3 (promptSentinel ++ q) ws4]) envVars stdin run).asked = [q] ∧
          (executeBlock (processBlockContent ⟨name, [], []⟩
            [promptLine ws1 n ws2 ws3 q ws4]) envVars stdin run).asked = [q] := by
  have hv : promptSentinel ++ q ≠ [] := by
    intro e
    exact hq (List.append_eq_nil.mp e).2
  have hvq : dquote ∉ promptSentinel ++ q := by
    intro hm
    rcases List.mem_append.mp hm with h | h
    · exact absurd h (by decide)
    · exact hqq h
  have hlit := fun st =>
    processLine_literal st ws1 n ws2 ws3 (promptSentinel ++ q) ws4 hn hnc hv hvq h1 h2 h3 h4
  have hpr := fun st => processLine_prompt st ws1 n ws2 ws3 q ws4 hn hnc hq hqq h1 h2 h3 h4
  have hsame : ∀ st : CompileState,
      processLine st (literalLine ws1 n ws2 ws3 (promptSentinel ++ q) ws4) =
        processLine st (promptLine ws1 n ws2 ws3 q ws4) := by
    intro st
    rw [hlit, hpr]
    rfl
  have hblock : ∀ (b : RRBlock) (pre post : List Str),
      processBlockContent b (pre ++ literalLine ws1 n ws2 ws3 (promptSentinel ++ q) ws4 :: post) =
        processBlockContent b (pre ++ promptLine ws1 n ws2 ws3 q ws4 :: post) := by
    intro b pre post
    unfold processBlockContent compileLines
    simp only [List.foldl_append, List.foldl_cons, hsame]
  have hone : ∀ name : Str,
      processBlockContent ⟨name, [], []⟩
          [literalLine ws1 n ws2 ws3 (promptSentinel ++ q) ws4] =
        ⟨name, [(n, promptSentinel ++ q)], []⟩ := by
    intro name
    unfold processBlockContent compileLines
    rw [List.foldl_cons, List.foldl_nil, hlit]
    simp [flushPending, mapSet]
  refine ⟨hsame, fun b pre post => ⟨hblock b pre post, by rw [hblock b pre post]⟩, hone, ?_⟩
  intro name envVars stdin run
  have h2 := hblock ⟨name, [], []⟩ [] []
  simp only [List.nil_append] at h2
  rw [← h2, hone]
  exact ⟨executeBlock_single_prompt _ _ _ _ _ _ _, executeBlock_single_prompt _ _ _ _ _ _ _⟩

/-- The lines `name = "#PROMPT:Your name?"` and `name = #prompt("Your name?")`. -/
theorem literal_sentinel_is_prompt_witness :
    processBlockContent ⟨[], [], []⟩ ["name = \"#PROMPT:Your name?\"".toList] =
        ⟨[], [("name".toList, "#PROMPT:Your name?".toList)], []⟩ ∧
      processBlockContent ⟨[], [], []⟩ ["name = #prompt(\"Your name?\")".toList] =
        ⟨[], [("name".toList, "#PROMPT:Your name?".toList)], []⟩ :=
  ⟨(literal_sentinel_is_prompt [] "name".toList " ".toList " ".toList "Your name?".toList []
      (by decide) (by decide) (by decide) (by decide) (by decide) (by decide) (by decide)
      (by decide)).2.2.1 [],
    (((literal_sentinel_is_prompt [] "name".toList " ".toList " ".toList "Your name?".toList []
      (by decide) (by decide) (by decide) (by decide) (by decide) (by decide) (by decide)
      (by decide)).2.1 ⟨[], [], []⟩ [] []).1.symm).trans
      ((literal_sentinel_is_prompt [] "name".toList " ".toList " ".toList "Your name?".toList []
      (by decide) (by decide) (by decide) (by decide) (by decide) (by decide) (by decide)
      (by decide)).2.2.1 [])⟩

/-- C26 fails: the literal assignment `name = "#PROMPT:Your name?"` and the prompt
assignment `name = #prompt("Your name?")` are compiled into the same value, the
two blocks have the same fingerprint input, and `executeBlock` asks the question
for the block of the literal assignment. -/
theorem literal_sentinel_counterexample :
    processBlockContent ⟨[], [], []⟩
        ["name = \"#PROMPT:Your name?\"".toList, "echo #name".toList] =
        processBlockContent ⟨[], [], []⟩
          ["name = #prompt(\"Your name?\")".toList, "echo #name".toList] ∧
      hashContent (processBlockContent ⟨[], [], []⟩
        ["name = \"#PROMPT:Your name?\"".toList, "echo #name".toList]) =
        hashContent (processBlockContent ⟨[], [], []⟩
          ["name = #prompt(\"Your name?\")".toList, "echo #name".toList]) ∧
      executeBlock (processBlockContent ⟨[], [], []⟩
          ["name = \"#PROMPT:Your name?\"".toList, "echo #name".toList]) [] ["Bob".toList]
          (fun _ => true) =
        ⟨["Your name?".toList], ["echo Bob".toList], false, []⟩ := by
  decide

/-! ## An end marker on the start-marker line -/

theorem scanLine_end (b : RRBlock) (blockLines : List Str) (blocks : List RRBlock) (line : Str)
    (h1 : isStartLine line = false) (h2 : containsStr line endMarker = true) :
    scanLine ⟨true, some b, blockLines, blocks⟩ line =
      ⟨false, none, [], blocks ++ [processBlockContent b (blockLines ++ endLineText line)]⟩ := by
  unfold scanLine endLineText
  by_cases h3 : trimSuffix (trimSpace line) endMarker = []
  · simp [h1, h2, h3, emitBlock]
  · simp [h1, h2, h3, emitBlock]

theorem parseLines_start_body_end (s e : Str) (body post : List Str)
    (hs : isStartLine s = true)
    (hb : ∀ l ∈ body, isStartLine l = false ∧ containsStr l endMarker = false)
    (h1 : isStartLine e = false) (h2 : containsStr e endMarker = true) :
    parseLines (s :: (body ++ e :: post)) =
      processBlockContent ⟨startName s, [], []⟩ (body ++ endLineText e) :: parseLines post := by
  unfold parseLines
  rw [List.foldl_cons, scanLine_start _ s hs, List.foldl_append, foldl_scanLine_body body hb,
    List.foldl_cons, scanLine_end _ _ _ e h1 h2]
  have e1 : ∀ B : List RRBlock, (⟨false, none, [], B⟩ : ScanState) =
      ScanState.addBlocks B ⟨false, none, [], []⟩ := by
    intro B; simp [ScanState.addBlocks]
  rw [e1, foldl_scanLine_addBlocks, scanFinish_addBlocks]
  simp [scanFinish]

/-- C27. A line that matches the start marker and also contains `-->` opens a block
and does not close it: the scanner state after the line has the block open with no
body line, whatever the state before; a document that ends with the line gives a
block with no variable and no command; and the lines that follow, up to the end of
input, to the next start-marker line, or to the next line that contains `-->`,
are the body of the block. -/
theorem parseRRBlocks_end_marker_on_start_line (s : Str) (hs : isStartLine s = true)
    (_hend : containsStr s endMarker = true) :
    (∀ st : ScanState,
        scanLine st s = ⟨true, some ⟨startName s, [], []⟩, [], scanFinish st⟩) ∧
      (∀ (content : Str) (pre : List Str), splitLines content = pre ++ [s] →
        parseRRBlocks content = parseLines pre ++ [⟨startName s, [], []⟩]) ∧
      (∀ (content : Str) (pre body : List Str), splitLines content = pre ++ s :: body →
        (∀ l ∈ body, isStartLine l = false ∧ containsStr l endMarker = false) →
        parseRRBlocks content =
          parseLines pre ++ [processBlockContent ⟨startName s, [], []⟩ body]) ∧
      (∀ (content : Str) (pre body post : List Str) (s2 : Str),
        splitLines content = pre ++ s :: (body ++ s2 :: post) →
        (∀ l ∈ body, isStartLine l = false ∧ containsStr l endMarker = false) →
        isStartLine s2 = true →
        parseRRBlocks content =
          parseLines pre ++
            processBlockContent ⟨startName s, [], []⟩ body :: parseLines (s2 :: post)) ∧
      ∀ (content : Str) (pre body post : List Str) (e : Str),
        splitLines content = pre ++ s :: (body ++ e :: post) →
        (∀ l ∈ body, isStartLine l = false ∧ containsStr l endMarker = false) →
        isStartLine e = false → containsStr e endMarker = true →
        parseRRBlocks content =
          parseLines pre ++
            processBlockContent ⟨startName s, [], []⟩ (body ++ endLineText e) ::
              parseLines post := by
  refine ⟨fun st => scanLine_start st s hs, ?_, ?_, ?_, ?_⟩
  · intro content pre hsplit
    unfold parseRRBlocks
    rw [hsplit, parseLines_append_start pre [] s hs,
      parseLines_start_body s [] hs (fun l hl => absurd hl (List.not_mem_nil _))]
    rfl
  · intro content pre body hsplit hb
    unfold parseRRBlocks
    rw [hsplit, parseLines_append_start pre body s hs, parseLines_start_body s body hs hb]
  · intro content pre body post s2 hsplit hb h2
    unfold parseRRBlocks
    have e : s :: (body ++ s2 :: post) = (s :: body) ++ s2 :: post := rfl
    rw [hsplit, parseLines_append_start pre _ s hs, e, parseLines_append_start _ post s2 h2,
      parseLines_start_body s body hs hb]
    rfl
  · intro content pre body post e hsplit hb h1 h2
    unfold parseRRBlocks
    rw [hsplit, parseLines_append_start pre _ s hs,
      parseLines_start_body_end s e body post hs hb h1 h2]

/-- The start-marker line of a named block with a command and the end marker on
it, followed by two lines and a line with the end marker. -/
theorem parseRRBlocks_end_marker_on_start_line_witness :
    parseRRBlocks ("<!-- RR[n] echo hi ".toList ++ endMarker ++ "\necho a\necho b\n".toList ++
        endMarker ++ "\ntail".toList) =
      [⟨"n".toList, [], ["echo a".toList, "echo b".toList]⟩] :=
  ((parseRRBlocks_end_marker_on_start_line ("<!-- RR[n] echo hi ".toList ++ endMarker)
    (by decide) (by decide)).2.2.2.2
    ("<!-- RR[n] echo hi ".toList ++ endMarker ++ "\necho a\necho b\n".toList ++
        endMarker ++ "\ntail".toList) [] ["echo a".toList, "echo b".toList] ["tail".toList]
    endMarker (by decide) (by decide) (by decide) (by decide)).trans (by decide)

/-! ## The substitution: longest match and no second scan -/

/-- C29. In a command `p + "#" + id + s`, where `p` has no `#`, `id` is a non-empty
run of identifier characters and `s` is empty or begins with another character, the
reference is the whole run `id`: the result is `p`, then the replacement of `id`,
then the substitution of `s`.  When `id` is not a declared name the reference is
kept as it is, also when a proper prefix of `id` is declared; when `id` has the
value `v`, the text `v` is put in the result as it is, whatever `v` holds, and the
scan goes on with `s`. -/
theorem substituteVariables_longest_no_rescan (vars : List (Str × Str)) (p id s : Str)
    (hp : hashSign ∉ p) (hne : id ≠ []) (hid : ∀ c ∈ id, isIdentChar c = true)
    (hs : ∀ c ∈ s.head?, isIdentChar c = false) :
    substituteVariables (p ++ hashSign :: (id ++ s)) vars =
        p ++ (replaceReference vars id ++ substituteVariables s vars) ∧
      (vars.lookup id = none →
        ∀ (pre v : Str), pre <+: id → vars.lookup pre = some v →
          substituteVariables (p ++ hashSign :: (id ++ s)) vars =
            p ++ (hashSign :: id ++ substituteVariables s vars)) ∧
      ∀ v : Str, vars.lookup id = some v →
        substituteVariables (p ++ hashSign :: (id ++ s)) vars =
          p ++ (v ++ substituteVariables s vars) := by
  have e : substituteVariables (p ++ hashSign :: (id ++ s)) vars =
      p ++ (replaceReference vars id ++ substituteVariables s vars) := by
    rw [substituteVariables_copy vars p _ hp, substituteVariables_reference vars id s hne hid hs]
  refine ⟨e, ?_, ?_⟩
  · intro hnone pre v _ _
    rw [e, replaceReference, hnone]
  · intro v hv
    rw [e, replaceReference, hv]

/-- The two examples: with `var = "x"` the command `echo #var-name` is left as it
is, and with `a = "#b"`, `b = "c"` the command `#a` becomes `#b`. -/
theorem substituteVariables_longest_no_rescan_witness :
    substituteVariables "echo #var-name".toList [("var".toList, "x".toList)] =
        "echo #var-name".toList ∧
      substituteVariables "#a".toList [("a".toList, "#b".toList), ("b".toList, "c".toList)] =
        "#b".toList :=
  ⟨((substituteVariables_longest_no_rescan [("var".toList, "x".toList)] "echo ".toList
      "var-name".toList [] (by decide) (by decide) (by decide) (by simp)).2.1 (by decide)
      "var".toList "x".toList (by decide) (by decide)).trans (by decide),
    ((substituteVariables_longest_no_rescan
      [("a".toList, "#b".toList), ("b".toList, "c".toList)] [] "a".toList [] (by decide)
      (by decide) (by decide) (by simp)).2.2 "#b".toList (by decide)).trans (by decide)⟩

/-! ## The fingerprint input of a well-formed block -/

theorem hashContent_lines (b : RRBlock) :
    hashContent b = "name:".toList ++ (b.Name ++ newline ::
      ((variableLines b ++ commandLines b).flatMap fun l => l ++ [newline])) := by
  unfold hashContent variableLines commandLines
  have e1 : ∀ ks : List Str,
      (ks.flatMap fun k =>
        "var:".toList ++ k ++ "=".toList ++ mapGet b.Variables k ++ [newline]) =
      (ks.map fun k => "var:".toList ++ (k ++ equalsSign :: mapGet b.Variables k)).flatMap
        fun l => l ++ [newline] := by
    intro ks
    induction ks with
    | nil => rfl
    | cons k ks ih =>
      rw [List.flatMap_cons, List.map_cons, List.flatMap_cons, ih]
      have : "=".toList = [equalsSign] := rfl
      rw [this]
      simp
  have e2 : ∀ cs : List Str,
      (cs.flatMap fun cmd => "cmd:".toList ++ cmd ++ [newline]) =
      (cs.map fun cmd => "cmd:".toList ++ cmd).flatMap fun l => l ++ [newline] := by
    intro cs
    induction cs with
    | nil => rfl
    | cons k ks ih => rw [List.flatMap_cons, List.map_cons, List.flatMap_cons, ih]
  rw [e1, e2, List.flatMap_append]
  simp

theorem lines_injective : ∀ (l1 l2 : List Str), (∀ l ∈ l1, newline ∉ l) →
    (∀ l ∈ l2, newline ∉ l) →
    (l1.flatMap fun l => l ++ [newline]) = (l2.flatMap fun l => l ++ [newline]) → l1 = l2 := by
  intro l1
  induction l1 with
  | nil =>
    intro l2 _ _ h
    cases l2 with
    | nil => rfl
    | cons c cs => simp [List.flatMap_cons] at h
  | cons c1 cs1 ih =>
    intro l2 h1 h2 h
    cases l2 with
    | nil => simp [List.flatMap_cons] at h
    | cons c2 cs2 =>
      simp only [List.flatMap_cons, List.append_assoc, List.singleton_append] at h
      obtain ⟨e1, e2⟩ := append_cons_inj newline c1 c2 _ _ (h1 c1 (List.mem_cons_self _ _))
        (h2 c2 (List.mem_cons_self _ _)) h
      rw [e1, ih cs2 (fun c hc => h1 c (List.mem_cons_of_mem _ hc))
        (fun c hc => h2 c (List.mem_cons_of_mem _ hc)) e2]

theorem append_split_by {α : Type} (p : α → Bool) : ∀ (vs1 vs2 cs1 cs2 : List α),
    (∀ x ∈ vs1, p x = true) → (∀ x ∈ vs2, p x = true) → (∀ x ∈ cs1, p x = false) →
    (∀ x ∈ cs2, p x = false) → vs1 ++ cs1 = vs2 ++ cs2 → vs1 = vs2 ∧ cs1 = cs2 := by
  intro vs1
  induction vs1 with
  | nil =>
    intro vs2 cs1 cs2 _ hv2 hc1 _ h
    cases vs2 with
    | nil => exact ⟨rfl, h⟩
    | cons y ys =>
      exfalso
      rw [List.nil_append, List.cons_append] at h
      have h1 := hc1 y (h ▸ List.mem_cons_self _ _)
      rw [hv2 y (List.mem_cons_self _ _)] at h1
      exact absurd h1 (by decide)
  | cons x xs ih =>
    intro vs2 cs1 cs2 hv1 hv2 hc1 hc2 h
    cases vs2 with
    | nil =>
      exfalso
      rw [List.nil_append, List.cons_append] at h
      have h1 := hc2 x (h ▸ List.mem_cons_self _ _)
      rw [hv1 x (List.mem_cons_self _ _)] at h1
      exact absurd h1 (by decide)
    | cons y ys =>
      simp only [List.cons_append, List.cons.injEq] at h
      obtain ⟨e1, e2⟩ := ih ys cs1 cs2 (fun z hz => hv1 z (List.mem_cons_of_mem _ hz))
        (fun z hz => hv2 z (List.mem_cons_of_mem _ hz)) hc1 hc2 h.2
      exact ⟨by rw [h.1, e1], e2⟩

theorem variableLines_injective (g1 g2 : Str → Str) : ∀ (ks1 ks2 : List Str),
    (∀ k ∈ ks1, equalsSign ∉ k) → (∀ k ∈ ks2, equalsSign ∉ k) →
    (ks1.map fun k => "var:".toList ++ (k ++ equalsSign :: g1 k)) =
      (ks2.map fun k => "var:".toList ++ (k ++ equalsSign :: g2 k)) →
    ks1 = ks2 ∧ ∀ k ∈ ks1, g1 k = g2 k := by
  intro ks1
  induction ks1 with
  | nil =>
    intro ks2 _ _ h
    cases ks2 with
    | nil => exact ⟨rfl, fun k hk => absurd hk (List.not_mem_nil _)⟩
    | cons y ys => simp at h
  | cons x xs ih =>
    intro ks2 h1 h2 h
    cases ks2 with
    | nil => simp at h
    | cons y ys =>
      simp only [List.map_cons, List.cons.injEq] at h
      obtain ⟨e1, e2⟩ := append_cons_inj equalsSign x y _ _ (h1 x (List.mem_cons_self _ _))
        (h2 y (List.mem_cons_self _ _)) (List.append_cancel_left h.1)
      obtain ⟨e3, e4⟩ := ih ys (fun z hz => h1 z (List.mem_cons_of_mem _ hz))
        (fun z hz => h2 z (List.mem_cons_of_mem _ hz)) h.2
      subst e1
      refine ⟨by rw [e3], ?_⟩
      intro k hk
      rcases List.mem_cons.mp hk with rfl | hk
      · exact e2
      · exact e4 k hk

theorem commandLines_injective : ∀ (cs1 cs2 : List Str),
    (cs1.map fun cmd => "cmd:".toList ++ cmd) = (cs2.map fun cmd => "cmd:".toList ++ cmd) →
    cs1 = cs2 := by
  intro cs1
  induction cs1 with
  | nil =>
    intro cs2 h
    cases cs2 with
    | nil => rfl
    | cons y ys => simp at h
  | cons x xs ih =>
    intro cs2 h
    cases cs2 with
    | nil => simp at h
    | cons y ys =>
      simp only [List.map_cons, List.cons.injEq] at h
      rw [List.append_cancel_left h.1, ih ys h.2]

theorem lookup_of_mem_keys : ∀ (m : List (Str × Str)) (k : Str), k ∈ m.map Prod.fst →
    ∃ v, m.lookup k = some v ∧ (k, v) ∈ m := by
  intro m
  induction m with
  | nil => intro k hk; simp at hk
  | cons p m ih =>
    intro k hk
    obtain ⟨k0, v0⟩ := p
    by_cases h : k = k0
    · subst h
      exact ⟨v0, by simp [List.lookup_cons], List.mem_cons_self _ _⟩
    · have e : (k == k0) = false := by simpa using h
      rw [List.map_cons, List.mem_cons] at hk
      rcases hk with hk | hk
      · exact absurd hk h
      · obtain ⟨v, hv, hm⟩ := ih k hk
        exact ⟨v, by simp [List.lookup_cons, e, hv], List.mem_cons_of_mem _ hm⟩

theorem lookup_none_of_not_mem_keys (m : List (Str × Str)) (k : Str)
    (h : k ∉ m.map Prod.fst) : m.lookup k = none := by
  rw [List.lookup_eq_none_iff]
  intro p hp
  simp only [bne_iff_ne, ne_eq]
  intro hk
  exact h (List.mem_map.mpr ⟨p, hp, hk.symm⟩)

theorem mem_iff_lookup : ∀ (m : List (Str × Str)), (m.map Prod.fst).Nodup →
    ∀ k v, (k, v) ∈ m ↔ m.lookup k = some v := by
  intro m
  induction m with
  | nil => intro _ k v; simp
  | cons p m ih =>
    intro hnd k v
    obtain ⟨k0, v0⟩ := p
    rw [List.map_cons, List.nodup_cons] at hnd
    by_cases h : k = k0
    · subst h
      simp only [List.mem_cons, Prod.mk.injEq, true_and, List.lookup_cons, beq_self_eq_true,
        Option.some.injEq]
      constructor
      · rintro (h1 | h1)
        · exact h1.symm
        · exact absurd (List.mem_map.mpr ⟨(k, v), h1, rfl⟩) hnd.1
      · intro h1
        exact Or.inl h1.symm
    · have e : (k == k0) = false := by simpa using h
      simp only [List.mem_cons, Prod.mk.injEq, h, false_and, false_or, List.lookup_cons, e]
      exact ih hnd.2 k v

theorem pairs_nodup (m : List (Str × Str)) (h : (m.map Prod.fst).Nodup) : m.Nodup :=
  List.Nodup.of_map _ h

theorem hashContent_injective (b1 b2 : RRBlock) (h1 : WellFormed b1) (h2 : WellFormed b2)
    (h : hashContent b1 = hashContent b2) :
    b1.Name = b2.Name ∧ b1.Variables.Perm b2.Variables ∧
      (∀ k, b1.Variables.lookup k = b2.Variables.lookup k) ∧ b1.Commands = b2.Commands := by
  obtain ⟨hn1, hnd1, hv1, hc1⟩ := h1
  obtain ⟨hn2, hnd2, hv2, hc2⟩ := h2
  rw [hashContent_lines, hashContent_lines] at h
  obtain ⟨en, el⟩ := append_cons_inj newline _ _ _ _ hn1 hn2 (List.append_cancel_left h)
  have key_mem : ∀ (b : RRBlock) (k : Str), k ∈ exchangeSort (b.Variables.map Prod.fst) ↔
      k ∈ b.Variables.map Prod.fst := fun b k => (exchangeSort_perm _).mem_iff
  have nl_var : ∀ b : RRBlock,
      (∀ kv ∈ b.Variables, equalsSign ∉ kv.1 ∧ newline ∉ kv.1 ∧ newline ∉ kv.2) →
      ∀ l ∈ variableLines b, newline ∉ l := by
    intro b hv l hl
    unfold variableLines at hl
    obtain ⟨k, hk, rfl⟩ := List.mem_map.mp hl
    obtain ⟨v, hlk, hm⟩ := lookup_of_mem_keys b.Variables k ((key_mem b k).mp hk)
    obtain ⟨_, hk1, hk2⟩ := hv (k, v) hm
    have eg : mapGet b.Variables k = v := by simp [mapGet, hlk]
    rw [eg]
    intro hmem
    simp only [List.mem_append, List.mem_cons] at hmem
    rcases hmem with hmem | hmem | hmem | hmem
    · exact absurd hmem (by decide)
    · exact hk1 hmem
    · exact absurd hmem (by decide)
    · exact hk2 hmem
  have nl_cmd : ∀ b : RRBlock, (∀ c ∈ b.Commands, newline ∉ c) →
      ∀ l ∈ commandLines b, newline ∉ l := by
    intro b hc l hl
    unfold commandLines at hl
    obtain ⟨c, hcm, rfl⟩ := List.mem_map.mp hl
    intro hmem
    rcases List.mem_append.mp hmem with hmem | hmem
    · exact absurd hmem (by decide)
    · exact hc c hcm hmem
  have nl_all : ∀ b : RRBlock,
      (∀ kv ∈ b.Variables, equalsSign ∉ kv.1 ∧ newline ∉ kv.1 ∧ newline ∉ kv.2) →
      (∀ c ∈ b.Commands, newline ∉ c) →
      ∀ l ∈ variableLines b ++ commandLines b, newline ∉ l := by
    intro b hv hc l hl
    rcases List.mem_append.mp hl with hl | hl
    · exact nl_var b hv l hl
    · exact nl_cmd b hc l hl
  have elines := lines_injective _ _ (nl_all b1 hv1 hc1) (nl_all b2 hv2 hc2) el
  have pv : ∀ b : RRBlock, ∀ x ∈ variableLines b, (x.head? == some 'v') = true := by
    intro b x hx
    unfold variableLines at hx
    obtain ⟨k, _, rfl⟩ := List.mem_map.mp hx
    rfl
  have pc : ∀ b : RRBlock, ∀ x ∈ commandLines b, (x.head? == some 'v') = false := by
    intro b x hx
    unfold commandLines at hx
    obtain ⟨k, _, rfl⟩ := List.mem_map.mp hx
    rfl
  obtain ⟨ev, ec⟩ := append_split_by (fun x : Str => x.head? == some 'v') _ _ _ _
    (pv b1) (pv b2) (pc b1) (pc b2) elines
  have ecmd : b1.Commands = b2.Commands := commandLines_injective _ _ ec
  have eqk : ∀ b : RRBlock,
      (∀ kv ∈ b.Variables, equalsSign ∉ kv.1 ∧ newline ∉ kv.1 ∧ newline ∉ kv.2) →
      ∀ k ∈ exchangeSort (b.Variables.map Prod.fst), equalsSign ∉ k := by
    intro b hv k hk
    obtain ⟨v, _, hm⟩ := lookup_of_mem_keys b.Variables k ((key_mem b k).mp hk)
    exact (hv (k, v) hm).1
  obtain ⟨ekeys, evals⟩ := variableLines_injective (mapGet b1.Variables) (mapGet b2.Variables)
    _ _ (eqk b1 hv1) (eqk b2 hv2) ev
  have hlook : ∀ k, b1.Variables.lookup k = b2.Variables.lookup k := by
    intro k
    by_cases hk : k ∈ b1.Variables.map Prod.fst
    · have hk1 := (key_mem b1 k).mpr hk
      have hk2 : k ∈ b2.Variables.map Prod.fst := (key_mem b2 k).mp (ekeys ▸ hk1)
      obtain ⟨v1, hl1, _⟩ := lookup_of_mem_keys b1.Variables k hk
      obtain ⟨v2, hl2, _⟩ := lookup_of_mem_keys b2.Variables k hk2
      have := evals k hk1
      simp only [mapGet, hl1, hl2, Option.getD_some] at this
      rw [hl1, hl2, this]
    · have hk2 : k ∉ b2.Variables.map Prod.fst := by
        intro hk2
        exact hk ((key_mem b1 k).mp (ekeys ▸ (key_mem b2 k).mpr hk2))
      rw [lookup_none_of_not_mem_keys _ k hk, lookup_none_of_not_mem_keys _ k hk2]
  refine ⟨en, ?_, hlook, ecmd⟩
  rw [List.perm_ext_iff_of_nodup (pairs_nodup _ hnd1) (pairs_nodup _ hnd2)]
  rintro ⟨k, v⟩
  rw [mem_iff_lookup _ hnd1, mem_iff_lookup _ hnd2, hlook]

/-! ## The blocks built by the parser -/

theorem trimSpace_subset (s : Str) : ∀ c ∈ trimSpace s, c ∈ s := by
  intro c hc
  unfold trimSpace at hc
  exact (List.dropWhile_suffix _).subset ((List.rdropWhile_prefix _ _).subset hc)

theorem trimRightBlanks_subset (s : Str) : ∀ c ∈ trimRightBlanks s, c ∈ s := by
  intro c hc
  unfold trimRightBlanks at hc
  exact (List.rdropWhile_prefix _ _).subset hc

theorem trimSuffix_subset (s suf : Str) : ∀ c ∈ trimSuffix s suf, c ∈ s := by
  intro c hc
  unfold trimSuffix at hc
  split at hc
  · exact List.mem_of_mem_take hc
  · exact hc

theorem matchAssignHead_ident (line n rest : Str) (h : matchAssignHead line = some (n, rest)) :
    ∀ c ∈ n, isIdentChar c = true := by
  unfold matchAssignHead at h
  simp only at h
  split at h
  · exact absurd h (by simp)
  · split at h
    · exact absurd h (by simp)
    · split at h
      · simp only [Option.some.injEq, Prod.mk.injEq] at h
        rw [← h.1]
        intro c hc
        exact (List.mem_takeWhile_imp hc)
      · exact absurd h (by simp)

theorem matchVarAssign_some (line n v : Str) (h : matchVarAssign line = some (n, v)) :
    (∀ c ∈ n, isIdentChar c = true) ∧ ∀ c ∈ v, c ∈ line := by
  unfold matchVarAssign at h
  split at h
  · exact absurd h (by simp)
  · rename_i n0 rest hh
    split at h
    · exact absurd h (by simp)
    · rename_i v0 hq
      simp only [Option.some.injEq, Prod.mk.injEq] at h
      obtain ⟨rfl, rfl⟩ := h
      refine ⟨matchAssignHead_ident _ _ _ hh, ?_⟩
      obtain ⟨s2, hs, _⟩ := matchQuotedTail_split _ _ _ _ hq
      intro c hc
      apply (matchAssignHead_suffix _ _ _ hh).subset
      rw [hs]
      simp [hc]

theorem matchPrompt_some (line n q : Str) (h : matchPrompt line = some (n, q)) :
    (∀ c ∈ n, isIdentChar c = true) ∧ ∀ c ∈ q, c ∈ line := by
  unfold matchPrompt at h
  split at h
  · exact absurd h (by simp)
  · rename_i n0 rest hh
    split at h
    · exact absurd h (by simp)
    · rename_i v0 hq
      simp only [Option.some.injEq, Prod.mk.injEq] at h
      obtain ⟨rfl, rfl⟩ := h
      refine ⟨matchAssignHead_ident _ _ _ hh, ?_⟩
      obtain ⟨s2, hs, _⟩ := matchQuotedTail_split _ _ _ _ hq
      intro c hc
      apply (matchAssignHead_suffix _ _ _ hh).subset
      rw [hs]
      simp [hc]

theorem mapSet_keys (m : List (Str × Str)) (k v : Str) :
    (mapSet m k v).map Prod.fst =
      if k ∈ m.map Prod.fst then m.map Prod.fst else m.map Prod.fst ++ [k] := by
  induction m with
  | nil => simp [mapSet]
  | cons p m ih =>
    obtain ⟨k0, v0⟩ := p
    unfold mapSet
    by_cases h : k0 = k
    · subst h
      simp
    · have h2 : ¬ k = k0 := fun e => h e.symm
      simp only [h, if_false, List.map_cons, ih, List.mem_cons, h2, false_or]
      by_cases hk : k ∈ m.map Prod.fst
      · simp only [hk, if_true]
      · simp only [hk, if_false, List.cons_append]

theorem mapSet_keys_nodup (m : List (Str × Str)) (k v : Str) (h : (m.map Prod.fst).Nodup) :
    ((mapSet m k v).map Prod.fst).Nodup := by
  rw [mapSet_keys]
  by_cases hk : k ∈ m.map Prod.fst
  · rw [if_pos hk]
    exact h
  · rw [if_neg hk]
    exact List.Nodup.append h (List.nodup_singleton k) (by
      intro x hx hx2
      rw [List.mem_singleton] at hx2
      exact hk (hx2 ▸ hx))

theorem mem_mapSet (m : List (Str × Str)) (k v : Str) (kv : Str × Str)
    (h : kv ∈ mapSet m k v) : kv ∈ m ∨ kv = (k, v) := by
  induction m with
  | nil =>
    simp only [mapSet, List.mem_singleton] at h
    exact Or.inr h
  | cons p m ih =>
    obtain ⟨k0, v0⟩ := p
    unfold mapSet at h
    by_cases h0 : k0 = k
    · rw [if_pos h0] at h
      rcases List.mem_cons.mp h with h | h
      · exact Or.inr h
      · exact Or.inl (List.mem_cons_of_mem _ h)
    · rw [if_neg h0] at h
      rcases List.mem_cons.mp h with h | h
      · exact Or.inl (h ▸ List.mem_cons_self _ _)
      · rcases ih h with h | h
        · exact Or.inl (List.mem_cons_of_mem _ h)
        · exact Or.inr h

theorem ident_no_separator (n : Str) (h : ∀ c ∈ n, isIdentChar c = true) :
    equalsSign ∉ n ∧ newline ∉ n :=
  ⟨fun hm => absurd (h _ hm) (by decide), fun hm => absurd (h _ hm) (by decide)⟩

theorem appendCommand_no_newline (commands : List Str) (text : Str)
    (hc : ∀ c ∈ commands, newline ∉ c) (ht : newline ∉ text) :
    ∀ c ∈ appendCommand commands text, newline ∉ c := by
  intro c hm
  unfold appendCommand at hm
  split at hm
  · rcases List.mem_append.mp hm with hm | hm
    · exact hc c hm
    · rw [List.mem_singleton] at hm
      rw [hm]
      exact fun hx => ht (trimSpace_subset _ _ hx)
  · exact hc c hm

theorem flushPending_no_newline (st : CompileState) (h : CompileInvariant st) :
    ∀ c ∈ flushPending st, newline ∉ c := by
  unfold flushPending
  split
  · exact appendCommand_no_newline _ _ h.2.2.2 h.2.2.1
  · exact h.2.2.2

theorem assign_invariant (st : CompileState) (n v : Str) (h : CompileInvariant st)
    (hn : ∀ c ∈ n, isIdentChar c = true) (hv : newline ∉ v) :
    CompileInvariant ⟨mapSet st.vars n v, [], flushPending st⟩ := by
  refine ⟨mapSet_keys_nodup _ _ _ h.1, ?_, List.not_mem_nil _, flushPending_no_newline st h⟩
  intro kv hkv
  rcases mem_mapSet _ _ _ _ hkv with hkv | rfl
  · exact h.2.1 kv hkv
  · exact ⟨(ident_no_separator n hn).1, (ident_no_separator n hn).2, hv⟩

theorem processLine_invariant (st : CompileState) (line : Str) (h : CompileInvariant st)
    (hl : newline ∉ line) : CompileInvariant (processLine st line) := by
  have ht : newline ∉ trimSpace line := fun hx => hl (trimSpace_subset _ _ hx)
  unfold processLine
  simp only
  split
  · exact h
  · split
    · rename_i n v hm
      exact assign_invariant st n v h (matchVarAssign_some _ _ _ hm).1
        (fun hx => ht ((matchVarAssign_some _ _ _ hm).2 _ hx))
    · split
      · rename_i n q hm
        refine assign_invariant st n _ h (matchPrompt_some _ _ _ hm).1 ?_
        intro hx
        rcases List.mem_append.mp hx with hx | hx
        · exact absurd hx (by decide)
        · exact ht ((matchPrompt_some _ _ _ hm).2 _ hx)
      · have hcur : newline ∉ (if st.currentCommand ≠ [] then st.currentCommand ++ " ".toList
            else st.currentCommand) := by
          split
          · intro hx
            rcases List.mem_append.mp hx with hx | hx
            · exact h.2.2.1 hx
            · exact absurd hx (by decide)
          · exact h.2.2.1
        split
        · refine ⟨h.1, h.2.1, ?_, h.2.2.2⟩
          intro hx
          rcases List.mem_append.mp hx with hx | hx
          · exact hcur hx
          · exact ht (trimRightBlanks_subset _ _ (trimSuffix_subset _ _ _ hx))
        · refine ⟨h.1, h.2.1, List.not_mem_nil _, ?_⟩
          refine appendCommand_no_newline _ _ h.2.2.2 ?_
          intro hx
          rcases List.mem_append.mp hx with hx | hx
          · exact hcur hx
          · exact ht hx

theorem foldl_processLine_invariant (lines : List Str) (hl : ∀ l ∈ lines, newline ∉ l) :
    ∀ st : CompileState, CompileInvariant st → CompileInvariant (lines.foldl processLine st) := by
  induction lines with
  | nil => intro st h; exact h
  | cons l ls ih =>
    intro st h
    rw [List.foldl_cons]
    exact ih (fun x hx => hl x (List.mem_cons_of_mem _ hx)) _
      (processLine_invariant st l h (hl l (List.mem_cons_self _ _)))

theorem processBlockContent_wellFormed (b : RRBlock) (lines : List Str) (hb : WellFormed b)
    (hl : ∀ l ∈ lines, newline ∉ l) : WellFormed (processBlockContent b lines) := by
  have h := foldl_processLine_invariant lines hl ⟨b.Variables, [], []⟩
    ⟨hb.2.1, hb.2.2.1, List.not_mem_nil _, fun c hc => absurd hc (List.not_mem_nil _)⟩
  exact ⟨hb.1, h.1, h.2.1, flushPending_no_newline _ h⟩

theorem bracketName_subset (s : Str) : ∀ c ∈ bracketName s, c ∈ s := by
  intro c hc
  unfold bracketName at hc
  split at hc
  · exact hc
  · rename_i c0 rest
    split at hc
    · split at hc
      · exact absurd hc (List.not_mem_nil _)
      · exact List.mem_cons_of_mem _ ((List.takeWhile_prefix _).subset hc)
    · exact absurd hc (List.not_mem_nil _)

theorem startName_subset (line : Str) : ∀ c ∈ startName line, c ∈ line := by
  intro c hc
  unfold startName at hc
  cases hf : findStartMarker line with
  | none =>
    rw [hf] at hc
    exact absurd hc (List.not_mem_nil _)
  | some x =>
    rw [hf] at hc
    obtain ⟨pre, s, e, hs⟩ := findStartMarker_some_split line x hf
    obtain ⟨ws, rest, _, e2, e3⟩ := (matchStartAt_eq_some_iff s x).mp hs
    have hc2 : c ∈ rest := bracketName_subset rest c (by rw [← e3]; exact hc)
    rw [e, e2]
    simp [hc2]

theorem emitBlock_wellFormed (blocks : List RRBlock) (cur : Option RRBlock) (lines : List Str)
    (hb : ∀ b ∈ blocks, WellFormed b) (hc : ∀ b, cur = some b → WellFormed b)
    (hl : ∀ l ∈ lines, newline ∉ l) : ∀ b ∈ emitBlock blocks cur lines, WellFormed b := by
  intro b hm
  unfold emitBlock at hm
  split at hm
  · rename_i b0
    rcases List.mem_append.mp hm with hm | hm
    · exact hb b hm
    · rw [List.mem_singleton] at hm
      rw [hm]
      exact processBlockContent_wellFormed b0 lines (hc b0 rfl) hl
  · exact hb b hm

theorem scanLine_invariant (st : ScanState) (line : Str) (h : ScanInvariant st)
    (hl : newline ∉ line) : ScanInvariant (scanLine st line) := by
  obtain ⟨h1, h2, h3⟩ := h
  unfold scanLine
  split
  · refine ⟨?_, fun l hx => absurd hx (List.not_mem_nil _), ?_⟩
    · intro b hb
      simp only [Option.some.injEq] at hb
      rw [← hb]
      exact ⟨fun hx => hl (startName_subset line _ hx), List.nodup_nil,
        fun kv hkv => absurd hkv (List.not_mem_nil _), fun c hc => absurd hc (List.not_mem_nil _)⟩
    · simp only
      split
      · exact emitBlock_wellFormed _ _ _ h3 h1 h2
      · exact h3
  · split
    · refine ⟨fun b hb => absurd hb (by simp), fun l hx => absurd hx (List.not_mem_nil _), ?_⟩
      simp only
      refine emitBlock_wellFormed _ _ _ h3 h1 ?_
      split
      · intro l hx
        rcases List.mem_append.mp hx with hx | hx
        · exact h2 l hx
        · rw [List.mem_singleton] at hx
          rw [hx]
          exact fun hy => hl (trimSpace_subset _ _ (trimSuffix_subset _ _ _ hy))
      · exact h2
    · split
      · refine ⟨h1, ?_, h3⟩
        intro l hx
        rcases List.mem_append.mp hx with hx | hx
        · exact h2 l hx
        · rw [List.mem_singleton] at hx
          rw [hx]
          exact hl
      · exact ⟨h1, h2, h3⟩

theorem foldl_scanLine_invariant (lines : List Str) (hl : ∀ l ∈ lines, newline ∉ l) :
    ∀ st : ScanState, ScanInvariant st → ScanInvariant (lines.foldl scanLine st) := by
  induction lines with
  | nil => intro st h; exact h
  | cons l ls ih =>
    intro st h
    rw [List.foldl_cons]
    exact ih (fun x hx => hl x (List.mem_cons_of_mem _ hx)) _
      (scanLine_invariant st l h (hl l (List.mem_cons_self _ _)))

theorem parseRRBlocks_wellFormed (content : Str) : ∀ b ∈ parseRRBlocks content, WellFormed b := by
  have h := foldl_scanLine_invariant (splitLines content) (splitLines_no_newline content)
    ⟨false, none, [], []⟩
    ⟨fun b hb => absurd hb (by simp), fun l hx => absurd hx (List.not_mem_nil _),
      fun b hb => absurd hb (List.not_mem_nil _)⟩
  intro b hb
  unfold parseRRBlocks parseLines scanFinish at hb
  split at hb
  · exact emitBlock_wellFormed _ _ _ h.2.2 h.1 h.2.1 b hb
  · exact h.2.2 b hb

/-- C28. For two blocks that each occur in a result of `parseRRBlocks`, for any two
documents: when the canonical strings that `hashBlock` feeds to SHA-256 are equal,
the blocks have the same name, the same variables (the same entries, and the same
value or none for every key) and the same commands in the same order. -/
theorem parsed_fingerprint_input_injective (content1 content2 : Str) (b1 b2 : RRBlock)
    (h1 : b1 ∈ parseRRBlocks content1) (h2 : b2 ∈ parseRRBlocks content2)
    (h : hashContent b1 = hashContent b2) :
    b1.Name = b2.Name ∧ b1.Variables.Perm b2.Variables ∧
      (∀ k, b1.Variables.lookup k = b2.Variables.lookup k) ∧ b1.Commands = b2.Commands :=
  hashContent_injective b1 b2 (parseRRBlocks_wellFormed content1 b1 h1)
    (parseRRBlocks_wellFormed content2 b2 h2) h

/-- Two documents that declare the same two variables in different orders: the
blocks have the same canonical string, and their variables are the same entries. -/
theorem parsed_fingerprint_input_injective_witness :
    ([("a".toList, "1".toList), ("b".toList, "2".toList)] : List (Str × Str)).Perm
      [("b".toList, "2".toList), ("a".toList, "1".toList)] :=
  (parsed_fingerprint_input_injective
    ("<!-- RR[T]\na = \"1\"\nb = \"2\"\necho #a #b\n".toList ++ endMarker)
    ("# Title\n<!--RR[T]\n  b = \"2\"\n  a = \"1\"\n  echo #a #b\n".toList ++ endMarker)
    ⟨"T".toList, [("a".toList, "1".toList), ("b".toList, "2".toList)], ["echo #a #b".toList]⟩
    ⟨"T".toList, [("b".toList, "2".toList), ("a".toList, "1".toList)], ["echo #a #b".toList]⟩
    (by decide) (by decide) (by decide)).2.1

end ReadMeRunner
